import Mathlib

/-!
# Verification of the Go board engine (`src/board.py`)

This file is a shallow embedding of the final, most complete Go board engine
of the repository (`src/board.py`): the `Stone` enumeration, the `Board`
class with its grid, turn, Ko point, pass counter and the four parallel
history lists, and the operations `place_stone`, `pass_move`, `undo`,
`get_group_and_liberties`, `is_over`, `calculate_scores`,
`_find_empty_region_reach` and `get_final_scores`.

Embedding conventions:

* Python mutation + exceptions are modelled by state-passing: a fallible
  method on `Board` returns `Board × Option GoError`, where the returned
  board is the object's state when the call returns or raises, and the
  error component names the raised exception (`none` = normal return).
  The error names follow the specification's taxonomy (`OutOfBounds` and
  the seed-read failure of `get_group_and_liberties` are Python
  `IndexError`s, `Occupied`/`KoViolation`/`SuicideViolation` are
  `ValueError`s, `EmptyHistory` is a `RuntimeError`).
* Coordinates are unbounded Python integers, so `Point := Int × Int`.
  List indexing follows Python semantics (`pyIdx`): nonnegative indices
  read directly, indices in `[-len, -1]` wrap around, anything else is an
  `IndexError` (modelled as `none`).
* Reads that the source performs only under a bounds guard (so that they
  can never raise) are totalised with `gridAt`, which defaults to `EMPTY`
  out of range; the one unguarded read — the seed read of
  `get_group_and_liberties` — keeps the `Option` so that the `IndexError`
  is observable.
* The recursive depth-first search of `get_group_and_liberties` and the
  BFS of `_find_empty_region_reach` are written as worklist loops with an
  explicit fuel argument so that they are structurally recursive (hence
  computable by `decide`); the fuel `5 * size * size + 1` is proved
  sufficient (`gflLoop` and `ferLoop` never hit the fuel-exhaustion branch
  when started with it, see the measure lemmas below).
* The Python `set`s returned by the searches are represented as `Nodup`
  lists (the visited-set discipline of the source guarantees no
  duplicates); the order in which Python enumerates a set is unspecified,
  so only membership and length are ever relied upon.
* History lists are kept most-recent-first (`::` = Python `append`,
  pattern matching the head = Python `pop()`).
* `komi` is a Python float; it is embedded as a rational number (all
  arithmetic the engine performs on it is exact at these magnitudes).
-/

/-- `Stone` enumeration of `board.py`. -/
inductive Stone where
  | EMPTY : Stone
  | BLACK : Stone
  | WHITE : Stone
deriving DecidableEq

/-- `Stone.opponent` property: Black↔White, Empty→Empty. -/
def Stone.opponent : Stone → Stone
  | Stone.BLACK => Stone.WHITE
  | Stone.WHITE => Stone.BLACK
  | Stone.EMPTY => Stone.EMPTY

/-- A board coordinate, `(row, col)`. Python integers are unbounded. -/
abbrev Point := Int × Int

/-- Python list indexing `l[i]`: nonnegative indices read directly,
indices in `[-len l, -1]` wrap around, anything else raises `IndexError`
(modelled as `none`). -/
def pyIdx {α : Type} (l : List α) (i : Int) : Option α :=
  if 0 ≤ i then l.get? i.toNat
  else if (l.length : Int) + i < 0 then none
  else l.get? ((l.length : Int) + i).toNat

/-- The raw Python read `grid[r][c]` (an `IndexError` in either dimension
gives `none`). -/
def gridGet (g : List (List Stone)) (r c : Int) : Option Stone :=
  (pyIdx g r).bind (fun row => pyIdx row c)

/-- Totalised grid read, used for the reads that the source only performs
under an in-bounds guard (where it agrees with `gridGet`). -/
def gridAt (g : List (List Stone)) (r c : Int) : Stone :=
  (gridGet g r c).getD Stone.EMPTY

/-- The Python assignment `grid[r][c] = v` (only ever executed with
`0 ≤ r < size`, `0 ≤ c < size`). -/
def setCell (g : List (List Stone)) (r c : Int) (v : Stone) : List (List Stone) :=
  match g.get? r.toNat with
  | none => g
  | some row => g.set r.toNat (row.set c.toNat v)

/-- `Board._is_on_board`: `0 <= row < size and 0 <= col < size`. -/
def isOnBoard (size : Nat) (r c : Int) : Bool :=
  decide (0 ≤ r) && decide (r < (size : Int)) && decide (0 ≤ c) && decide (c < (size : Int))

/-- The neighbour offsets `Board.NEIGHBORS = ((0,1), (0,-1), (1,0), (-1,0))`. -/
def NEIGHBORS : List (Int × Int) := [(0, 1), (0, -1), (1, 0), (-1, 0)]

/-- The four orthogonal neighbours of a point, in the order the DFS of
`get_group_and_liberties` visits them (`(-1,0), (1,0), (0,-1), (0,1)`). -/
def nbrsOf (p : Point) : List Point :=
  [(p.1 - 1, p.2), (p.1 + 1, p.2), (p.1, p.2 - 1), (p.1, p.2 + 1)]

/-- All on-board points, as a finite set (used for termination measures and
for counting). -/
def boardPoints (size : Nat) : Finset Point :=
  (Finset.range size ×ˢ Finset.range size).image (fun rc => ((rc.1 : Int), (rc.2 : Int)))

/-- Well-formedness of a grid: `size` rows of length `size` each.  The
constructor establishes it and every mutation preserves it. -/
def WFGrid (size : Nat) (g : List (List Stone)) : Prop :=
  g.length = size ∧ ∀ row ∈ g, row.length = size

instance (size : Nat) (g : List (List Stone)) : Decidable (WFGrid size g) := by
  unfold WFGrid; infer_instance

/-- The error taxonomy of the specification.  `OutOfBounds` is the
`IndexError` of `place_stone`'s bounds check, `Occupied`, `KoViolation`
and `SuicideViolation` are its `ValueError`s, `EmptyHistory` is the
`RuntimeError` of `undo`. -/
inductive GoError where
  | OutOfBounds : GoError
  | Occupied : GoError
  | KoViolation : GoError
  | SuicideViolation : GoError
  | EmptyHistory : GoError
deriving DecidableEq

/-- The `Board` class.  History lists are most-recent-first. -/
structure Board where
  size : Nat
  grid : List (List Stone)
  current_turn : Stone
  move_history : List (Option Point)
  captured_history : List (List (Int × Int × Stone))
  ko_point : Option Point
  ko_history : List (Option Point)
  consecutive_passes : Nat
  consecutive_passes_history : List Nat
deriving DecidableEq

/-- `Board.__init__(size)`. -/
def Board.new (size : Nat) : Board where
  size := size
  grid := List.replicate size (List.replicate size Stone.EMPTY)
  current_turn := Stone.BLACK
  move_history := []
  captured_history := []
  ko_point := none
  ko_history := []
  consecutive_passes := 0
  consecutive_passes_history := []

/-- `Board.switch_turn`. -/
def Board.switch_turn (b : Board) : Board :=
  { b with current_turn := b.current_turn.opponent }

/-- Fuel that provably suffices for both worklist searches (see the
measure lemmas): `5 * size² + 1`. -/
def gflFuel (size : Nat) : Nat := 5 * size * size + 1

/-- The worklist form of the recursive `dfs` inside
`get_group_and_liberties`.  Popping a point: out-of-board or already
visited points are skipped; otherwise the point is marked visited and
dispatched on its colour — empty points become liberties, same-colour
points join the group and push their on-board neighbours, enemy points are
only marked.  The fuel argument only makes the recursion structural; it is
never exhausted when the loop is started with `gflFuel`. -/
def gflLoop (size : Nat) (g : List (List Stone)) (color : Stone) :
    Nat → List Point → Finset Point → List Point → List Point → List Point × List Point
  | _, [], _, group, libs => (group, libs)
  | 0, _ :: _, _, group, libs => (group, libs)
  | fuel + 1, p :: rest, visited, group, libs =>
    if isOnBoard size p.1 p.2 then
      if p ∈ visited then gflLoop size g color fuel rest visited group libs
      else
        if gridAt g p.1 p.2 = Stone.EMPTY then
          gflLoop size g color fuel rest (insert p visited) group (p :: libs)
        else if gridAt g p.1 p.2 = color then
          gflLoop size g color fuel
            ((nbrsOf p).filter (fun q => isOnBoard size q.1 q.2) ++ rest)
            (insert p visited) (p :: group) libs
        else gflLoop size g color fuel rest (insert p visited) group libs
    else gflLoop size g color fuel rest visited group libs

/-- The body of `get_group_and_liberties` for a seed of known colour
(called by `place_stone`, whose seeds are always guarded reads that cannot
raise). -/
def gflAt (size : Nat) (g : List (List Stone)) (row col : Int) :
    List Point × List Point :=
  if gridAt g row col = Stone.EMPTY then ([], [])
  else gflLoop size g (gridAt g row col) (gflFuel size) [(row, col)] ∅ [] []

/-- `Board.get_group_and_liberties(row, col)`.  The seed read
`self.grid[row][col]` is the only unguarded read: `none` models its
`IndexError`.  An empty seed returns two empty sets; otherwise the DFS is
run from the raw (possibly negative) seed coordinates, whose own bounds
guard rejects any off-board seed. -/
def Board.get_group_and_liberties (b : Board) (row col : Int) :
    Option (List Point × List Point) :=
  (gridGet b.grid row col).map (fun color =>
    if color = Stone.EMPTY then ([], [])
    else gflLoop b.size b.grid color (gflFuel b.size) [(row, col)] ∅ [] [])

/-- State of the capture loop of `place_stone`: the (mutable) grid, the
`processed_groups` set, the `captured_positions` list and the
`captured_any` flag. -/
structure CapSt where
  grid : List (List Stone)
  processed : Finset Point
  captured : List (Int × Int × Stone)
  captured_any : Bool

/-- Clearing every stone of a captured group to `EMPTY`. -/
def clearCells (g : List (List Stone)) (ps : List Point) : List (List Stone) :=
  ps.foldl (fun acc p => setCell acc p.1 p.2 Stone.EMPTY) g

/-- One iteration of the `for dr, dc in self.NEIGHBORS` capture loop of
`place_stone`, for the offset `d`: an on-board neighbour holding the enemy
colour and not yet part of a processed group has its group and liberties
computed on the current grid; the whole group is marked processed, and it
is captured (each stone recorded and cleared) when it has no liberties. -/
def capStep (size : Nat) (enemy : Stone) (row col : Int) (st : CapSt) (d : Int × Int) :
    CapSt :=
  if isOnBoard size (row + d.1) (col + d.2) then
    if (row + d.1, col + d.2) ∈ st.processed then st
    else if gridAt st.grid (row + d.1) (col + d.2) = enemy then
      if (gflAt size st.grid (row + d.1) (col + d.2)).2 = [] then
        { grid := clearCells st.grid (gflAt size st.grid (row + d.1) (col + d.2)).1,
          processed := st.processed ∪
            (gflAt size st.grid (row + d.1) (col + d.2)).1.toFinset,
          captured := st.captured ++
            (gflAt size st.grid (row + d.1) (col + d.2)).1.map
              (fun p => (p.1, p.2, enemy)),
          captured_any := true }
      else
        { st with processed := st.processed ∪
            (gflAt size st.grid (row + d.1) (col + d.2)).1.toFinset }
    else st
  else st

/-- The whole capture loop: `capStep` folded over the neighbour offsets. -/
def capLoop (size : Nat) (enemy : Stone) (row col : Int) :
    List (Int × Int) → CapSt → CapSt
  | [], st => st
  | d :: rest, st => capLoop size enemy row col rest (capStep size enemy row col st d)

/-- The capture-resolution state of `place_stone` after the tentative
placement and the full neighbour loop. -/
def placeSt (b : Board) (row col : Int) : CapSt :=
  capLoop b.size b.current_turn.opponent row col NEIGHBORS
    { grid := setCell b.grid row col b.current_turn,
      processed := ∅, captured := [], captured_any := false }

/-- The Ko-point derivation of `place_stone` (step 5): the new Ko point is
the captured stone's location exactly when one stone was captured and the
capturing group is a single stone; otherwise it is cleared.  The source
recomputes `get_group_and_liberties(row, col)` here; the grid has not
changed since the suicide check, so it is the same `gflAt` call. -/
def placeKo (b : Board) (row col : Int) : Option Point :=
  if (placeSt b row col).captured_any = true ∧ (placeSt b row col).captured.length = 1 then
    match (placeSt b row col).captured.head? with
    | some cap =>
      if (gflAt b.size (placeSt b row col).grid row col).1.length = 1 then
        some (cap.1, cap.2.1)
      else none
    | none => none
  else none

/-- The body of `place_stone` once the three preliminary checks have
passed: tentative placement and capture resolution (`placeSt`), suicide
check with rollback (the rollback restores `previous_state`, i.e. the
pre-placement value `gridAt b.grid row col = EMPTY`), Ko-point derivation
(`placeKo`), history commit, pass-counter reset and turn switch. -/
def placeCore (b : Board) (row col : Int) : Board × Option GoError :=
  if (gflAt b.size (placeSt b row col).grid row col).2 = [] ∧
      (placeSt b row col).captured_any = false then
    ({ b with grid := setCell (placeSt b row col).grid row col (gridAt b.grid row col) },
      some GoError.SuicideViolation)
  else
    ({ b with
        grid := (placeSt b row col).grid,
        ko_point := placeKo b row col,
        move_history := some (row, col) :: b.move_history,
        captured_history := (placeSt b row col).captured :: b.captured_history,
        ko_history := placeKo b row col :: b.ko_history,
        consecutive_passes_history := b.consecutive_passes :: b.consecutive_passes_history,
        consecutive_passes := 0,
        current_turn := b.current_turn.opponent }, none)

/-- `Board.place_stone(row, col)`: the ordered checks (bounds, occupancy,
Ko), then `placeCore`. -/
def Board.place_stone (b : Board) (row col : Int) : Board × Option GoError :=
  if ¬ isOnBoard b.size row col then (b, some GoError.OutOfBounds)
  else if gridAt b.grid row col ≠ Stone.EMPTY then (b, some GoError.Occupied)
  else if b.ko_point = some (row, col) then (b, some GoError.KoViolation)
  else placeCore b row col

/-- `Board.pass_move()`: clears the Ko point, appends a pass record (no
captures, the just-cleared Ko point, the pre-pass counter), increments the
pass counter, switches the turn.  Never fails. -/
def Board.pass_move (b : Board) : Board :=
  { b with
      ko_point := none,
      move_history := none :: b.move_history,
      captured_history := [] :: b.captured_history,
      ko_history := none :: b.ko_history,
      consecutive_passes_history := b.consecutive_passes :: b.consecutive_passes_history,
      consecutive_passes := b.consecutive_passes + 1,
      current_turn := b.current_turn.opponent }

/-- `Board.undo()`.  With no move played it raises `EmptyHistory`.
Otherwise it pops all four history lists, restores the Ko point and the
pass counter from the heads of the *remaining* histories, removes the
popped placement (if any), restores the popped captures, and switches the
turn back.  The catch-all branch also covers boards whose four histories
have desynchronised lengths (where Python would raise `IndexError` on one
of the pops); such boards are unreachable — every reachable board keeps
the four histories at equal length. -/
def Board.undo (b : Board) : Board × Option GoError :=
  match b.move_history, b.captured_history, b.ko_history, b.consecutive_passes_history with
  | last :: mh, caps :: ch, _ :: kh, _ :: ph =>
    let grid1 :=
      match last with
      | some p => setCell b.grid p.1 p.2 Stone.EMPTY
      | none => b.grid
    let grid2 := caps.foldl (fun g t => setCell g t.1 t.2.1 t.2.2) grid1
    ({ b with
        grid := grid2,
        move_history := mh,
        captured_history := ch,
        ko_history := kh,
        consecutive_passes_history := ph,
        ko_point := kh.headD none,
        consecutive_passes := ph.headD 0,
        current_turn := b.current_turn.opponent }, none)
  | _, _, _, _ => (b, some GoError.EmptyHistory)

/-- `Board.is_over`: `consecutive_passes >= 2`. -/
def Board.is_over (b : Board) : Bool :=
  decide (2 ≤ b.consecutive_passes)

/-- The inner neighbour loop of `_find_empty_region_reach`: for each
on-board neighbour of the dequeued point, an empty unvisited neighbour is
marked visited and enqueued, a coloured neighbour's stone is added to the
reachable colours. -/
def ferNbs (size : Nat) (g : List (List Stone)) (p : Point) :
    List (Int × Int) → Finset Point → List Point → Finset Stone →
      Finset Point × List Point × Finset Stone
  | [], visited, added, colors => (visited, added, colors)
  | d :: rest, visited, added, colors =>
    if isOnBoard size (p.1 + d.1) (p.2 + d.2) then
      if gridAt g (p.1 + d.1) (p.2 + d.2) = Stone.EMPTY then
        if (p.1 + d.1, p.2 + d.2) ∈ visited then ferNbs size g p rest visited added colors
        else ferNbs size g p rest (insert (p.1 + d.1, p.2 + d.2) visited)
          (added ++ [(p.1 + d.1, p.2 + d.2)]) colors
      else ferNbs size g p rest visited added (insert (gridAt g (p.1 + d.1) (p.2 + d.2)) colors)
    else ferNbs size g p rest visited added colors

/-- The BFS loop of `_find_empty_region_reach`: dequeue a point, add it to
the region, and process its neighbours with `ferNbs` (new empty points are
appended to the queue).  The fuel only makes the recursion structural and
is never exhausted when started with `gflFuel`. -/
def ferLoop (size : Nat) (g : List (List Stone)) :
    Nat → List Point → Finset Point → List Point → Finset Stone →
      List Point × Finset Stone
  | _, [], _, region, colors => (region, colors)
  | 0, _ :: _, _, region, colors => (region, colors)
  | fuel + 1, p :: rest, visited, region, colors =>
    match ferNbs size g p NEIGHBORS visited [] colors with
    | (visited', added, colors') =>
      ferLoop size g fuel (rest ++ added) visited' (p :: region) colors'

/-- `Board._find_empty_region_reach(start_row, start_col)`: a non-empty
start returns two empty sets; otherwise BFS over the contiguous empty
region, collecting the bordering stone colours.  The start is pre-marked
visited. -/
def Board.find_empty_region_reach (b : Board) (sr sc : Int) :
    List Point × Finset Stone :=
  if gridAt b.grid sr sc ≠ Stone.EMPTY then ([], ∅)
  else ferLoop b.size b.grid (gflFuel b.size) [(sr, sc)] {(sr, sc)} [] ∅

/-- The row-major scan order of `for r in range(size): for c in range(size)`. -/
def scanPoints (size : Nat) : List Point :=
  (List.range size).flatMap (fun r => (List.range size).map (fun (c : Nat) => (((r : Nat) : Int), ((c : Nat) : Int))))

/-- The scoring loop of `calculate_scores`: each unvisited empty point
starts a region search; the region is marked visited, and its full point
count goes to Black (resp. White) exactly when only Black (resp. White)
borders it. -/
def scoreFold (b : Board) : List Point → Finset Point → Nat → Nat → Nat × Nat
  | [], _, bt, wt => (bt, wt)
  | p :: rest, visited, bt, wt =>
    if gridAt b.grid p.1 p.2 = Stone.EMPTY ∧ p ∉ visited then
      match b.find_empty_region_reach p.1 p.2 with
      | (region, reaches) =>
        if Stone.BLACK ∈ reaches ∧ Stone.WHITE ∉ reaches then
          scoreFold b rest (visited ∪ region.toFinset) (bt + region.length) wt
        else if Stone.WHITE ∈ reaches ∧ Stone.BLACK ∉ reaches then
          scoreFold b rest (visited ∪ region.toFinset) bt (wt + region.length)
        else scoreFold b rest (visited ∪ region.toFinset) bt wt
    else scoreFold b rest visited bt wt

/-- `Board.calculate_scores()`: `(black_territory, white_territory)`. -/
def Board.calculate_scores (b : Board) : Nat × Nat :=
  scoreFold b (scanPoints b.size) ∅ 0 0

/-- The stone-counting loop of `get_final_scores`. -/
def Board.stoneCount (b : Board) (s : Stone) : Nat :=
  ((scanPoints b.size).filter (fun p => gridAt b.grid p.1 p.2 = s)).length

/-- `Board.get_final_scores(komi)`: Chinese scoring, `(black, white)` =
territory + stones, plus `komi` on White's total. -/
def Board.get_final_scores (b : Board) (komi : ℚ) : ℚ × ℚ :=
  (((b.calculate_scores).1 : ℚ) + (b.stoneCount Stone.BLACK : ℚ),
    ((b.calculate_scores).2 : ℚ) + (b.stoneCount Stone.WHITE : ℚ) + komi)

/-- Board states reachable from a fresh board by successful operations. -/
inductive Reachable : Board → Prop where
  | new (size : Nat) : Reachable (Board.new size)
  | place {b b' : Board} {r c : Int} : Reachable b →
      b.place_stone r c = (b', none) → Reachable b'
  | pass {b : Board} : Reachable b → Reachable b.pass_move
  | undo {b b' : Board} : Reachable b → b.undo = (b', none) → Reachable b'

/-! ## Specification-side notions

The connectivity notions the specification speaks about: one orthogonal
hop between two on-board cells of the same colour, its reflexive
transitive closure, membership in the maximal group of a seed, and the
liberties of that group. -/

/-- One hop of same-colour orthogonal adjacency between on-board cells. -/
def colorStep (size : Nat) (g : List (List Stone)) (color : Stone) (p q : Point) : Prop :=
  isOnBoard size p.1 p.2 = true ∧ isOnBoard size q.1 q.2 = true ∧
    gridAt g p.1 p.2 = color ∧ gridAt g q.1 q.2 = color ∧ q ∈ nbrsOf p

/-- Reachability via orthogonal adjacency through same-colour cells only. -/
def Reaches (size : Nat) (g : List (List Stone)) (color : Stone) : Point → Point → Prop :=
  Relation.ReflTransGen (colorStep size g color)

/-- `p` belongs to the maximal same-colour connected group of `seed`. -/
def inGroup (size : Nat) (g : List (List Stone)) (color : Stone) (seed p : Point) : Prop :=
  (isOnBoard size seed.1 seed.2 = true ∧ gridAt g seed.1 seed.2 = color) ∧
    Reaches size g color seed p

/-- `p` is a liberty of the group of `seed`: an empty on-board point
orthogonally adjacent to some member of the group. -/
def isLib (size : Nat) (g : List (List Stone)) (color : Stone) (seed p : Point) : Prop :=
  isOnBoard size p.1 p.2 = true ∧ gridAt g p.1 p.2 = Stone.EMPTY ∧
    ∃ q, inGroup size g color seed q ∧ p ∈ nbrsOf q

/-- The set of stone colours bordering the contiguous empty region of `p`. -/
def regionBorders (size : Nat) (g : List (List Stone)) (p : Point) : Set Stone :=
  {s | s ≠ Stone.EMPTY ∧ ∃ q z, inGroup size g Stone.EMPTY p q ∧ z ∈ nbrsOf q ∧
    isOnBoard size z.1 z.2 = true ∧ gridAt g z.1 z.2 = s}

/-! ## Basic lemmas: bounds, neighbours, board points -/

theorem isOnBoard_iff {size : Nat} {r c : Int} :
    isOnBoard size r c = true ↔ 0 ≤ r ∧ r < (size : Int) ∧ 0 ≤ c ∧ c < (size : Int) := by
  simp [isOnBoard, and_assoc]

theorem mem_nbrsOf_iff {p q : Point} :
    q ∈ nbrsOf p ↔ (q.1 = p.1 - 1 ∧ q.2 = p.2) ∨ (q.1 = p.1 + 1 ∧ q.2 = p.2) ∨
      (q.1 = p.1 ∧ q.2 = p.2 - 1) ∨ (q.1 = p.1 ∧ q.2 = p.2 + 1) := by
  simp [nbrsOf, Prod.ext_iff]

theorem nbrsOf_symm {p q : Point} : q ∈ nbrsOf p ↔ p ∈ nbrsOf q := by
  simp only [mem_nbrsOf_iff]; omega

theorem nbrs_offset_mem {r c : Int} {d : Int × Int} (hd : d ∈ NEIGHBORS) :
    (r + d.1, c + d.2) ∈ nbrsOf (r, c) := by
  fin_cases hd <;> simp [mem_nbrsOf_iff] <;> omega

theorem nbrs_exists_offset {r c : Int} {q : Point} (hq : q ∈ nbrsOf (r, c)) :
    ∃ d ∈ NEIGHBORS, q = (r + d.1, c + d.2) := by
  simp only [mem_nbrsOf_iff] at hq
  rcases hq with ⟨h1, h2⟩ | ⟨h1, h2⟩ | ⟨h1, h2⟩ | ⟨h1, h2⟩
  · refine ⟨(-1, 0), by simp [NEIGHBORS], ?_⟩
    rw [Prod.ext_iff]; constructor <;> simp <;> omega
  · refine ⟨(1, 0), by simp [NEIGHBORS], ?_⟩
    rw [Prod.ext_iff]; constructor <;> simp <;> omega
  · refine ⟨(0, -1), by simp [NEIGHBORS], ?_⟩
    rw [Prod.ext_iff]; constructor <;> simp <;> omega
  · refine ⟨(0, 1), by simp [NEIGHBORS], ?_⟩
    rw [Prod.ext_iff]; constructor <;> simp <;> omega

theorem mem_boardPoints_iff {size : Nat} {p : Point} :
    p ∈ boardPoints size ↔ isOnBoard size p.1 p.2 = true := by
  constructor
  · intro h
    simp only [boardPoints, Finset.mem_image, Finset.mem_product, Finset.mem_range] at h
    obtain ⟨⟨a, bb⟩, ⟨ha, hb⟩, rfl⟩ := h
    dsimp only
    rw [isOnBoard_iff]
    refine ⟨?_, ?_, ?_, ?_⟩ <;> omega
  · intro h
    rw [isOnBoard_iff] at h
    obtain ⟨h1, h2, h3, h4⟩ := h
    simp only [boardPoints, Finset.mem_image, Finset.mem_product, Finset.mem_range]
    refine ⟨(p.1.toNat, p.2.toNat), ⟨by omega, by omega⟩, ?_⟩
    rw [Prod.ext_iff]
    constructor <;> simp <;> omega

theorem boardPoints_card {size : Nat} : (boardPoints size).card = size * size := by
  rw [boardPoints, Finset.card_image_of_injective _ ?_, Finset.card_product,
    Finset.card_range]
  intro a b h
  dsimp only at h
  rw [Prod.ext_iff] at h
  rw [Prod.ext_iff]
  obtain ⟨h1, h2⟩ := h
  constructor <;> omega

theorem sdiff_card_insert {size : Nat} {v : Finset Point} {p : Point}
    (hp : isOnBoard size p.1 p.2 = true) (hv : p ∉ v) :
    (boardPoints size \ insert p v).card + 1 = (boardPoints size \ v).card := by
  have hmem : p ∈ boardPoints size \ v := by
    rw [Finset.mem_sdiff]; exact ⟨mem_boardPoints_iff.mpr hp, hv⟩
  have : boardPoints size \ insert p v = (boardPoints size \ v).erase p := by
    ext q
    simp only [Finset.mem_sdiff, Finset.mem_insert, Finset.mem_erase]
    tauto
  rw [this, Finset.card_erase_of_mem hmem]
  have := Finset.card_pos.mpr ⟨p, hmem⟩
  omega

theorem scanPoints_mem {size : Nat} {p : Point} :
    p ∈ scanPoints size ↔ isOnBoard size p.1 p.2 = true := by
  constructor
  · intro h
    rw [scanPoints, List.mem_flatMap] at h
    obtain ⟨r, hr, hmem⟩ := h
    rw [List.mem_map] at hmem
    obtain ⟨c, hc, hpc⟩ := hmem
    rw [List.mem_range] at hr hc
    subst hpc
    dsimp only
    rw [isOnBoard_iff]
    refine ⟨?_, ?_, ?_, ?_⟩ <;> omega
  · intro h
    rw [isOnBoard_iff] at h
    obtain ⟨h1, h2, h3, h4⟩ := h
    rw [scanPoints, List.mem_flatMap]
    refine ⟨p.1.toNat, by rw [List.mem_range]; omega, ?_⟩
    rw [List.mem_map]
    refine ⟨p.2.toNat, by rw [List.mem_range]; omega, ?_⟩
    rw [Prod.ext_iff]
    dsimp only
    constructor <;> omega

theorem scanPoints_nodup {size : Nat} : (scanPoints size).Nodup := by
  rw [scanPoints, List.nodup_flatMap]
  constructor
  · intro r _
    refine List.Nodup.map ?_ (List.nodup_range size)
    intro a b h
    dsimp only at h
    rw [Prod.ext_iff] at h
    have h2 := h.2
    omega
  · refine List.Pairwise.imp ?_ (List.pairwise_lt_range size)
    intro a b hab
    simp only [Function.onFun, List.disjoint_left]
    rintro ⟨x, y⟩ hx hy
    rw [List.mem_map] at hx hy
    obtain ⟨c1, _, hc1⟩ := hx
    obtain ⟨c2, _, hc2⟩ := hy
    rw [Prod.ext_iff] at hc1 hc2
    have h1 := hc1.1
    have h2 := hc2.1
    simp only at h1 h2
    omega

/-! ## Grid read/write lemmas -/

theorem Stone.opponent_opponent (s : Stone) : s.opponent.opponent = s := by
  cases s <;> rfl

theorem Stone.opponent_ne_self {s : Stone} (h : s ≠ Stone.EMPTY) : s.opponent ≠ s := by
  cases s <;> simp [Stone.opponent] at h ⊢

theorem Stone.opponent_ne_empty {s : Stone} (h : s ≠ Stone.EMPTY) :
    s.opponent ≠ Stone.EMPTY := by
  cases s <;> simp [Stone.opponent] at h ⊢

theorem pyIdx_nonneg {α : Type} (l : List α) {i : Int} (h : 0 ≤ i) :
    pyIdx l i = l.get? i.toNat := by
  simp [pyIdx, h]

theorem list_set_self {α : Type} (l : List α) (n : Nat) (a : α)
    (h : l.get? n = some a) : l.set n a = l := by
  apply List.ext_getElem?
  intro m
  rw [List.getElem?_set]
  split
  · rename_i he
    subst he
    rw [List.get?_eq_getElem?] at h
    have hlt : n < l.length := by
      by_contra hge
      rw [List.getElem?_eq_none (by omega)] at h
      exact Option.noConfusion h
    simp only [hlt, if_pos]
    exact h.symm
  · rfl

/-- Unfolding `gridAt` at nonnegative coordinates. -/
theorem gridAt_nonneg {g : List (List Stone)} {r c : Int} (hr : 0 ≤ r) (hc : 0 ≤ c) :
    gridAt g r c = (((g.get? r.toNat).bind (fun row => row.get? c.toNat)).getD Stone.EMPTY) := by
  unfold gridAt gridGet
  rw [pyIdx_nonneg g hr]
  cases hrow : g.get? r.toNat with
  | none => rfl
  | some row => simp [pyIdx_nonneg row hc]

theorem WFGrid_row {size : Nat} {g : List (List Stone)} (hwf : WFGrid size g)
    {n : Nat} (hn : n < size) :
    ∃ row, g.get? n = some row ∧ row.length = size := by
  obtain ⟨hlen, hrows⟩ := hwf
  have hlt : n < g.length := by omega
  refine ⟨g.get ⟨n, hlt⟩, by rw [List.get?_eq_get hlt], ?_⟩
  exact hrows _ (List.get_mem g n hlt)

/-- A well-formed in-bounds read produces `some`, so `gridAt` agrees with
the raw Python read `gridGet`. -/
theorem gridGet_onBoard {size : Nat} {g : List (List Stone)} {r c : Int}
    (hwf : WFGrid size g) (h : isOnBoard size r c = true) :
    gridGet g r c = some (gridAt g r c) := by
  rw [isOnBoard_iff] at h
  obtain ⟨h1, h2, h3, h4⟩ := h
  obtain ⟨row, hrow, hrowlen⟩ := WFGrid_row hwf (n := r.toNat) (by omega)
  have hc : c.toNat < row.length := by omega
  unfold gridGet
  rw [pyIdx_nonneg g h1, hrow, gridAt_nonneg h1 h3, hrow]
  simp only [Option.some_bind]
  rw [pyIdx_nonneg row h3, List.get?_eq_getElem?, List.getElem?_eq_getElem hc]
  rfl

theorem setCell_of_none {g : List (List Stone)} {r c : Int} {v : Stone}
    (hrow : g.get? r.toNat = none) : setCell g r c v = g := by
  unfold setCell
  rw [hrow]

theorem setCell_of_get {g : List (List Stone)} {r c : Int} {v : Stone} {row : List Stone}
    (hrow : g.get? r.toNat = some row) :
    setCell g r c v = g.set r.toNat (row.set c.toNat v) := by
  unfold setCell
  rw [hrow]

theorem get_lt_of_get?_some {α : Type} {l : List α} {n : Nat} {a : α}
    (h : l.get? n = some a) : n < l.length := by
  rw [List.get?_eq_getElem?] at h
  by_contra hge
  rw [List.getElem?_eq_none (by omega)] at h
  exact Option.noConfusion h

theorem mem_of_get?_some {α : Type} {l : List α} {n : Nat} {a : α}
    (h : l.get? n = some a) : a ∈ l := by
  have hlt := get_lt_of_get?_some h
  rw [List.get?_eq_get hlt] at h
  cases h
  exact List.get_mem l n hlt

theorem setCell_length {g : List (List Stone)} {r c : Int} {v : Stone} :
    (setCell g r c v).length = g.length := by
  cases hrow : g.get? r.toNat with
  | none => rw [setCell_of_none hrow]
  | some row => rw [setCell_of_get hrow, List.length_set]

theorem WFGrid_setCell {size : Nat} {g : List (List Stone)} {r c : Int} {v : Stone}
    (hwf : WFGrid size g) : WFGrid size (setCell g r c v) := by
  obtain ⟨hlen, hrows⟩ := hwf
  cases hrow : g.get? r.toNat with
  | none => rw [setCell_of_none hrow]; exact ⟨hlen, hrows⟩
  | some row =>
    rw [setCell_of_get hrow]
    refine ⟨by rw [List.length_set]; exact hlen, ?_⟩
    intro rw2 hmem
    rcases List.mem_or_eq_of_mem_set hmem with h | h
    · exact hrows _ h
    · subst h
      rw [List.length_set]
      exact hrows row (mem_of_get?_some hrow)

theorem gridAt_setCell_self {size : Nat} {g : List (List Stone)} {r c : Int} {v : Stone}
    (hwf : WFGrid size g) (h : isOnBoard size r c = true) :
    gridAt (setCell g r c v) r c = v := by
  rw [isOnBoard_iff] at h
  obtain ⟨h1, h2, h3, h4⟩ := h
  obtain ⟨row, hrow, hrowlen⟩ := WFGrid_row hwf (n := r.toNat) (by omega)
  have hr : r.toNat < g.length := get_lt_of_get?_some hrow
  have hc : c.toNat < row.length := by omega
  rw [gridAt_nonneg h1 h3, setCell_of_get hrow, List.get?_eq_getElem?,
    List.getElem?_set_self hr]
  simp only [Option.some_bind]
  rw [List.get?_eq_getElem?, List.getElem?_set_self hc]
  rfl

theorem gridAt_setCell_ne {g : List (List Stone)} {r c r' c' : Int} {v : Stone}
    (hr : 0 ≤ r) (hc : 0 ≤ c) (hr' : 0 ≤ r') (hc' : 0 ≤ c')
    (hne : (r', c') ≠ (r, c)) :
    gridAt (setCell g r c v) r' c' = gridAt g r' c' := by
  rw [gridAt_nonneg hr' hc', gridAt_nonneg hr' hc']
  cases hrow : g.get? r.toNat with
  | none => rw [setCell_of_none hrow]
  | some row =>
    rw [setCell_of_get hrow]
    by_cases hrr : r'.toNat = r.toNat
    · have hre : r' = r := by omega
      subst hre
      have hcc : c'.toNat ≠ c.toNat := by
        intro hcc
        have hce : c' = c := by omega
        exact hne (by rw [hce])
      rw [List.get?_eq_getElem?, hrr, List.getElem?_set_self (get_lt_of_get?_some hrow),
        ← hrr]
      rw [hrr] at hrow ⊢
      rw [hrow]
      simp only [Option.some_bind]
      rw [List.get?_eq_getElem?, List.get?_eq_getElem?, List.getElem?_set_ne (by omega)]
    · rw [List.get?_eq_getElem?, List.get?_eq_getElem? g, List.getElem?_set_ne (by omega)]

theorem setCell_setCell {g : List (List Stone)} {r c : Int} {v w : Stone} :
    setCell (setCell g r c v) r c w = setCell g r c w := by
  cases hrow : g.get? r.toNat with
  | none => rw [setCell_of_none hrow, setCell_of_none hrow]
  | some row =>
    have h2 : (g.set r.toNat (row.set c.toNat v)).get? r.toNat
        = some (row.set c.toNat v) := by
      rw [List.get?_eq_getElem?, List.getElem?_set_self (get_lt_of_get?_some hrow)]
    rw [setCell_of_get hrow, setCell_of_get h2, setCell_of_get hrow,
      List.set_set, List.set_set]

theorem setCell_cancel {g : List (List Stone)} {r c : Int} {v : Stone}
    (h : gridAt g r c = v) (hr : 0 ≤ r) (hc : 0 ≤ c) :
    setCell g r c v = g := by
  cases hrow : g.get? r.toNat with
  | none => exact setCell_of_none hrow
  | some row =>
    rw [gridAt_nonneg hr hc, hrow] at h
    simp only [Option.some_bind] at h
    rw [setCell_of_get hrow]
    cases hcc : row.get? c.toNat with
    | none =>
      rw [hcc] at h
      simp only [Option.getD_none] at h
      rw [List.get?_eq_getElem?] at hcc
      have hle : row.length ≤ c.toNat := by
        by_contra hlt
        rw [List.getElem?_eq_getElem (by omega)] at hcc
        exact Option.noConfusion hcc
      rw [← h, List.set_eq_of_length_le hle]
      exact list_set_self g r.toNat row hrow
    | some x =>
      rw [hcc] at h
      simp only [Option.getD_some] at h
      subst h
      rw [list_set_self row c.toNat x hcc]
      exact list_set_self g r.toNat row hrow

/-- Two well-formed grids that agree on every on-board read are equal. -/
theorem grid_ext {size : Nat} {g g' : List (List Stone)}
    (hwf : WFGrid size g) (hwf' : WFGrid size g')
    (h : ∀ r c : Int, isOnBoard size r c = true → gridAt g r c = gridAt g' r c) :
    g = g' := by
  apply List.ext_get?
  intro n
  by_cases hn : n < size
  · obtain ⟨row, hrow, hrowlen⟩ := WFGrid_row hwf hn
    obtain ⟨row', hrow', hrowlen'⟩ := WFGrid_row hwf' hn
    rw [hrow, hrow']
    congr 1
    apply List.ext_get?
    intro m
    by_cases hm : m < size
    · have hb : isOnBoard size (n : Int) (m : Int) = true := by
        rw [isOnBoard_iff]
        refine ⟨by omega, by omega, by omega, by omega⟩
      have := h n m hb
      rw [gridAt_nonneg (by omega) (by omega), gridAt_nonneg (by omega) (by omega)] at this
      simp only [Int.toNat_ofNat] at this
      rw [hrow, hrow'] at this
      simp only [Option.some_bind] at this
      have hml : m < row.length := by omega
      have hml' : m < row'.length := by omega
      rw [List.get?_eq_get hml, List.get?_eq_get hml'] at this ⊢
      simp only [Option.getD_some] at this
      rw [this]
    · rw [List.get?_eq_getElem?, List.get?_eq_getElem?,
        List.getElem?_eq_none (by omega), List.getElem?_eq_none (by omega)]
  · obtain ⟨hlen, _⟩ := hwf
    obtain ⟨hlen', _⟩ := hwf'
    rw [List.get?_eq_getElem?, List.get?_eq_getElem?,
      List.getElem?_eq_none (by omega), List.getElem?_eq_none (by omega)]

/-- Two well-formed grids that agree on every on-board read are equal. -/
theorem WFGrid_clearCells {size : Nat} {g : List (List Stone)} {ps : List Point}
    (hwf : WFGrid size g) : WFGrid size (clearCells g ps) := by
  induction ps generalizing g with
  | nil => exact hwf
  | cons p rest ih => exact ih (WFGrid_setCell hwf)

theorem gridAt_clearCells {size : Nat} {g : List (List Stone)} {ps : List Point}
    {r c : Int} (hwf : WFGrid size g)
    (hps : ∀ p ∈ ps, isOnBoard size p.1 p.2 = true)
    (h : isOnBoard size r c = true) :
    gridAt (clearCells g ps) r c =
      if (r, c) ∈ ps then Stone.EMPTY else gridAt g r c := by
  induction ps generalizing g with
  | nil => simp [clearCells]
  | cons p rest ih =>
    have hstep : clearCells g (p :: rest) = clearCells (setCell g p.1 p.2 Stone.EMPTY) rest := rfl
    rw [hstep, ih (WFGrid_setCell hwf) (fun q hq => hps q (List.mem_cons_of_mem p hq))]
    have hp := hps p (List.mem_cons_self p rest)
    by_cases hmem : (r, c) ∈ rest
    · rw [if_pos hmem, if_pos (List.mem_cons_of_mem p hmem)]
    · by_cases heq : (r, c) = p
      · rw [if_neg hmem, if_pos (by rw [List.mem_cons]; left; exact heq)]
        subst heq
        exact gridAt_setCell_self hwf hp
      · rw [if_neg hmem, if_neg (by rw [List.mem_cons]; push_neg; exact ⟨heq, hmem⟩)]
        rw [isOnBoard_iff] at hp h
        exact gridAt_setCell_ne (by omega) (by omega) (by omega) (by omega)
          (by intro hq; exact heq (by rw [hq]))

theorem WFGrid_new {size : Nat} :
    WFGrid size (List.replicate size (List.replicate size Stone.EMPTY)) := by
  refine ⟨List.length_replicate size _, ?_⟩
  intro row hrow
  rw [List.eq_of_mem_replicate hrow, List.length_replicate]

theorem pyIdx_mem {α : Type} {l : List α} {i : Int} {a : α}
    (h : pyIdx l i = some a) : a ∈ l := by
  unfold pyIdx at h
  split at h
  · exact mem_of_get?_some h
  · split at h
    · exact Option.noConfusion h
    · exact mem_of_get?_some h

theorem gridAt_new {size : Nat} {r c : Int} :
    gridAt (List.replicate size (List.replicate size Stone.EMPTY)) r c = Stone.EMPTY := by
  unfold gridAt
  cases hg : gridGet (List.replicate size (List.replicate size Stone.EMPTY)) r c with
  | none => rfl
  | some s =>
    unfold gridGet at hg
    cases hr : pyIdx (List.replicate size (List.replicate size Stone.EMPTY)) r with
    | none => rw [hr] at hg; exact Option.noConfusion hg
    | some row =>
      rw [hr] at hg
      simp only [Option.some_bind] at hg
      have hrow := pyIdx_mem hr
      rw [List.eq_of_mem_replicate hrow] at hg
      have hs := pyIdx_mem hg
      rw [List.eq_of_mem_replicate hs]
      rfl

/-- Restoring a recorded capture list (distinct positions, recorded colours
matching the original grid, cleared in the current grid) by the fold that
`undo` performs recovers the original grid exactly. -/
theorem restore_fold {size : Nat} {caps : List (Int × Int × Stone)}
    {g g1 : List (List Stone)}
    (hwf : WFGrid size g) (hwf1 : WFGrid size g1)
    (hnd : (caps.map (fun t => (t.1, t.2.1))).Nodup)
    (hin : ∀ t ∈ caps, isOnBoard size t.1 t.2.1 = true)
    (hval : ∀ t ∈ caps, gridAt g1 t.1 t.2.1 = t.2.2)
    (hgrid : ∀ r c : Int, isOnBoard size r c = true →
      gridAt g r c =
        if (r, c) ∈ caps.map (fun t => (t.1, t.2.1)) then Stone.EMPTY
        else gridAt g1 r c) :
    caps.foldl (fun acc t => setCell acc t.1 t.2.1 t.2.2) g = g1 := by
  induction caps generalizing g with
  | nil =>
    refine grid_ext hwf hwf1 ?_
    intro r c hb
    have := hgrid r c hb
    simpa using this
  | cons t rest ih =>
    rw [List.foldl_cons]
    have htb : isOnBoard size t.1 t.2.1 = true := hin t (List.mem_cons_self t rest)
    refine ih (WFGrid_setCell hwf) (by
        rw [List.map_cons] at hnd
        exact hnd.of_cons)
      (fun q hq => hin q (List.mem_cons_of_mem t hq))
      (fun q hq => hval q (List.mem_cons_of_mem t hq)) ?_
    intro r c hb
    by_cases heq : (r, c) = (t.1, t.2.1)
    · have hr : r = t.1 := (Prod.ext_iff.mp heq).1
      have hc : c = t.2.1 := (Prod.ext_iff.mp heq).2
      have h1 : gridAt (setCell g t.1 t.2.1 t.2.2) r c = t.2.2 := by
        rw [hr, hc]
        exact gridAt_setCell_self hwf htb
      have hnotin : (r, c) ∉ rest.map (fun q => (q.1, q.2.1)) := by
        rw [List.map_cons, List.nodup_cons] at hnd
        rw [heq]
        exact hnd.1
      rw [h1, if_neg hnotin, hr, hc]
      exact (hval t (List.mem_cons_self t rest)).symm
    · have h1 : gridAt (setCell g t.1 t.2.1 t.2.2) r c = gridAt g r c := by
        rw [isOnBoard_iff] at hb htb
        exact gridAt_setCell_ne (by omega) (by omega) (by omega) (by omega) heq
      rw [h1, hgrid r c hb, List.map_cons]
      by_cases hmem : (r, c) ∈ rest.map (fun q => (q.1, q.2.1))
      · rw [if_pos hmem, if_pos (List.mem_cons_of_mem _ hmem)]
      · rw [if_neg hmem, if_neg (by
          rw [List.mem_cons]
          push_neg
          exact ⟨heq, hmem⟩)]

/-! ## Unfolding lemmas for `place_stone` -/

theorem place_stone_oob {b : Board} {r c : Int} (h1 : ¬ isOnBoard b.size r c = true) :
    b.place_stone r c = (b, some GoError.OutOfBounds) := by
  unfold Board.place_stone
  rw [if_pos (by simpa using h1)]

theorem place_stone_occupied {b : Board} {r c : Int} (h1 : isOnBoard b.size r c = true)
    (h2 : gridAt b.grid r c ≠ Stone.EMPTY) :
    b.place_stone r c = (b, some GoError.Occupied) := by
  unfold Board.place_stone
  rw [if_neg (by simpa using h1), if_pos h2]

theorem place_stone_ko {b : Board} {r c : Int} (h1 : isOnBoard b.size r c = true)
    (h2 : gridAt b.grid r c = Stone.EMPTY) (h3 : b.ko_point = some (r, c)) :
    b.place_stone r c = (b, some GoError.KoViolation) := by
  unfold Board.place_stone
  rw [if_neg (by simpa using h1), if_neg (by simpa using h2), if_pos h3]

theorem place_stone_checked {b : Board} {r c : Int} (h1 : isOnBoard b.size r c = true)
    (h2 : gridAt b.grid r c = Stone.EMPTY) (h3 : b.ko_point ≠ some (r, c)) :
    b.place_stone r c = placeCore b r c := by
  unfold Board.place_stone
  rw [if_neg (by simpa using h1), if_neg (by simpa using h2), if_neg h3]

theorem placeCore_suicide {b : Board} {r c : Int}
    (h : (gflAt b.size (placeSt b r c).grid r c).2 = [] ∧
      (placeSt b r c).captured_any = false) :
    placeCore b r c =
      ({ b with grid := setCell (placeSt b r c).grid r c (gridAt b.grid r c) },
        some GoError.SuicideViolation) := by
  unfold placeCore
  rw [if_pos h]

theorem placeCore_success {b : Board} {r c : Int}
    (h : ¬ ((gflAt b.size (placeSt b r c).grid r c).2 = [] ∧
      (placeSt b r c).captured_any = false)) :
    placeCore b r c =
      ({ b with
          grid := (placeSt b r c).grid,
          ko_point := placeKo b r c,
          move_history := some (r, c) :: b.move_history,
          captured_history := (placeSt b r c).captured :: b.captured_history,
          ko_history := placeKo b r c :: b.ko_history,
          consecutive_passes_history := b.consecutive_passes :: b.consecutive_passes_history,
          consecutive_passes := 0,
          current_turn := b.current_turn.opponent }, none) := by
  unfold placeCore
  rw [if_neg h]

/-! ## Basic facts about the capture loop -/

theorem capStep_any_mono {size : Nat} {enemy : Stone} {row col : Int}
    {st : CapSt} {d : Int × Int} (h : st.captured_any = true) :
    (capStep size enemy row col st d).captured_any = true := by
  unfold capStep
  split
  · split
    · exact h
    · split
      · split
        · rfl
        · exact h
      · exact h
  · exact h

theorem capLoop_any_mono {size : Nat} {enemy : Stone} {row col : Int}
    (ds : List (Int × Int)) (st : CapSt) (h : st.captured_any = true) :
    (capLoop size enemy row col ds st).captured_any = true := by
  induction ds generalizing st with
  | nil => exact h
  | cons d rest ih => exact ih _ (capStep_any_mono h)

theorem capStep_no_capture {size : Nat} {enemy : Stone} {row col : Int}
    {st : CapSt} {d : Int × Int}
    (h : (capStep size enemy row col st d).captured_any = false) :
    (capStep size enemy row col st d).grid = st.grid ∧
      (capStep size enemy row col st d).captured = st.captured ∧
      st.captured_any = false := by
  unfold capStep at h ⊢
  split at h
  · split at h
    · exact ⟨by split <;> simp_all, by split <;> simp_all, h⟩
    · split at h
      · split at h
        · exact Bool.noConfusion h
        · refine ⟨?_, ?_, h⟩ <;> (split <;> simp_all)
      · exact ⟨by split <;> simp_all, by split <;> simp_all, h⟩
  · exact ⟨by split <;> simp_all, by split <;> simp_all, h⟩

theorem capLoop_no_capture {size : Nat} {enemy : Stone} {row col : Int}
    (ds : List (Int × Int)) (st : CapSt)
    (h : (capLoop size enemy row col ds st).captured_any = false) :
    (capLoop size enemy row col ds st).grid = st.grid ∧
      (capLoop size enemy row col ds st).captured = st.captured ∧
      st.captured_any = false := by
  induction ds generalizing st with
  | nil => exact ⟨rfl, rfl, h⟩
  | cons d rest ih =>
    have hstep : capLoop size enemy row col (d :: rest) st
        = capLoop size enemy row col rest (capStep size enemy row col st d) := rfl
    rw [hstep] at h ⊢
    obtain ⟨hg, hc, ha⟩ := ih _ h
    obtain ⟨hg2, hc2, ha2⟩ := capStep_no_capture ha
    exact ⟨by rw [hg, hg2], by rw [hc, hc2], ha2⟩

/-- C4 — Failure atomicity of `place_stone`: whenever `place_stone`
fails, with any of the four errors, the returned board state (grid, Ko
point, pass counter, side to move, and all four history sequences) is
exactly the pre-call board; in particular the tentative stone placed
before a `SuicideViolation` is rolled back. -/
theorem place_stone_failure_atomic (b : Board) (r c : Int)
    (herr : (b.place_stone r c).2 ≠ none) : (b.place_stone r c).1 = b := by
  by_cases h1 : isOnBoard b.size r c = true
  · by_cases h2 : gridAt b.grid r c = Stone.EMPTY
    · by_cases h3 : b.ko_point = some (r, c)
      · rw [place_stone_ko h1 h2 h3]
      · rw [place_stone_checked h1 h2 h3] at herr ⊢
        by_cases h4 : (gflAt b.size (placeSt b r c).grid r c).2 = [] ∧
            (placeSt b r c).captured_any = false
        · rw [placeCore_suicide h4]
          obtain ⟨hg, _, _⟩ := capLoop_no_capture NEIGHBORS _ h4.2
          have hrc : 0 ≤ r ∧ 0 ≤ c := by
            rw [isOnBoard_iff] at h1
            exact ⟨h1.1, h1.2.2.1⟩
          have : setCell (placeSt b r c).grid r c (gridAt b.grid r c) = b.grid := by
            rw [show (placeSt b r c).grid = setCell b.grid r c b.current_turn from hg,
              setCell_setCell]
            exact setCell_cancel rfl hrc.1 hrc.2
          rw [this]
        · rw [placeCore_success h4] at herr
          exact absurd rfl herr
    · rw [place_stone_occupied h1 h2]
  · rw [place_stone_oob h1]

/-- Shape of a successful `place_stone`: all three checks passed, the
suicide test failed to trigger, and the result is the committed board. -/
theorem place_stone_success_cases {b b' : Board} {r c : Int}
    (h : b.place_stone r c = (b', none)) :
    isOnBoard b.size r c = true ∧ gridAt b.grid r c = Stone.EMPTY ∧
    b.ko_point ≠ some (r, c) ∧
    ¬ ((gflAt b.size (placeSt b r c).grid r c).2 = [] ∧
        (placeSt b r c).captured_any = false) ∧
    b' = { b with
        grid := (placeSt b r c).grid,
        ko_point := placeKo b r c,
        move_history := some (r, c) :: b.move_history,
        captured_history := (placeSt b r c).captured :: b.captured_history,
        ko_history := placeKo b r c :: b.ko_history,
        consecutive_passes_history := b.consecutive_passes :: b.consecutive_passes_history,
        consecutive_passes := 0,
        current_turn := b.current_turn.opponent } := by
  by_cases h1 : isOnBoard b.size r c = true
  · by_cases h2 : gridAt b.grid r c = Stone.EMPTY
    · by_cases h3 : b.ko_point = some (r, c)
      · rw [place_stone_ko h1 h2 h3] at h
        exact absurd (congrArg Prod.snd h) (by simp)
      · rw [place_stone_checked h1 h2 h3] at h
        by_cases h4 : (gflAt b.size (placeSt b r c).grid r c).2 = [] ∧
            (placeSt b r c).captured_any = false
        · rw [placeCore_suicide h4] at h
          exact absurd (congrArg Prod.snd h) (by simp)
        · rw [placeCore_success h4] at h
          exact ⟨h1, h2, h3, h4, (congrArg Prod.fst h).symm⟩
    · rw [place_stone_occupied h1 h2] at h
      exact absurd (congrArg Prod.snd h) (by simp)
  · rw [place_stone_oob h1] at h
    exact absurd (congrArg Prod.snd h) (by simp)

theorem stoneCount_eq (b : Board) (s : Stone) :
    b.stoneCount s =
      ((boardPoints b.size).filter (fun p => gridAt b.grid p.1 p.2 = s)).card := by
  unfold Board.stoneCount
  have hnd : ((scanPoints b.size).filter
      (fun p => decide (gridAt b.grid p.1 p.2 = s))).Nodup :=
    scanPoints_nodup.filter _
  rw [← List.toFinset_card_of_nodup hnd]
  congr 1
  ext p
  rw [List.mem_toFinset, List.mem_filter, Finset.mem_filter, mem_boardPoints_iff,
    scanPoints_mem, decide_eq_true_iff]

/-- C8 — Final-score formula: `get_final_scores` returns, for each colour,
the territory count of `calculate_scores` plus one point per stone of that
colour on the board, with `komi` added to White's total only; in
particular an empty 5×5 board with komi 6.5 scores `{black: 0, white:
6.5}`. -/
theorem get_final_scores_spec :
    (∀ (b : Board) (komi : ℚ),
      b.get_final_scores komi =
        (((b.calculate_scores).1 : ℚ) +
            (((boardPoints b.size).filter
              (fun p => gridAt b.grid p.1 p.2 = Stone.BLACK)).card : ℚ),
          ((b.calculate_scores).2 : ℚ) +
            (((boardPoints b.size).filter
              (fun p => gridAt b.grid p.1 p.2 = Stone.WHITE)).card : ℚ) + komi)) ∧
    (Board.new 5).get_final_scores (13/2 : ℚ) = (0, 13/2) := by
  constructor
  · intro b komi
    unfold Board.get_final_scores
    rw [stoneCount_eq, stoneCount_eq]
  · have h1 : (Board.new 5).calculate_scores = (0, 0) := by decide
    have h2 : (Board.new 5).stoneCount Stone.BLACK = 0 := by decide
    have h3 : (Board.new 5).stoneCount Stone.WHITE = 0 := by decide
    unfold Board.get_final_scores
    rw [h1, h2, h3]
    norm_num

/-- C9 — Pass and game-end semantics: `pass_move` (which never fails in
the embedding: it is a total function) clears the Ko point, appends a pass
record with no captures, the cleared Ko point and the pre-pass counter,
increments the consecutive-pass counter and switches the side to move;
`is_over` holds exactly when the counter is at least 2; and every
successful `place_stone` resets the counter to 0. -/
theorem pass_and_game_end (b b' : Board) (r c : Int) :
    b.pass_move.ko_point = none ∧
    b.pass_move.move_history = none :: b.move_history ∧
    b.pass_move.captured_history = [] :: b.captured_history ∧
    b.pass_move.ko_history = none :: b.ko_history ∧
    b.pass_move.consecutive_passes_history
      = b.consecutive_passes :: b.consecutive_passes_history ∧
    b.pass_move.consecutive_passes = b.consecutive_passes + 1 ∧
    b.pass_move.current_turn = b.current_turn.opponent ∧
    (b.is_over = true ↔ 2 ≤ b.consecutive_passes) ∧
    (b.place_stone r c = (b', none) → b'.consecutive_passes = 0) := by
  refine ⟨rfl, rfl, rfl, rfl, rfl, rfl, rfl, by simp [Board.is_over], ?_⟩
  intro hsucc
  obtain ⟨-, -, -, -, hb'⟩ := place_stone_success_cases hsucc
  rw [hb']

theorem pass_and_game_end_witness :
    ((Board.new 2).pass_move.consecutive_passes = 1) ∧
    (((Board.new 2).pass_move.pass_move).is_over = true) ∧
    (((Board.new 2).place_stone 0 0).1.consecutive_passes = 0) := by
  refine ⟨by decide, by decide, ?_⟩
  exact (pass_and_game_end (Board.new 2) ((Board.new 2).place_stone 0 0).1 0 0).2.2.2.2.2.2.2.2
    (by decide)

/-- Concrete board exhibiting a suicide rollback: Black playing the empty
corner of

  `. W`
  `W .`

is a suicide. -/
def suicideExample : Board :=
  { size := 2, grid := [[Stone.EMPTY, Stone.WHITE], [Stone.WHITE, Stone.EMPTY]],
    current_turn := Stone.BLACK, move_history := [], captured_history := [],
    ko_point := none, ko_history := [], consecutive_passes := 0,
    consecutive_passes_history := [] }

theorem place_stone_failure_atomic_witness :
    (suicideExample.place_stone 0 0).2 ≠ none ∧
    (suicideExample.place_stone 0 0).1 = suicideExample ∧
    (suicideExample.place_stone 0 0).2 = some GoError.SuicideViolation :=
  ⟨by decide, place_stone_failure_atomic suicideExample 0 0 (by decide), by decide⟩

/-- C2 — the pass-counter restoration bug of `undo`, on the concrete trace
`new 2; pass; place (0,0); undo`: the placement is legal and is made with
the consecutive-pass counter at 1, but after `undo` the counter is 0, not
1 — `undo` restores the head of the remaining
`consecutive_passes_history`, which records the counter *before the
previous move*, not the value before the undone move (the code's own
comment says it restores "what it was BEFORE the last move").  Every other
component (grid, turn, Ko point, histories) is restored exactly. -/
theorem undo_pass_counter_bug :
    (((Board.new 2).pass_move.place_stone 0 0).2 = none) ∧
    ((Board.new 2).pass_move.consecutive_passes = 1) ∧
    ((((Board.new 2).pass_move.place_stone 0 0).1.undo).2 = none) ∧
    ((((Board.new 2).pass_move.place_stone 0 0).1.undo).1.consecutive_passes = 0) ∧
    ((((Board.new 2).pass_move.place_stone 0 0).1.undo).1
      = { (Board.new 2).pass_move with consecutive_passes := 0 }) := by decide

/-! ## Bounds behaviour of the unguarded seed read (C10) -/

theorem pyIdx_ge {α : Type} {l : List α} {i : Int} (h : (l.length : Int) ≤ i) :
    pyIdx l i = none := by
  unfold pyIdx
  rw [if_pos (by omega), List.get?_eq_getElem?, List.getElem?_eq_none (by omega)]

theorem pyIdx_lt_neg {α : Type} {l : List α} {i : Int} (h : i < -(l.length : Int)) :
    pyIdx l i = none := by
  unfold pyIdx
  rw [if_neg (by omega), if_pos (by omega)]

theorem pyIdx_isSome {α : Type} {l : List α} {i : Int}
    (h1 : -(l.length : Int) ≤ i) (h2 : i < (l.length : Int)) :
    ∃ a, pyIdx l i = some a := by
  unfold pyIdx
  by_cases h : 0 ≤ i
  · rw [if_pos h, List.get?_eq_getElem?]
    have hlt : i.toNat < l.length := by omega
    exact ⟨l[i.toNat], List.getElem?_eq_getElem hlt⟩
  · rw [if_neg h, if_neg (by omega), List.get?_eq_getElem?]
    have hlt : ((l.length : Int) + i).toNat < l.length := by omega
    exact ⟨_, List.getElem?_eq_getElem hlt⟩

theorem gflLoop_offboard {size : Nat} {g : List (List Stone)} {color : Stone}
    (fuel : Nat) {p : Point} (h : ¬ isOnBoard size p.1 p.2 = true) :
    gflLoop size g color (fuel + 1) [p] ∅ [] [] = ([], []) := by
  unfold gflLoop
  rw [if_neg (by simpa using h)]
  match fuel with
  | 0 => rfl
  | fuel + 1 => rfl

/-- C10 (amended) — Bounds behaviour of `get_group_and_liberties`: the
method performs no bounds check of its own; on a well-formed board a seed
row or column `≥ size` (or `< -size`) makes the seed read raise
`IndexError` (result `none`), while a seed with a negative row or column
in `[-size, -1]` (and both coordinates `< size` and `≥ -size`) wraps
around on the seed read but is rejected by the traversal's bounds guard,
so the call returns two empty sets — even when the wrapped-to point is
occupied. -/
theorem gfl_bounds_asymmetry (b : Board) (r c : Int) (hwf : WFGrid b.size b.grid) :
    (((b.size : Int) ≤ r ∨ (b.size : Int) ≤ c) →
      b.get_group_and_liberties r c = none) ∧
    ((r < -(b.size : Int) ∨ c < -(b.size : Int)) →
      b.get_group_and_liberties r c = none) ∧
    ((r < 0 ∨ c < 0) → -(b.size : Int) ≤ r → r < (b.size : Int) →
      -(b.size : Int) ≤ c → c < (b.size : Int) →
      b.get_group_and_liberties r c = some ([], [])) := by
  obtain ⟨hlen, hrows⟩ := hwf
  refine ⟨?_, ?_, ?_⟩
  · intro h
    unfold Board.get_group_and_liberties gridGet
    cases h with
    | inl hr =>
      rw [pyIdx_ge (by omega)]
      rfl
    | inr hc =>
      cases hrow : pyIdx b.grid r with
      | none => rfl
      | some row =>
        have hrl : row.length = b.size := hrows row (pyIdx_mem hrow)
        simp only [Option.some_bind]
        rw [pyIdx_ge (by omega)]
        rfl
  · intro h
    unfold Board.get_group_and_liberties gridGet
    cases h with
    | inl hr =>
      rw [pyIdx_lt_neg (by omega)]
      rfl
    | inr hc =>
      cases hrow : pyIdx b.grid r with
      | none => rfl
      | some row =>
        have hrl : row.length = b.size := hrows row (pyIdx_mem hrow)
        simp only [Option.some_bind]
        rw [pyIdx_lt_neg (by omega)]
        rfl
  · intro hneg h1 h2 h3 h4
    obtain ⟨row, hrow⟩ := pyIdx_isSome (l := b.grid) (i := r) (by omega) (by omega)
    have hrl : row.length = b.size := hrows row (pyIdx_mem hrow)
    obtain ⟨color, hcolor⟩ := pyIdx_isSome (l := row) (i := c) (by omega) (by omega)
    unfold Board.get_group_and_liberties gridGet
    rw [hrow]
    simp only [Option.some_bind]
    rw [hcolor]
    rw [Option.map_some']
    by_cases hE : color = Stone.EMPTY
    · rw [if_pos hE]
    · rw [if_neg hE]
      have hoff : ¬ isOnBoard b.size r c = true := by
        rw [isOnBoard_iff]
        push_neg
        intro hr0 _ hc0
        omega
      exact congrArg some (gflLoop_offboard (5 * b.size * b.size) hoff)

/-- C10 counterexample — the claim "for negative row or col the seed read
wraps around ... so the call returns two empty sets" fails for indices
below `-size`: on a well-formed 2×2 board, row `-3` raises `IndexError`
(result `none`), it does not return two empty sets. -/
theorem gfl_negative_counterexample :
    (Board.new 2).get_group_and_liberties (-3) 0 = none ∧
    (Board.new 2).get_group_and_liberties (-3) 0 ≠ some ([], []) := by decide

/-- Concrete board whose point `(1,1)` is occupied, so that the
negative-index seed `(-1,-1)` wraps onto an occupied point. -/
def wrapExample : Board :=
  { size := 2, grid := [[Stone.EMPTY, Stone.EMPTY], [Stone.EMPTY, Stone.BLACK]],
    current_turn := Stone.BLACK, move_history := [], captured_history := [],
    ko_point := none, ko_history := [], consecutive_passes := 0,
    consecutive_passes_history := [] }

theorem gfl_bounds_asymmetry_witness :
    gridAt wrapExample.grid 1 1 = Stone.BLACK ∧
    wrapExample.get_group_and_liberties (-1) (-1) = some ([], []) ∧
    wrapExample.get_group_and_liberties 2 0 = none := by
  refine ⟨by decide, ?_, ?_⟩
  · exact (gfl_bounds_asymmetry wrapExample (-1) (-1) (by decide)).2.2
      (Or.inl (by decide)) (by decide) (by decide) (by decide) (by decide)
  · exact (gfl_bounds_asymmetry wrapExample 2 0 (by decide)).1 (Or.inl (by decide))

/-! ## C3: the Ko-point rule -/

theorem placeSt_any_of_captured_ne {b : Board} {r c : Int}
    (h : (placeSt b r c).captured ≠ []) : (placeSt b r c).captured_any = true := by
  by_contra hfalse
  rw [Bool.not_eq_true] at hfalse
  obtain ⟨-, hc, -⟩ := capLoop_no_capture NEIGHBORS _ hfalse
  exact h hc

/-- C3 — Ko-point rule: after every successful `place_stone` the Ko point
is non-null exactly when the move's capture record has exactly one stone
and the just-placed stone's own group (recomputed on the post-move grid)
has size exactly one, in which case it is the captured stone's location;
multi-stone captures or larger own groups (snapback shapes) leave it
null, and `pass_move` clears it unconditionally. -/
theorem ko_point_rule (b b' : Board) (r c : Int)
    (h : b.place_stone r c = (b', none)) :
    (∃ caps rest, b'.captured_history = caps :: rest ∧
      ((b'.ko_point ≠ none) ↔
        (caps.length = 1 ∧ (gflAt b'.size b'.grid r c).1.length = 1)) ∧
      (∀ cr cc s, caps = [(cr, cc, s)] →
        (gflAt b'.size b'.grid r c).1.length = 1 → b'.ko_point = some (cr, cc))) ∧
    b.pass_move.ko_point = none := by
  obtain ⟨h1, h2, h3, h4, hb'⟩ := place_stone_success_cases h
  subst hb'
  refine ⟨⟨(placeSt b r c).captured, b.captured_history, rfl, ?_, ?_⟩, rfl⟩
  · show placeKo b r c ≠ none ↔ _
    unfold placeKo
    by_cases hca : (placeSt b r c).captured_any = true ∧
        (placeSt b r c).captured.length = 1
    · rw [if_pos hca]
      obtain ⟨cap, hcap⟩ := List.length_eq_one.mp hca.2
      rw [hcap]
      simp only [List.head?_cons]
      by_cases hg : (gflAt b.size (placeSt b r c).grid r c).1.length = 1
      · rw [if_pos hg]
        simp only [ne_eq, reduceCtorEq, not_false_eq_true, true_iff]
        exact ⟨rfl, hg⟩
      · rw [if_neg hg]
        simp only [ne_eq, not_true_eq_false, false_iff, not_and]
        intro _
        exact hg
    · rw [if_neg hca]
      simp only [ne_eq, not_true_eq_false, false_iff, not_and]
      intro hlen
      exfalso
      apply hca
      refine ⟨placeSt_any_of_captured_ne ?_, hlen⟩
      intro hnil
      rw [hnil] at hlen
      exact Nat.noConfusion hlen
  · intro cr cc s hcaps hg
    show placeKo b r c = some (cr, cc)
    unfold placeKo
    have hlen : (placeSt b r c).captured.length = 1 := by rw [hcaps]; rfl
    have hca : (placeSt b r c).captured_any = true :=
      placeSt_any_of_captured_ne (by rw [hcaps]; exact List.cons_ne_nil _ _)
    rw [if_pos ⟨hca, hlen⟩, hcaps]
    simp only [List.head?_cons]
    rw [if_pos hg]

/-- Concrete Ko shape: White `(1,1)` surrounded by Black on three sides;
Black completes the capture at `(2,1)`. -/
def koExample : Board :=
  { size := 3,
    grid := [[Stone.EMPTY, Stone.BLACK, Stone.EMPTY],
             [Stone.BLACK, Stone.WHITE, Stone.BLACK],
             [Stone.EMPTY, Stone.EMPTY, Stone.EMPTY]],
    current_turn := Stone.BLACK, move_history := [], captured_history := [],
    ko_point := none, ko_history := [], consecutive_passes := 0,
    consecutive_passes_history := [] }

theorem ko_point_rule_witness :
    (koExample.place_stone 2 1).2 = none ∧
    (koExample.place_stone 2 1).1.ko_point = some (1, 1) := by
  refine ⟨by decide, ?_⟩
  obtain ⟨⟨caps, rest, hch, -, hloc⟩, -⟩ :=
    ko_point_rule koExample (koExample.place_stone 2 1).1 2 1 (by decide)
  have hch2 : (koExample.place_stone 2 1).1.captured_history
      = [(1, 1, Stone.WHITE)] :: ([] : List (List (Int × Int × Stone))) := by decide
  rw [hch2] at hch
  obtain ⟨hcaps, -⟩ := List.cons_eq_cons.mp hch
  exact hloc 1 1 Stone.WHITE hcaps.symm (by decide)

/-! ## Characterisation of the group/liberty search (C6)

The worklist DFS `gflLoop` is proved to compute exactly the maximal
same-colour connected group of its seed and that group's liberties.  The
proof is a standard worklist invariant (`GInv`) maintained by every loop
step, with a decreasing measure `gflMeasure` showing the initial fuel
`gflFuel` is never exhausted. -/

theorem inGroup_colored {size : Nat} {g : List (List Stone)} {color : Stone}
    {seed p : Point} (h : inGroup size g color seed p) :
    isOnBoard size p.1 p.2 = true ∧ gridAt g p.1 p.2 = color := by
  obtain ⟨hseed, hreach⟩ := h
  induction hreach with
  | refl => exact hseed
  | tail _ hstep _ => exact ⟨hstep.2.1, hstep.2.2.2.1⟩

theorem inGroup_refl {size : Nat} {g : List (List Stone)} {color : Stone} {seed : Point}
    (h1 : isOnBoard size seed.1 seed.2 = true) (h2 : gridAt g seed.1 seed.2 = color) :
    inGroup size g color seed seed :=
  ⟨⟨h1, h2⟩, Relation.ReflTransGen.refl⟩

theorem inGroup_step {size : Nat} {g : List (List Stone)} {color : Stone} {seed p q : Point}
    (hp : inGroup size g color seed p) (hq1 : isOnBoard size q.1 q.2 = true)
    (hq2 : gridAt g q.1 q.2 = color) (hnb : q ∈ nbrsOf p) :
    inGroup size g color seed q := by
  obtain ⟨hpc1, hpc2⟩ := inGroup_colored hp
  exact ⟨hp.1, hp.2.tail ⟨hpc1, hq1, hpc2, hq2, hnb⟩⟩

/-- Termination measure of the worklist loops. -/
def gflMeasure (size : Nat) (visited : Finset Point) (stack : List Point) : Nat :=
  5 * ((boardPoints size) \ visited).card + stack.length

/-- Loop invariant of `gflLoop`, for a fixed coloured seed. -/
structure GInv (size : Nat) (g : List (List Stone)) (color : Stone) (seed : Point)
    (stack : List Point) (visited : Finset Point) (group libs : List Point) : Prop where
  vOn : ∀ p ∈ visited, isOnBoard size p.1 p.2 = true
  gChar : ∀ p, p ∈ group ↔ p ∈ visited ∧ gridAt g p.1 p.2 = color
  lChar : ∀ p, p ∈ libs ↔ p ∈ visited ∧ gridAt g p.1 p.2 = Stone.EMPTY
  gNd : group.Nodup
  lNd : libs.Nodup
  sSound : ∀ p ∈ stack, p = seed ∨ ∃ q, inGroup size g color seed q ∧ p ∈ nbrsOf q
  vSound : ∀ p ∈ visited, gridAt g p.1 p.2 = color → inGroup size g color seed p
  eSound : ∀ p ∈ visited, gridAt g p.1 p.2 = Stone.EMPTY →
    ∃ q, inGroup size g color seed q ∧ p ∈ nbrsOf q
  comp : ∀ p ∈ visited, gridAt g p.1 p.2 = color →
    ∀ q ∈ nbrsOf p, isOnBoard size q.1 q.2 = true → q ∈ visited ∨ q ∈ stack
  seedIn : seed ∈ visited ∨ seed ∈ stack

/-- At an empty worklist the invariant forces the accumulators to be
exactly the group and liberty sets of the seed. -/
theorem gfl_final {size : Nat} {g : List (List Stone)} {color : Stone} {seed : Point}
    {visited : Finset Point} {group libs : List Point}
    (inv : GInv size g color seed [] visited group libs) :
    (∀ p, p ∈ group ↔ inGroup size g color seed p) ∧
    (∀ p, p ∈ libs ↔ isLib size g color seed p) ∧
    group.Nodup ∧ libs.Nodup := by
  have hvc : ∀ p, inGroup size g color seed p → p ∈ visited := by
    intro p hp
    obtain ⟨hseedc, hreach⟩ := hp
    induction hreach with
    | refl =>
      rcases inv.seedIn with h | h
      · exact h
      · exact absurd h (List.not_mem_nil seed)
    | tail hab hbc ih =>
      rcases inv.comp _ ih hbc.2.2.1 _ hbc.2.2.2.2 hbc.2.1 with h | h
      · exact h
      · exact absurd h (List.not_mem_nil _)
  refine ⟨?_, ?_, inv.gNd, inv.lNd⟩
  · intro p
    rw [inv.gChar p]
    constructor
    · intro ⟨hpv, hpc⟩
      exact inv.vSound p hpv hpc
    · intro hp
      exact ⟨hvc p hp, (inGroup_colored hp).2⟩
  · intro p
    rw [inv.lChar p]
    constructor
    · intro ⟨hpv, hpe⟩
      obtain ⟨q, hq, hnb⟩ := inv.eSound p hpv hpe
      exact ⟨inv.vOn p hpv, hpe, q, hq, hnb⟩
    · intro ⟨hpOn, hpe, q, hq, hnb⟩
      have hqv : q ∈ visited := hvc q hq
      have hqc := inGroup_colored hq
      rcases inv.comp q hqv hqc.2 p hnb hpOn with h | h
      · exact ⟨h, hpe⟩
      · exact absurd h (List.not_mem_nil _)

theorem GInv_skip_offboard {size : Nat} {g : List (List Stone)} {color : Stone}
    {seed p : Point} {rest : List Point} {visited : Finset Point} {group libs : List Point}
    (inv : GInv size g color seed (p :: rest) visited group libs)
    (hp : ¬ isOnBoard size p.1 p.2 = true)
    (hsOn : isOnBoard size seed.1 seed.2 = true) :
    GInv size g color seed rest visited group libs := by
  refine GInv.mk inv.vOn inv.gChar inv.lChar inv.gNd inv.lNd ?_ inv.vSound inv.eSound ?_ ?_
  · intro q hq
    exact inv.sSound q (List.mem_cons_of_mem p hq)
  · intro q hq hqc q' hq' hq'on
    rcases inv.comp q hq hqc q' hq' hq'on with h | h
    · exact Or.inl h
    · rcases List.mem_cons.mp h with h | h
      · exact absurd (h ▸ hq'on) hp
      · exact Or.inr h
  · rcases inv.seedIn with h | h
    · exact Or.inl h
    · rcases List.mem_cons.mp h with h | h
      · exact absurd (h ▸ hsOn) hp
      · exact Or.inr h

theorem GInv_skip_visited {size : Nat} {g : List (List Stone)} {color : Stone}
    {seed p : Point} {rest : List Point} {visited : Finset Point} {group libs : List Point}
    (inv : GInv size g color seed (p :: rest) visited group libs)
    (hp : p ∈ visited) :
    GInv size g color seed rest visited group libs := by
  refine GInv.mk inv.vOn inv.gChar inv.lChar inv.gNd inv.lNd ?_ inv.vSound inv.eSound ?_ ?_
  · intro q hq
    exact inv.sSound q (List.mem_cons_of_mem p hq)
  · intro q hq hqc q' hq' hq'on
    rcases inv.comp q hq hqc q' hq' hq'on with h | h
    · exact Or.inl h
    · rcases List.mem_cons.mp h with h | h
      · exact Or.inl (h ▸ hp)
      · exact Or.inr h
  · rcases inv.seedIn with h | h
    · exact Or.inl h
    · rcases List.mem_cons.mp h with h | h
      · exact Or.inl (h ▸ hp)
      · exact Or.inr h

theorem GInv_insert_empty {size : Nat} {g : List (List Stone)} {color : Stone}
    {seed p : Point} {rest : List Point} {visited : Finset Point} {group libs : List Point}
    (inv : GInv size g color seed (p :: rest) visited group libs)
    (hon : isOnBoard size p.1 p.2 = true) (hnv : p ∉ visited)
    (hemp : gridAt g p.1 p.2 = Stone.EMPTY) (hcol : color ≠ Stone.EMPTY)
    (hsCol : gridAt g seed.1 seed.2 = color) :
    GInv size g color seed rest (insert p visited) group (p :: libs) := by
  have hpE : ∃ q, inGroup size g color seed q ∧ p ∈ nbrsOf q := by
    rcases inv.sSound p (List.mem_cons_self p rest) with h | h
    · exfalso
      rw [h, hsCol] at hemp
      exact hcol hemp
    · exact h
  refine GInv.mk ?_ ?_ ?_ inv.gNd ?_ ?_ ?_ ?_ ?_ ?_
  · intro q hq
    rcases Finset.mem_insert.mp hq with h | h
    · exact h ▸ hon
    · exact inv.vOn q h
  · intro q
    rw [inv.gChar q]
    constructor
    · intro ⟨hqv, hqc⟩
      exact ⟨Finset.mem_insert_of_mem hqv, hqc⟩
    · intro ⟨hqv, hqc⟩
      rcases Finset.mem_insert.mp hqv with h | h
      · exfalso
        rw [h, hemp] at hqc
        exact hcol hqc.symm
      · exact ⟨h, hqc⟩
  · intro q
    rw [List.mem_cons, inv.lChar q]
    constructor
    · intro h
      rcases h with h | ⟨hqv, hqe⟩
      · exact ⟨h ▸ Finset.mem_insert_self p visited, h ▸ hemp⟩
      · exact ⟨Finset.mem_insert_of_mem hqv, hqe⟩
    · intro ⟨hqv, hqe⟩
      rcases Finset.mem_insert.mp hqv with h | h
      · exact Or.inl h
      · exact Or.inr ⟨h, hqe⟩
  · rw [List.nodup_cons]
    refine ⟨?_, inv.lNd⟩
    intro hmem
    exact hnv ((inv.lChar p).mp hmem).1
  · intro q hq
    exact inv.sSound q (List.mem_cons_of_mem p hq)
  · intro q hq hqc
    rcases Finset.mem_insert.mp hq with h | h
    · exfalso
      rw [h, hemp] at hqc
      exact hcol hqc.symm
    · exact inv.vSound q h hqc
  · intro q hq hqe
    rcases Finset.mem_insert.mp hq with h | h
    · exact h ▸ hpE
    · exact inv.eSound q h hqe
  · intro q hq hqc q' hq' hq'on
    have hqv : q ∈ visited := by
      rcases Finset.mem_insert.mp hq with h | h
      · exfalso
        rw [h, hemp] at hqc
        exact hcol hqc.symm
      · exact h
    rcases inv.comp q hqv hqc q' hq' hq'on with h | h
    · exact Or.inl (Finset.mem_insert_of_mem h)
    · rcases List.mem_cons.mp h with h | h
      · exact Or.inl (h ▸ Finset.mem_insert_self p visited)
      · exact Or.inr h
  · rcases inv.seedIn with h | h
    · exact Or.inl (Finset.mem_insert_of_mem h)
    · rcases List.mem_cons.mp h with h | h
      · exact Or.inl (h ▸ Finset.mem_insert_self p visited)
      · exact Or.inr h

theorem GInv_insert_other {size : Nat} {g : List (List Stone)} {color : Stone}
    {seed p : Point} {rest : List Point} {visited : Finset Point} {group libs : List Point}
    (inv : GInv size g color seed (p :: rest) visited group libs)
    (hon : isOnBoard size p.1 p.2 = true)
    (hne : gridAt g p.1 p.2 ≠ Stone.EMPTY) (hnc : gridAt g p.1 p.2 ≠ color) :
    GInv size g color seed rest (insert p visited) group libs := by
  refine GInv.mk ?_ ?_ ?_ inv.gNd inv.lNd ?_ ?_ ?_ ?_ ?_
  · intro q hq
    rcases Finset.mem_insert.mp hq with h | h
    · exact h ▸ hon
    · exact inv.vOn q h
  · intro q
    rw [inv.gChar q]
    constructor
    · intro ⟨hqv, hqc⟩
      exact ⟨Finset.mem_insert_of_mem hqv, hqc⟩
    · intro ⟨hqv, hqc⟩
      rcases Finset.mem_insert.mp hqv with h | h
      · exact absurd (h ▸ hqc) hnc
      · exact ⟨h, hqc⟩
  · intro q
    rw [inv.lChar q]
    constructor
    · intro ⟨hqv, hqe⟩
      exact ⟨Finset.mem_insert_of_mem hqv, hqe⟩
    · intro ⟨hqv, hqe⟩
      rcases Finset.mem_insert.mp hqv with h | h
      · exact absurd (h ▸ hqe) hne
      · exact ⟨h, hqe⟩
  · intro q hq
    exact inv.sSound q (List.mem_cons_of_mem p hq)
  · intro q hq hqc
    rcases Finset.mem_insert.mp hq with h | h
    · exact absurd (h ▸ hqc) hnc
    · exact inv.vSound q h hqc
  · intro q hq hqe
    rcases Finset.mem_insert.mp hq with h | h
    · exact absurd (h ▸ hqe) hne
    · exact inv.eSound q h hqe
  · intro q hq hqc q' hq' hq'on
    have hqv : q ∈ visited := by
      rcases Finset.mem_insert.mp hq with h | h
      · exact absurd (h ▸ hqc) hnc
      · exact h
    rcases inv.comp q hqv hqc q' hq' hq'on with h | h
    · exact Or.inl (Finset.mem_insert_of_mem h)
    · rcases List.mem_cons.mp h with h | h
      · exact Or.inl (h ▸ Finset.mem_insert_self p visited)
      · exact Or.inr h
  · rcases inv.seedIn with h | h
    · exact Or.inl (Finset.mem_insert_of_mem h)
    · rcases List.mem_cons.mp h with h | h
      · exact Or.inl (h ▸ Finset.mem_insert_self p visited)
      · exact Or.inr h

theorem GInv_insert_color {size : Nat} {g : List (List Stone)} {color : Stone}
    {seed p : Point} {rest : List Point} {visited : Finset Point} {group libs : List Point}
    (inv : GInv size g color seed (p :: rest) visited group libs)
    (hon : isOnBoard size p.1 p.2 = true) (hnv : p ∉ visited)
    (hpc : gridAt g p.1 p.2 = color) (hcol : color ≠ Stone.EMPTY)
    (hsOn : isOnBoard size seed.1 seed.2 = true)
    (hsCol : gridAt g seed.1 seed.2 = color) :
    GInv size g color seed
      ((nbrsOf p).filter (fun q => isOnBoard size q.1 q.2) ++ rest)
      (insert p visited) (p :: group) libs := by
  have hpin : inGroup size g color seed p := by
    rcases inv.sSound p (List.mem_cons_self p rest) with h | h
    · rw [h]
      exact inGroup_refl hsOn hsCol
    · obtain ⟨q, hq, hnb⟩ := h
      exact inGroup_step hq hon hpc hnb
  refine GInv.mk ?_ ?_ ?_ ?_ inv.lNd ?_ ?_ ?_ ?_ ?_
  · intro q hq
    rcases Finset.mem_insert.mp hq with h | h
    · exact h ▸ hon
    · exact inv.vOn q h
  · intro q
    rw [List.mem_cons, inv.gChar q]
    constructor
    · intro h
      rcases h with h | ⟨hqv, hqc⟩
      · exact ⟨h ▸ Finset.mem_insert_self p visited, h ▸ hpc⟩
      · exact ⟨Finset.mem_insert_of_mem hqv, hqc⟩
    · intro ⟨hqv, hqc⟩
      rcases Finset.mem_insert.mp hqv with h | h
      · exact Or.inl h
      · exact Or.inr ⟨h, hqc⟩
  · intro q
    rw [inv.lChar q]
    constructor
    · intro ⟨hqv, hqe⟩
      exact ⟨Finset.mem_insert_of_mem hqv, hqe⟩
    · intro ⟨hqv, hqe⟩
      rcases Finset.mem_insert.mp hqv with h | h
      · exfalso
        rw [h] at hqe
        exact hcol (by rw [← hpc]; exact hqe)
      · exact ⟨h, hqe⟩
  · rw [List.nodup_cons]
    refine ⟨?_, inv.gNd⟩
    intro hmem
    exact hnv ((inv.gChar p).mp hmem).1
  · intro q hq
    rcases List.mem_append.mp hq with h | h
    · obtain ⟨hnb, -⟩ := List.mem_filter.mp h
      exact Or.inr ⟨p, hpin, hnb⟩
    · exact inv.sSound q (List.mem_cons_of_mem p h)
  · intro q hq hqc
    rcases Finset.mem_insert.mp hq with h | h
    · exact h ▸ hpin
    · exact inv.vSound q h hqc
  · intro q hq hqe
    rcases Finset.mem_insert.mp hq with h | h
    · exfalso
      rw [h] at hqe
      exact hcol (by rw [← hpc]; exact hqe)
    · exact inv.eSound q h hqe
  · intro q hq hqc q' hq' hq'on
    rcases Finset.mem_insert.mp hq with h | h
    · subst h
      refine Or.inr (List.mem_append.mpr (Or.inl ?_))
      exact List.mem_filter.mpr ⟨hq', by simpa using hq'on⟩
    · rcases inv.comp q h hqc q' hq' hq'on with h2 | h2
      · exact Or.inl (Finset.mem_insert_of_mem h2)
      · rcases List.mem_cons.mp h2 with h2 | h2
        · exact Or.inl (h2 ▸ Finset.mem_insert_self p visited)
        · exact Or.inr (List.mem_append.mpr (Or.inr h2))
  · rcases inv.seedIn with h | h
    · exact Or.inl (Finset.mem_insert_of_mem h)
    · rcases List.mem_cons.mp h with h | h
      · exact Or.inl (h ▸ Finset.mem_insert_self p visited)
      · exact Or.inr (List.mem_append.mpr (Or.inr h))

/-- The worklist search computes exactly the maximal connected group and
its liberties, for any state satisfying the invariant and enough fuel. -/
theorem gflLoop_char {size : Nat} {g : List (List Stone)} {color : Stone} {seed : Point}
    (hcol : color ≠ Stone.EMPTY)
    (hsOn : isOnBoard size seed.1 seed.2 = true)
    (hsCol : gridAt g seed.1 seed.2 = color) :
    ∀ (fuel : Nat) (stack : List Point) (visited : Finset Point) (group libs : List Point),
      gflMeasure size visited stack ≤ fuel →
      GInv size g color seed stack visited group libs →
      (∀ p, p ∈ (gflLoop size g color fuel stack visited group libs).1 ↔
          inGroup size g color seed p) ∧
      (∀ p, p ∈ (gflLoop size g color fuel stack visited group libs).2 ↔
          isLib size g color seed p) ∧
      (gflLoop size g color fuel stack visited group libs).1.Nodup ∧
      (gflLoop size g color fuel stack visited group libs).2.Nodup := by
  intro fuel
  induction fuel with
  | zero =>
    intro stack visited group libs hm inv
    cases stack with
    | nil => exact gfl_final inv
    | cons p rest =>
      exfalso
      unfold gflMeasure at hm
      rw [List.length_cons] at hm
      omega
  | succ fuel ih =>
    intro stack visited group libs hm inv
    cases stack with
    | nil => exact gfl_final inv
    | cons p rest =>
      have hm' : 5 * ((boardPoints size) \ visited).card + (rest.length + 1) ≤ fuel + 1 := by
        unfold gflMeasure at hm
        rw [List.length_cons] at hm
        exact hm
      unfold gflLoop
      by_cases hon : isOnBoard size p.1 p.2 = true
      · rw [if_pos hon]
        by_cases hv : p ∈ visited
        · rw [if_pos hv]
          exact ih rest visited group libs (by unfold gflMeasure; omega)
            (GInv_skip_visited inv hv)
        · rw [if_neg hv]
          have hcard := sdiff_card_insert hon hv
          by_cases hE : gridAt g p.1 p.2 = Stone.EMPTY
          · rw [if_pos hE]
            exact ih rest (insert p visited) group (p :: libs)
              (by unfold gflMeasure; omega)
              (GInv_insert_empty inv hon hv hE hcol hsCol)
          · rw [if_neg hE]
            by_cases hC : gridAt g p.1 p.2 = color
            · rw [if_pos hC]
              have hlen : ((nbrsOf p).filter
                  (fun q => isOnBoard size q.1 q.2)).length ≤ 4 := by
                have h4 : (nbrsOf p).length = 4 := rfl
                have hle := List.length_filter_le
                  (fun q => isOnBoard size q.1 q.2) (nbrsOf p)
                omega
              exact ih _ (insert p visited) (p :: group) libs
                (by unfold gflMeasure; rw [List.length_append]; omega)
                (GInv_insert_color inv hon hv hC hcol hsOn hsCol)
            · rw [if_neg hC]
              exact ih rest (insert p visited) group libs
                (by unfold gflMeasure; omega)
                (GInv_insert_other inv hon hE hC)
      · rw [if_neg hon]
        exact ih rest visited group libs (by unfold gflMeasure; omega)
          (GInv_skip_offboard inv hon hsOn)

/-- Characterisation of `gflAt` at an occupied on-board seed. -/
theorem gflAt_char {size : Nat} {g : List (List Stone)} {r c : Int}
    (h1 : isOnBoard size r c = true) (h2 : gridAt g r c ≠ Stone.EMPTY) :
    (∀ p, p ∈ (gflAt size g r c).1 ↔ inGroup size g (gridAt g r c) (r, c) p) ∧
    (∀ p, p ∈ (gflAt size g r c).2 ↔ isLib size g (gridAt g r c) (r, c) p) ∧
    (gflAt size g r c).1.Nodup ∧ (gflAt size g r c).2.Nodup := by
  unfold gflAt
  rw [if_neg h2]
  have hmeasure : gflMeasure size (∅ : Finset Point) [(r, c)] ≤ gflFuel size := by
    unfold gflMeasure gflFuel
    rw [Finset.sdiff_empty, boardPoints_card, ← Nat.mul_assoc]
    exact Nat.le_refl _
  refine gflLoop_char h2 h1 rfl (gflFuel size) [(r, c)] ∅ [] [] hmeasure ?_
  refine GInv.mk ?_ ?_ ?_ List.nodup_nil List.nodup_nil ?_ ?_ ?_ ?_ ?_
  · intro p hp
    exact absurd hp (Finset.not_mem_empty p)
  · intro p
    simp
  · intro p
    simp
  · intro p hp
    rcases List.mem_cons.mp hp with h | h
    · exact Or.inl h
    · exact absurd h (List.not_mem_nil p)
  · intro p hp
    exact absurd hp (Finset.not_mem_empty p)
  · intro p hp
    exact absurd hp (Finset.not_mem_empty p)
  · intro p hp
    exact absurd hp (Finset.not_mem_empty p)
  · exact Or.inr (List.mem_cons_self _ _)

/-- On a well-formed board with an in-bounds seed, the public
`get_group_and_liberties` agrees with `gflAt`. -/
theorem get_group_eq_gflAt {b : Board} {r c : Int}
    (hwf : WFGrid b.size b.grid) (hb : isOnBoard b.size r c = true) :
    b.get_group_and_liberties r c = some (gflAt b.size b.grid r c) := by
  unfold Board.get_group_and_liberties gflAt
  rw [gridGet_onBoard hwf hb, Option.map_some']

/-- C6 — Connectivity analyzer contract: on a well-formed board, for every
in-bounds occupied point `get_group_and_liberties` returns (without error)
the set of same-colour points reachable from the seed via orthogonal
adjacency through same-colour stones only (`inGroup`, which has no
wraparound: every hop is between on-board points) together with the set of
empty points orthogonally adjacent to some stone of that group (`isLib`);
for every in-bounds empty point it returns two empty sets without
error. -/
theorem get_group_and_liberties_spec (b : Board) (r c : Int)
    (hwf : WFGrid b.size b.grid) (hb : isOnBoard b.size r c = true) :
    (gridAt b.grid r c = Stone.EMPTY →
      b.get_group_and_liberties r c = some ([], [])) ∧
    (gridAt b.grid r c ≠ Stone.EMPTY →
      ∃ G L, b.get_group_and_liberties r c = some (G, L) ∧ G.Nodup ∧ L.Nodup ∧
        (∀ p, p ∈ G ↔ inGroup b.size b.grid (gridAt b.grid r c) (r, c) p) ∧
        (∀ p, p ∈ L ↔ isLib b.size b.grid (gridAt b.grid r c) (r, c) p)) := by
  constructor
  · intro hE
    rw [get_group_eq_gflAt hwf hb]
    unfold gflAt
    rw [if_pos hE]
  · intro hne
    refine ⟨(gflAt b.size b.grid r c).1, (gflAt b.size b.grid r c).2, ?_, ?_, ?_, ?_, ?_⟩
    · rw [get_group_eq_gflAt hwf hb]
    · exact (gflAt_char hb hne).2.2.1
    · exact (gflAt_char hb hne).2.2.2
    · exact (gflAt_char hb hne).1
    · exact (gflAt_char hb hne).2.1

/-- The three-stone group scenario of the repository's own test
(`tests/test_board.py`): Black at `(1,1), (1,2), (2,1)` on a 5×5 board. -/
def groupExample : Board :=
  { size := 5,
    grid := [[Stone.EMPTY, Stone.EMPTY, Stone.EMPTY, Stone.EMPTY, Stone.EMPTY],
             [Stone.EMPTY, Stone.BLACK, Stone.BLACK, Stone.EMPTY, Stone.EMPTY],
             [Stone.EMPTY, Stone.BLACK, Stone.EMPTY, Stone.EMPTY, Stone.EMPTY],
             [Stone.EMPTY, Stone.EMPTY, Stone.EMPTY, Stone.EMPTY, Stone.EMPTY],
             [Stone.EMPTY, Stone.EMPTY, Stone.EMPTY, Stone.EMPTY, Stone.EMPTY]],
    current_turn := Stone.WHITE, move_history := [], captured_history := [],
    ko_point := none, ko_history := [], consecutive_passes := 0,
    consecutive_passes_history := [] }

theorem get_group_and_liberties_spec_witness :
    (∃ G L, groupExample.get_group_and_liberties 1 1 = some (G, L) ∧
      G.Nodup ∧ L.Nodup ∧
      (∀ p, p ∈ G ↔
        inGroup groupExample.size groupExample.grid
          (gridAt groupExample.grid 1 1) (1, 1) p) ∧
      (∀ p, p ∈ L ↔
        isLib groupExample.size groupExample.grid
          (gridAt groupExample.grid 1 1) (1, 1) p)) ∧
    groupExample.get_group_and_liberties 0 0 = some ([], []) :=
  ⟨(get_group_and_liberties_spec groupExample 1 1 (by decide) (by decide)).2 (by decide),
   (get_group_and_liberties_spec groupExample 0 0 (by decide) (by decide)).1 (by decide)⟩

/-! ## Stability of groups and liberties under clearing a union of groups

Distinct same-colour groups are never adjacent, so clearing a
step-closed set `K` of `color`-cells changes neither the group nor the
liberties of any seed outside `K`. -/

theorem colorStep_symm {size : Nat} {g : List (List Stone)} {color : Stone}
    {p q : Point} (h : colorStep size g color p q) : colorStep size g color q p :=
  ⟨h.2.1, h.1, h.2.2.2.1, h.2.2.1, nbrsOf_symm.mpr h.2.2.2.2⟩

theorem inGroup_symm {size : Nat} {g : List (List Stone)} {color : Stone}
    {s p : Point} (h : inGroup size g color s p) : inGroup size g color p s := by
  obtain ⟨hs, hreach⟩ := h
  have hp := inGroup_colored ⟨hs, hreach⟩
  refine ⟨hp, ?_⟩
  induction hreach with
  | refl => exact Relation.ReflTransGen.refl
  | tail hab hbc ih =>
    exact Relation.ReflTransGen.trans (Relation.ReflTransGen.single (colorStep_symm hbc))
      (ih (inGroup_colored ⟨hs, hab⟩))

theorem inGroup_trans {size : Nat} {g : List (List Stone)} {color : Stone}
    {s p q : Point} (h1 : inGroup size g color s p) (h2 : inGroup size g color p q) :
    inGroup size g color s q :=
  ⟨h1.1, Relation.ReflTransGen.trans h1.2 h2.2⟩

/-- A liberty of a group is a liberty of the group seen from any of its
members. -/
theorem isLib_seed_eq {size : Nat} {g : List (List Stone)} {color : Stone}
    {s p l : Point} (h : inGroup size g color s p) :
    isLib size g color s l ↔ isLib size g color p l := by
  constructor
  · intro ⟨hOn, hE, q, hq, hnb⟩
    exact ⟨hOn, hE, q, inGroup_trans (inGroup_symm h) hq, hnb⟩
  · intro ⟨hOn, hE, q, hq, hnb⟩
    exact ⟨hOn, hE, q, inGroup_trans h hq, hnb⟩

/-- Reachability from a seed outside a step-closed set never enters it. -/
theorem reach_avoid {size : Nat} {g : List (List Stone)} {color : Stone}
    {K : Point → Prop} {s : Point}
    (hclosed : ∀ p q : Point, K p → colorStep size g color p q → K q)
    (hs : ¬ K s) : ∀ p, Reaches size g color s p → ¬ K p := by
  have main : ∀ p, Reaches size g color s p → K p → K s := by
    intro p h
    induction h with
    | refl => exact fun h => h
    | tail hab hbc ih => exact fun hc => ih (hclosed _ _ hc (colorStep_symm hbc))
  intro p h hK
  exact hs (main p h hK)

theorem colorStep_clear_iff {size : Nat} {g g' : List (List Stone)} {color : Stone}
    {K : Point → Prop}
    (hK2 : ∀ p : Point, isOnBoard size p.1 p.2 = true → ¬ K p →
      gridAt g' p.1 p.2 = gridAt g p.1 p.2)
    {p q : Point} (hp : ¬ K p) (hq : ¬ K q) :
    (colorStep size g' color p q ↔ colorStep size g color p q) := by
  constructor
  · intro ⟨h1, h2, h3, h4, h5⟩
    rw [hK2 p h1 hp] at h3
    rw [hK2 q h2 hq] at h4
    exact ⟨h1, h2, h3, h4, h5⟩
  · intro ⟨h1, h2, h3, h4, h5⟩
    rw [← hK2 p h1 hp] at h3
    rw [← hK2 q h2 hq] at h4
    exact ⟨h1, h2, h3, h4, h5⟩

/-- Clearing a step-closed set of `color` cells does not change the group
of a seed outside the set. -/
theorem inGroup_clear_iff {size : Nat} {g g' : List (List Stone)} {color : Stone}
    {K : Point → Prop} {s : Point}
    (hcol : color ≠ Stone.EMPTY)
    (hK1 : ∀ p : Point, K p → gridAt g' p.1 p.2 = Stone.EMPTY)
    (hK2 : ∀ p : Point, isOnBoard size p.1 p.2 = true → ¬ K p →
      gridAt g' p.1 p.2 = gridAt g p.1 p.2)
    (hclosed : ∀ p q : Point, K p → colorStep size g color p q → K q)
    (hs : ¬ K s) :
    ∀ p, (inGroup size g' color s p ↔ inGroup size g color s p) := by
  have hKg' : ∀ p : Point, K p → gridAt g' p.1 p.2 ≠ color := by
    intro p hp hcontra
    rw [hK1 p hp] at hcontra
    exact hcol hcontra.symm
  intro p
  constructor
  · intro ⟨⟨hsOn, hsCol⟩, hreach⟩
    have hsg : gridAt g s.1 s.2 = color := by rw [← hK2 s hsOn hs]; exact hsCol
    refine ⟨⟨hsOn, hsg⟩, ?_⟩
    clear hsCol hsg
    induction hreach with
    | refl => exact Relation.ReflTransGen.refl
    | tail hab hbc ih =>
      rename_i b cc
      have hbK : ¬ K b := fun hK => hKg' b hK hbc.2.2.1
      have hcK : ¬ K cc := fun hK => hKg' cc hK hbc.2.2.2.1
      exact ih.tail ((colorStep_clear_iff hK2 hbK hcK).mp hbc)
  · intro hin
    obtain ⟨⟨hsOn, hsCol⟩, hreach⟩ := hin
    have havoid := reach_avoid (g := g) hclosed hs
    have hsg' : gridAt g' s.1 s.2 = color := by rw [hK2 s hsOn hs]; exact hsCol
    refine ⟨⟨hsOn, hsg'⟩, ?_⟩
    induction hreach with
    | refl => exact Relation.ReflTransGen.refl
    | tail hab hbc ih =>
      rename_i b cc
      have hbK : ¬ K b := havoid b hab
      have hcK : ¬ K cc := havoid cc (hab.tail hbc)
      exact ih.tail ((colorStep_clear_iff hK2 hbK hcK).mpr hbc)

/-- Clearing a step-closed set of `color` cells does not change the
liberties of a group outside the set. -/
theorem isLib_clear_iff {size : Nat} {g g' : List (List Stone)} {color : Stone}
    {K : Point → Prop} {s : Point}
    (hcol : color ≠ Stone.EMPTY)
    (hKon : ∀ p : Point, K p → isOnBoard size p.1 p.2 = true ∧ gridAt g p.1 p.2 = color)
    (hK1 : ∀ p : Point, K p → gridAt g' p.1 p.2 = Stone.EMPTY)
    (hK2 : ∀ p : Point, isOnBoard size p.1 p.2 = true → ¬ K p →
      gridAt g' p.1 p.2 = gridAt g p.1 p.2)
    (hclosed : ∀ p q : Point, K p → colorStep size g color p q → K q)
    (hs : ¬ K s) :
    ∀ p, (isLib size g' color s p ↔ isLib size g color s p) := by
  have hgr := inGroup_clear_iff (g := g) hcol hK1 hK2 hclosed hs
  intro p
  constructor
  · intro ⟨hOn, hE, q, hq, hnb⟩
    have hq' := (hgr q).mp hq
    have hpK : ¬ K p := by
      intro hpK
      -- p would be a `color` cell of `K` adjacent to the group of `s`,
      -- hence in that group, contradicting `reach_avoid`.
      have hqc := inGroup_colored hq'
      have hstep : colorStep size g color q p :=
        ⟨hqc.1, (hKon p hpK).1, hqc.2, (hKon p hpK).2, hnb⟩
      have : inGroup size g color s p := ⟨hq'.1, hq'.2.tail hstep⟩
      exact reach_avoid (g := g) hclosed hs p this.2 hpK
    rw [hK2 p hOn hpK] at hE
    exact ⟨hOn, hE, q, hq', hnb⟩
  · intro ⟨hOn, hE, q, hq, hnb⟩
    have hpK : ¬ K p := by
      intro hpK
      rw [(hKon p hpK).2] at hE
      exact hcol hE
    rw [← hK2 p hOn hpK] at hE
    exact ⟨hOn, hE, q, (hgr q).mpr hq, hnb⟩

/-! ## Invariant of the capture loop

During the neighbour loop of `place_stone` the grid is `grid1` (the board
after the tentative placement) with some set of captured enemy groups
cleared.  `CapInv` records that the captured positions are exactly the
cleared cells, that they form a step-closed union of `grid1`-enemy groups
with no `grid1` liberties, each adjacent to the placed point, and that
every processed-but-uncaptured cell belongs to a group that still has a
liberty. -/

def capturedPts (st : CapSt) : List Point := st.captured.map (fun t => (t.1, t.2.1))

theorem map_pair_id : ∀ l : List Point, l.map (fun p => (p.1, p.2)) = l := by
  intro l
  induction l with
  | nil => rfl
  | cons p rest ih => rw [List.map_cons, ih]

structure CapInv (size : Nat) (g1 : List (List Stone)) (enemy : Stone) (row col : Int)
    (st : CapSt) : Prop where
  wf : WFGrid size st.grid
  gridK : ∀ p : Point, p ∈ capturedPts st → gridAt st.grid p.1 p.2 = Stone.EMPTY
  gridN : ∀ p : Point, isOnBoard size p.1 p.2 = true → p ∉ capturedPts st →
    gridAt st.grid p.1 p.2 = gridAt g1 p.1 p.2
  caps : ∀ t ∈ st.captured, t.2.2 = enemy ∧ isOnBoard size t.1 t.2.1 = true ∧
    gridAt g1 t.1 t.2.1 = enemy
  nd : (capturedPts st).Nodup
  closed : ∀ p q : Point, p ∈ capturedPts st → colorStep size g1 enemy p q →
    q ∈ capturedPts st
  dead : ∀ p ∈ capturedPts st, ∀ l, ¬ isLib size g1 enemy p l
  adj : ∀ p ∈ capturedPts st, ∃ n ∈ nbrsOf (row, col), inGroup size g1 enemy n p
  procK : ∀ p ∈ capturedPts st, p ∈ st.processed
  procSound : ∀ p : Point, p ∈ st.processed → isOnBoard size p.1 p.2 = true ∧
    gridAt g1 p.1 p.2 = enemy ∧
    (p ∉ capturedPts st → ∃ l, isLib size g1 enemy p l)

theorem CapInv.K_colored {size : Nat} {g1 : List (List Stone)} {enemy : Stone}
    {row col : Int} {st : CapSt} (inv : CapInv size g1 enemy row col st) :
    ∀ p : Point, p ∈ capturedPts st →
      isOnBoard size p.1 p.2 = true ∧ gridAt g1 p.1 p.2 = enemy := by
  intro p hp
  obtain ⟨t, ht, hpt⟩ := List.mem_map.mp hp
  obtain ⟨-, h1, h2⟩ := inv.caps t ht
  rw [← hpt]
  exact ⟨h1, h2⟩

theorem CapInv.K_reach_closed {size : Nat} {g1 : List (List Stone)} {enemy : Stone}
    {row col : Int} {st : CapSt} (inv : CapInv size g1 enemy row col st) :
    ∀ p q : Point, p ∈ capturedPts st → inGroup size g1 enemy p q →
      q ∈ capturedPts st := by
  intro p q hp hin
  obtain ⟨hpc, hreach⟩ := hin
  induction hreach with
  | refl => exact hp
  | tail hab hbc ih => exact inv.closed _ _ ih hbc

/-- One capture-loop step preserves the invariant, only grows the captured
set, and — when this step's neighbour holds a `grid1`-enemy group with no
`grid1` liberties — ends with that whole group captured. -/
theorem capStep_inv {size : Nat} {g1 : List (List Stone)} {enemy : Stone}
    {row col : Int} {st : CapSt} {d : Int × Int}
    (henemy : enemy ≠ Stone.EMPTY) (hd : d ∈ NEIGHBORS)
    (inv : CapInv size g1 enemy row col st) :
    CapInv size g1 enemy row col (capStep size enemy row col st d) ∧
    (∀ p ∈ capturedPts st, p ∈ capturedPts (capStep size enemy row col st d)) ∧
    (isOnBoard size (row + d.1) (col + d.2) = true →
      gridAt g1 (row + d.1) (col + d.2) = enemy →
      (∀ l, ¬ isLib size g1 enemy (row + d.1, col + d.2) l) →
      ∀ q, inGroup size g1 enemy (row + d.1, col + d.2) q →
        q ∈ capturedPts (capStep size enemy row col st d)) := by
  unfold capStep
  by_cases hon : isOnBoard size (row + d.1) (col + d.2) = true
  · rw [if_pos hon]
    by_cases hproc : (row + d.1, col + d.2) ∈ st.processed
    · rw [if_pos hproc]
      refine ⟨inv, fun p hp => hp, ?_⟩
      intro hon2 hen hdead q hq
      obtain ⟨-, -, hlib⟩ := inv.procSound _ hproc
      by_cases hK : (row + d.1, col + d.2) ∈ capturedPts st
      · exact inv.K_reach_closed _ q hK hq
      · obtain ⟨l, hl⟩ := hlib hK
        exact absurd hl (hdead l)
    · rw [if_neg hproc]
      by_cases hen : gridAt st.grid (row + d.1) (col + d.2) = enemy
      · rw [if_pos hen]
        have hnK : ((row + d.1, col + d.2) : Point) ∉ capturedPts st := by
          intro hK
          rw [inv.gridK _ hK] at hen
          exact henemy hen.symm
        have heng1 : gridAt g1 (row + d.1) (col + d.2) = enemy := by
          rw [← inv.gridN _ hon hnK]
          exact hen
        have hne : gridAt st.grid (row + d.1) (col + d.2) ≠ Stone.EMPTY := by
          rw [hen]
          exact henemy
        have hchar := gflAt_char (g := st.grid) hon hne
        rw [hen] at hchar
        have hgr := inGroup_clear_iff (g := g1)
          (K := fun p => p ∈ capturedPts st) henemy inv.gridK
          (fun p h1 h2 => inv.gridN p h1 h2) inv.closed hnK
        have hlb := isLib_clear_iff (g := g1)
          (K := fun p => p ∈ capturedPts st) henemy inv.K_colored inv.gridK
          (fun p h1 h2 => inv.gridN p h1 h2) inv.closed hnK
        have hGiff : ∀ p, p ∈ (gflAt size st.grid (row + d.1) (col + d.2)).1 ↔
            inGroup size g1 enemy (row + d.1, col + d.2) p :=
          fun p => (hchar.1 p).trans (hgr p)
        have hLiff : ∀ l, l ∈ (gflAt size st.grid (row + d.1) (col + d.2)).2 ↔
            isLib size g1 enemy (row + d.1, col + d.2) l :=
          fun l => (hchar.2.1 l).trans (hlb l)
        have hGon : ∀ p ∈ (gflAt size st.grid (row + d.1) (col + d.2)).1,
            isOnBoard size p.1 p.2 = true ∧ gridAt g1 p.1 p.2 = enemy :=
          fun p hp => inGroup_colored ((hGiff p).mp hp)
        have hGK : ∀ p ∈ (gflAt size st.grid (row + d.1) (col + d.2)).1,
            p ∉ capturedPts st := by
          intro p hp
          exact reach_avoid (g := g1) inv.closed hnK p ((hGiff p).mp hp).2
        by_cases hdead2 : (gflAt size st.grid (row + d.1) (col + d.2)).2 = []
        · rw [if_pos hdead2]
          have hGdead : ∀ l, ¬ isLib size g1 enemy (row + d.1, col + d.2) l := by
            intro l hl
            have := (hLiff l).mpr hl
            rw [hdead2] at this
            exact List.not_mem_nil l this
          have hKnew : capturedPts (CapSt.mk
                (clearCells st.grid (gflAt size st.grid (row + d.1) (col + d.2)).1)
                (st.processed ∪ (gflAt size st.grid (row + d.1) (col + d.2)).1.toFinset)
                (st.captured ++ (gflAt size st.grid (row + d.1) (col + d.2)).1.map
                  (fun p => (p.1, p.2, enemy)))
                true)
              = capturedPts st ++ (gflAt size st.grid (row + d.1) (col + d.2)).1 := by
            unfold capturedPts
            rw [List.map_append, List.map_map]
            congr 1
            exact map_pair_id _
          refine ⟨?_, ?_, ?_⟩
          · refine CapInv.mk ?_ ?_ ?_ ?_ ?_ ?_ ?_ ?_ ?_ ?_
            · exact WFGrid_clearCells inv.wf
            · intro p hp
              rw [hKnew] at hp
              show gridAt (clearCells st.grid _) p.1 p.2 = Stone.EMPTY
              have hpOn : isOnBoard size p.1 p.2 = true := by
                rcases List.mem_append.mp hp with h | h
                · exact (inv.K_colored p h).1
                · exact (hGon p h).1
              rw [gridAt_clearCells inv.wf (fun q hq => (hGon q hq).1) hpOn]
              rcases List.mem_append.mp hp with h | h
              · split
                · rfl
                · exact inv.gridK p h
              · rw [if_pos h]
            · intro p hpOn hp
              rw [hKnew] at hp
              show gridAt (clearCells st.grid _) p.1 p.2 = _
              rw [gridAt_clearCells inv.wf (fun q hq => (hGon q hq).1) hpOn,
                if_neg (fun h => hp (List.mem_append.mpr (Or.inr h)))]
              exact inv.gridN p hpOn (fun h => hp (List.mem_append.mpr (Or.inl h)))
            · intro t ht
              rcases List.mem_append.mp ht with h | h
              · exact inv.caps t h
              · obtain ⟨p, hp, hpt⟩ := List.mem_map.mp h
                rw [← hpt]
                exact ⟨rfl, (hGon p hp).1, (hGon p hp).2⟩
            · rw [hKnew]
              refine inv.nd.append (hchar.2.2.1) ?_
              intro p hp hpG
              exact hGK p hpG hp
            · intro p q hp hstep
              rw [hKnew] at hp ⊢
              rcases List.mem_append.mp hp with h | h
              · exact List.mem_append.mpr (Or.inl (inv.closed p q h hstep))
              · refine List.mem_append.mpr (Or.inr ?_)
                rw [hGiff]
                have hpin := (hGiff p).mp h
                exact ⟨hpin.1, hpin.2.tail hstep⟩
            · intro p hp l
              rw [hKnew] at hp
              rcases List.mem_append.mp hp with h | h
              · exact inv.dead p h l
              · intro hl
                have hpin := (hGiff p).mp h
                exact hGdead l ((isLib_seed_eq hpin).mpr hl)
            · intro p hp
              rw [hKnew] at hp
              rcases List.mem_append.mp hp with h | h
              · exact inv.adj p h
              · exact ⟨(row + d.1, col + d.2), nbrs_offset_mem hd, (hGiff p).mp h⟩
            · intro p hp
              rw [hKnew] at hp
              show p ∈ st.processed ∪ _
              rcases List.mem_append.mp hp with h | h
              · exact Finset.mem_union_left _ (inv.procK p h)
              · exact Finset.mem_union_right _ (List.mem_toFinset.mpr h)
            · intro p hp
              rcases Finset.mem_union.mp hp with h | h
              · obtain ⟨h1, h2, h3⟩ := inv.procSound p h
                refine ⟨h1, h2, ?_⟩
                intro hnot
                rw [hKnew] at hnot
                exact h3 (fun hmem => hnot (List.mem_append.mpr (Or.inl hmem)))
              · have hpG := List.mem_toFinset.mp h
                refine ⟨(hGon p hpG).1, (hGon p hpG).2, ?_⟩
                intro hnot
                rw [hKnew] at hnot
                exact absurd (List.mem_append.mpr (Or.inr hpG)) hnot
          · intro p hp
            rw [hKnew]
            exact List.mem_append.mpr (Or.inl hp)
          · intro hon2 hen2 hdead3 q hq
            rw [hKnew]
            exact List.mem_append.mpr (Or.inr ((hGiff q).mpr hq))
        · rw [if_neg hdead2]
          obtain ⟨l0, hl0⟩ := List.exists_mem_of_ne_nil _ hdead2
          have hl0' := (hLiff l0).mp hl0
          refine ⟨?_, fun p hp => hp, ?_⟩
          · refine CapInv.mk inv.wf inv.gridK inv.gridN inv.caps inv.nd
              inv.closed inv.dead inv.adj ?_ ?_
            · intro p hp
              exact Finset.mem_union_left _ (inv.procK p hp)
            · intro p hp
              rcases Finset.mem_union.mp hp with h | h
              · exact inv.procSound p h
              · have hpG := List.mem_toFinset.mp h
                refine ⟨(hGon p hpG).1, (hGon p hpG).2, ?_⟩
                intro hnot
                exact ⟨l0, (isLib_seed_eq ((hGiff p).mp hpG)).mp hl0'⟩
          · intro hon2 hen2 hdead3 q hq
            exact absurd hl0' (hdead3 l0)
      · rw [if_neg hen]
        refine ⟨inv, fun p hp => hp, ?_⟩
        intro hon2 hen2 hdead q hq
        have hnK : ((row + d.1, col + d.2) : Point) ∈ capturedPts st := by
          by_contra hnotK
          rw [inv.gridN _ hon hnotK] at hen
          exact hen hen2
        exact inv.K_reach_closed _ q hnK hq
  · rw [if_neg hon]
    refine ⟨inv, fun p hp => hp, ?_⟩
    intro hon2
    exact absurd hon2 hon

theorem capLoop_inv {size : Nat} {g1 : List (List Stone)} {enemy : Stone} {row col : Int}
    (henemy : enemy ≠ Stone.EMPTY) :
    ∀ ds : List (Int × Int), (∀ d ∈ ds, d ∈ NEIGHBORS) → ∀ st : CapSt,
      CapInv size g1 enemy row col st →
      CapInv size g1 enemy row col (capLoop size enemy row col ds st) ∧
      (∀ p ∈ capturedPts st, p ∈ capturedPts (capLoop size enemy row col ds st)) ∧
      (∀ d ∈ ds, isOnBoard size (row + d.1) (col + d.2) = true →
        gridAt g1 (row + d.1) (col + d.2) = enemy →
        (∀ l, ¬ isLib size g1 enemy (row + d.1, col + d.2) l) →
        ∀ q, inGroup size g1 enemy (row + d.1, col + d.2) q →
          q ∈ capturedPts (capLoop size enemy row col ds st)) := by
  intro ds
  induction ds with
  | nil =>
    intro _ st inv
    exact ⟨inv, fun p hp => hp, fun d hd => absurd hd (List.not_mem_nil d)⟩
  | cons d rest ih =>
    intro hds st inv
    have hstep := capStep_inv henemy (hds d (List.mem_cons_self d rest)) inv
    have hrest := ih (fun e he => hds e (List.mem_cons_of_mem d he)) _ hstep.1
    have hloop : capLoop size enemy row col (d :: rest) st
        = capLoop size enemy row col rest (capStep size enemy row col st d) := rfl
    rw [hloop]
    refine ⟨hrest.1, ?_, ?_⟩
    · intro p hp
      exact hrest.2.1 p (hstep.2.1 p hp)
    · intro e he hon hen hdead q hq
      rcases List.mem_cons.mp he with he | he
      · subst he
        exact hrest.2.1 q (hstep.2.2 hon hen hdead q hq)
      · exact hrest.2.2 e he hon hen hdead q hq

/-- The invariant at the start of the capture loop of `place_stone`. -/
theorem capInv_init (b : Board) (r c : Int) (hwf : WFGrid b.size b.grid) :
    CapInv b.size (setCell b.grid r c b.current_turn) b.current_turn.opponent r c
      (CapSt.mk (setCell b.grid r c b.current_turn) ∅ [] false) := by
  refine CapInv.mk (WFGrid_setCell hwf) ?_ ?_ ?_ List.nodup_nil ?_ ?_ ?_ ?_ ?_
  · intro p hp
    exact absurd hp (List.not_mem_nil p)
  · intro p h1 h2
    rfl
  · intro t ht
    exact absurd ht (List.not_mem_nil t)
  · intro p q hp
    exact absurd hp (List.not_mem_nil p)
  · intro p hp
    exact absurd hp (List.not_mem_nil p)
  · intro p hp
    exact absurd hp (List.not_mem_nil p)
  · intro p hp
    exact absurd hp (List.not_mem_nil p)
  · intro p hp
    exact absurd hp (Finset.not_mem_empty p)

theorem capStep_captured_app {size : Nat} {enemy : Stone} {row col : Int}
    {st : CapSt} {d : Int × Int} :
    ∃ tail, (capStep size enemy row col st d).captured = st.captured ++ tail := by
  unfold capStep
  split
  · split
    · exact ⟨[], (List.append_nil _).symm⟩
    · split
      · split
        · exact ⟨_, rfl⟩
        · exact ⟨[], (List.append_nil _).symm⟩
      · exact ⟨[], (List.append_nil _).symm⟩
  · exact ⟨[], (List.append_nil _).symm⟩

theorem capLoop_captured_app {size : Nat} {enemy : Stone} {row col : Int} :
    ∀ (ds : List (Int × Int)) (st : CapSt),
      ∃ tail, (capLoop size enemy row col ds st).captured = st.captured ++ tail := by
  intro ds
  induction ds with
  | nil => exact fun st => ⟨[], (List.append_nil _).symm⟩
  | cons d rest ih =>
    intro st
    obtain ⟨t1, h1⟩ := @capStep_captured_app size enemy row col st d
    obtain ⟨t2, h2⟩ := ih (capStep size enemy row col st d)
    refine ⟨t1 ++ t2, ?_⟩
    show (capLoop size enemy row col rest (capStep size enemy row col st d)).captured = _
    rw [h2, h1, List.append_assoc]

/-- A step that flips `captured_any` appends a nonempty captured group:
the group of the examined neighbour contains that neighbour. -/
theorem capStep_any_new {size : Nat} {enemy : Stone} {row col : Int}
    {st : CapSt} {d : Int × Int} (henemy : enemy ≠ Stone.EMPTY)
    (h : (capStep size enemy row col st d).captured_any = true)
    (h0 : st.captured_any = false) :
    (capStep size enemy row col st d).captured ≠ [] := by
  unfold capStep at h ⊢
  split at h
  · rename_i hon
    split at h
    · rw [h] at h0; exact Bool.noConfusion h0
    · split at h
      · rename_i hproc hen
        split at h
        · rename_i hdead
          rw [if_neg hproc, if_pos hen, if_pos hdead, if_pos hon]
          show st.captured ++ _ ≠ []
          have hne : gridAt st.grid (row + d.1) (col + d.2) ≠ Stone.EMPTY := by
            rw [hen]
            exact henemy
          have hchar := gflAt_char (g := st.grid) hon hne
          have hseedG : ((row + d.1, col + d.2) : Point)
              ∈ (gflAt size st.grid (row + d.1) (col + d.2)).1 :=
            (hchar.1 _).mpr (inGroup_refl hon rfl)
          intro hnil
          rw [List.append_eq_nil] at hnil
          rw [List.map_eq_nil_iff] at hnil
          rw [hnil.2] at hseedG
          exact List.not_mem_nil _ hseedG
        · rw [h] at h0; exact Bool.noConfusion h0
      · rw [h] at h0; exact Bool.noConfusion h0
  · rw [h] at h0; exact Bool.noConfusion h0

/-- If the loop ends with `captured_any` set, the captured list is
nonempty. -/
theorem capLoop_any_captured_ne {size : Nat} {enemy : Stone} {row col : Int}
    (henemy : enemy ≠ Stone.EMPTY) :
    ∀ (ds : List (Int × Int)) (st : CapSt),
      st.captured_any = false →
      (capLoop size enemy row col ds st).captured_any = true →
      (capLoop size enemy row col ds st).captured ≠ [] := by
  intro ds
  induction ds with
  | nil =>
    intro st h0 hfinal
    have : st.captured_any = true := hfinal
    rw [this] at h0
    exact Bool.noConfusion h0
  | cons d rest ih =>
    intro st h0 hfinal
    show (capLoop size enemy row col rest (capStep size enemy row col st d)).captured ≠ []
    by_cases hany : (capStep size enemy row col st d).captured_any = true
    · have hne := capStep_any_new henemy hany h0
      obtain ⟨tail, htail⟩ := capLoop_captured_app rest (capStep size enemy row col st d)
      rw [htail]
      intro hnil
      rw [List.append_eq_nil] at hnil
      exact hne hnil.1
    · rw [Bool.not_eq_true] at hany
      exact ih (capStep size enemy row col st d) hany hfinal

/-- C1 (amended) — Capture takes precedence over suicide.  For a placement
that passes the preliminary checks (in-bounds, empty target, not the Ko
point): if the tentative placement leaves at least one adjacent enemy
group with no liberties, `place_stone` succeeds, and every such group is
cleared to `EMPTY` in the resulting grid; and `place_stone` fails with
`SuicideViolation` exactly when, after capture resolution, the just-placed
stone's own group has no liberties and no enemy stone was captured in the
same call. -/
theorem capture_precedence (b : Board) (r c : Int)
    (hwf : WFGrid b.size b.grid) (hturn : b.current_turn ≠ Stone.EMPTY)
    (hin : isOnBoard b.size r c = true)
    (hemp : gridAt b.grid r c = Stone.EMPTY)
    (hko : b.ko_point ≠ some (r, c)) :
    ((∃ p ∈ nbrsOf (r, c), isOnBoard b.size p.1 p.2 = true ∧
        gridAt (setCell b.grid r c b.current_turn) p.1 p.2 = b.current_turn.opponent ∧
        (gflAt b.size (setCell b.grid r c b.current_turn) p.1 p.2).2 = []) →
      ((b.place_stone r c).2 = none ∧
        (∀ p ∈ nbrsOf (r, c), isOnBoard b.size p.1 p.2 = true →
          gridAt (setCell b.grid r c b.current_turn) p.1 p.2 = b.current_turn.opponent →
          (gflAt b.size (setCell b.grid r c b.current_turn) p.1 p.2).2 = [] →
          ∀ q, inGroup b.size (setCell b.grid r c b.current_turn)
              b.current_turn.opponent p q →
            gridAt (b.place_stone r c).1.grid q.1 q.2 = Stone.EMPTY))) ∧
    ((b.place_stone r c).2 = some GoError.SuicideViolation ↔
      ((gflAt b.size (placeSt b r c).grid r c).2 = [] ∧
        (placeSt b r c).captured = [])) := by
  have henemy : b.current_turn.opponent ≠ Stone.EMPTY := Stone.opponent_ne_empty hturn
  have hinv := @capLoop_inv b.size (setCell b.grid r c b.current_turn)
    b.current_turn.opponent r c henemy NEIGHBORS (fun d hd => hd)
    (CapSt.mk (setCell b.grid r c b.current_turn) ∅ [] false) (capInv_init b r c hwf)
  have hps : placeSt b r c = capLoop b.size b.current_turn.opponent r c NEIGHBORS
      (CapSt.mk (setCell b.grid r c b.current_turn) ∅ [] false) := rfl
  rw [← hps] at hinv
  -- translating an empty liberty list into the absence of liberties
  have hdeadOf : ∀ p : Point, isOnBoard b.size p.1 p.2 = true →
      gridAt (setCell b.grid r c b.current_turn) p.1 p.2 = b.current_turn.opponent →
      (gflAt b.size (setCell b.grid r c b.current_turn) p.1 p.2).2 = [] →
      ∀ l, ¬ isLib b.size (setCell b.grid r c b.current_turn)
        b.current_turn.opponent p l := by
    intro p hpOn hpEn hpDead l hl
    have hne : gridAt (setCell b.grid r c b.current_turn) p.1 p.2 ≠ Stone.EMPTY := by
      rw [hpEn]
      exact henemy
    have hchar := gflAt_char (g := setCell b.grid r c b.current_turn) hpOn hne
    rw [hpEn] at hchar
    have hl2 := (hchar.2.1 l).mpr (by
      have hpe : ((p.1, p.2) : Point) = p := rfl
      rw [hpe]
      exact hl)
    rw [hpDead] at hl2
    exact List.not_mem_nil l hl2
  -- captured membership for every dead adjacent enemy group
  have hcapOf : ∀ p ∈ nbrsOf (r, c), isOnBoard b.size p.1 p.2 = true →
      gridAt (setCell b.grid r c b.current_turn) p.1 p.2 = b.current_turn.opponent →
      (gflAt b.size (setCell b.grid r c b.current_turn) p.1 p.2).2 = [] →
      ∀ q, inGroup b.size (setCell b.grid r c b.current_turn)
          b.current_turn.opponent p q → q ∈ capturedPts (placeSt b r c) := by
    intro p hpnbr hpOn hpEn hpDead q hq
    obtain ⟨d, hdN, hpd⟩ := nbrs_exists_offset hpnbr
    subst hpd
    exact hinv.2.2 d hdN hpOn hpEn (hdeadOf _ hpOn hpEn hpDead) q hq
  have hiff : (b.place_stone r c).2 = some GoError.SuicideViolation ↔
      ((gflAt b.size (placeSt b r c).grid r c).2 = [] ∧
        (placeSt b r c).captured = []) := by
    rw [place_stone_checked hin hemp hko]
    by_cases h4 : (gflAt b.size (placeSt b r c).grid r c).2 = [] ∧
        (placeSt b r c).captured_any = false
    · rw [placeCore_suicide h4]
      have hcap : (placeSt b r c).captured = [] :=
        (capLoop_no_capture NEIGHBORS _ h4.2).2.1
      exact ⟨fun _ => ⟨h4.1, hcap⟩, fun _ => rfl⟩
    · rw [placeCore_success h4]
      constructor
      · intro hcontra
        exact absurd hcontra (by simp)
      · intro ⟨hgl, hcap⟩
        exfalso
        apply h4
        refine ⟨hgl, ?_⟩
        by_cases hany : (placeSt b r c).captured_any = true
        · exact absurd hcap (capLoop_any_captured_ne henemy NEIGHBORS _ rfl hany)
        · rw [Bool.not_eq_true] at hany
          exact hany
  refine ⟨?_, hiff⟩
  intro ⟨p, hpnbr, hpOn, hpEn, hpDead⟩
  have hpK : p ∈ capturedPts (placeSt b r c) :=
    hcapOf p hpnbr hpOn hpEn hpDead p (inGroup_refl hpOn hpEn)
  have hcapne : (placeSt b r c).captured ≠ [] := by
    intro hnil
    unfold capturedPts at hpK
    rw [hnil] at hpK
    exact List.not_mem_nil p hpK
  have hany : (placeSt b r c).captured_any = true := placeSt_any_of_captured_ne hcapne
  have hnot : ¬ ((gflAt b.size (placeSt b r c).grid r c).2 = [] ∧
      (placeSt b r c).captured_any = false) := by
    intro hcond
    rw [hany] at hcond
    exact Bool.noConfusion hcond.2
  have hplace : b.place_stone r c = placeCore b r c := place_stone_checked hin hemp hko
  constructor
  · rw [hplace, placeCore_success hnot]
  · intro p' hp'nbr hp'On hp'En hp'Dead q hq
    have hqK : q ∈ capturedPts (placeSt b r c) :=
      hcapOf p' hp'nbr hp'On hp'En hp'Dead q hq
    have hgrid : (b.place_stone r c).1.grid = (placeSt b r c).grid := by
      rw [hplace, placeCore_success hnot]
    rw [hgrid]
    exact hinv.1.gridK q hqK

/-- Concrete capture-precedence scenario: Black plays the corner `(0,0)`
of

  `. W`
  `. B`

capturing White `(0,1)` (which would otherwise make the corner a
self-atari). -/
def capExample : Board :=
  { size := 2, grid := [[Stone.EMPTY, Stone.WHITE], [Stone.EMPTY, Stone.BLACK]],
    current_turn := Stone.BLACK, move_history := [], captured_history := [],
    ko_point := none, ko_history := [], consecutive_passes := 0,
    consecutive_passes_history := [] }

theorem capture_precedence_witness :
    (capExample.place_stone 0 0).2 = none ∧
    gridAt (capExample.place_stone 0 0).1.grid 0 1 = Stone.EMPTY ∧
    (suicideExample.place_stone 0 0).2 = some GoError.SuicideViolation := by
  have h := capture_precedence capExample 0 0 (by decide) (by decide) (by decide)
    (by decide) (by decide)
  have hex : ∃ p ∈ nbrsOf ((0 : Int), (0 : Int)),
      isOnBoard capExample.size p.1 p.2 = true ∧
      gridAt (setCell capExample.grid 0 0 capExample.current_turn) p.1 p.2
        = capExample.current_turn.opponent ∧
      (gflAt capExample.size
        (setCell capExample.grid 0 0 capExample.current_turn) p.1 p.2).2 = [] :=
    ⟨(0, 1), by decide, by decide, by decide, by decide⟩
  have h2 := capture_precedence suicideExample 0 0 (by decide) (by decide) (by decide)
    (by decide) (by decide)
  refine ⟨(h.1 hex).1, ?_, h2.2.mpr ⟨by decide, by decide⟩⟩
  exact (h.1 hex).2 (0, 1) (by decide) (by decide) (by decide) (by decide) (0, 1)
    (inGroup_refl (by decide) (by decide))

/-- A classic Ko setup: White to play `(1,2)`, capturing the single Black
stone `(1,1)` with a single capturing stone, which sets the Ko point to
`(1,1)`. -/
def koSetupExample : Board :=
  { size := 4,
    grid := [[Stone.EMPTY, Stone.WHITE, Stone.BLACK, Stone.EMPTY],
             [Stone.WHITE, Stone.BLACK, Stone.EMPTY, Stone.BLACK],
             [Stone.EMPTY, Stone.WHITE, Stone.BLACK, Stone.EMPTY],
             [Stone.EMPTY, Stone.EMPTY, Stone.EMPTY, Stone.EMPTY]],
    current_turn := Stone.WHITE, move_history := [], captured_history := [],
    ko_point := none, ko_history := [], consecutive_passes := 0,
    consecutive_passes_history := [] }

/-- C1 counterexample — the claim as stated ("for every board state and
every placement ... that removes the last liberty of at least one adjacent
enemy group, place_stone succeeds") is false: after White's Ko capture at
`(1,2)`, Black's reply at `(1,1)` removes the last liberty of the adjacent
enemy group `{(1,2)}` (conjuncts 2–4), yet `place_stone` fails with
`KoViolation` (conjunct 5). -/
theorem capture_precedence_counterexample :
    ((koSetupExample.place_stone 1 2).2 = none) ∧
    (((1 : Int), (2 : Int)) ∈ nbrsOf (1, 1)) ∧
    (gridAt (setCell (koSetupExample.place_stone 1 2).1.grid 1 1 Stone.BLACK) 1 2
      = Stone.WHITE) ∧
    ((gflAt 4 (setCell (koSetupExample.place_stone 1 2).1.grid 1 1 Stone.BLACK) 1 2).2
      = []) ∧
    (((koSetupExample.place_stone 1 2).1.place_stone 1 1).2
      = some GoError.KoViolation) := by
  decide

/-! ## Further stability lemmas for the no-dead-group invariant (C5) -/

/-- Group membership depends only on which on-board cells hold the
colour. -/
theorem inGroup_pattern_iff {size : Nat} {g g' : List (List Stone)} {color : Stone}
    (h : ∀ x : Point, isOnBoard size x.1 x.2 = true →
      (gridAt g' x.1 x.2 = color ↔ gridAt g x.1 x.2 = color)) :
    ∀ s p, (inGroup size g' color s p ↔ inGroup size g color s p) := by
  have hstep : ∀ p q, colorStep size g' color p q ↔ colorStep size g color p q := by
    intro p q
    constructor
    · intro ⟨h1, h2, h3, h4, h5⟩
      exact ⟨h1, h2, (h p h1).mp h3, (h q h2).mp h4, h5⟩
    · intro ⟨h1, h2, h3, h4, h5⟩
      exact ⟨h1, h2, (h p h1).mpr h3, (h q h2).mpr h4, h5⟩
  intro s p
  constructor
  · intro ⟨⟨hsOn, hsCol⟩, hreach⟩
    refine ⟨⟨hsOn, (h s hsOn).mp hsCol⟩, ?_⟩
    induction hreach with
    | refl => exact Relation.ReflTransGen.refl
    | tail hab hbc ih => exact ih.tail ((hstep _ _).mp hbc)
  · intro ⟨⟨hsOn, hsCol⟩, hreach⟩
    refine ⟨⟨hsOn, (h s hsOn).mpr hsCol⟩, ?_⟩
    induction hreach with
    | refl => exact Relation.ReflTransGen.refl
    | tail hab hbc ih => exact ih.tail ((hstep _ _).mpr hbc)

/-- If the group of `p` (in `g'`) avoids the single changed cell `z`, the
group is the same in the grid `g` that agrees with `g'` everywhere else
(and whose cell `z` is not of the colour). -/
theorem inGroup_avoid_iff {size : Nat} {g g' : List (List Stone)} {color : Stone}
    {z p : Point}
    (hK2 : ∀ x : Point, isOnBoard size x.1 x.2 = true → x ≠ z →
      gridAt g' x.1 x.2 = gridAt g x.1 x.2)
    (hgz : gridAt g z.1 z.2 ≠ color)
    (hz : ¬ inGroup size g' color p z) :
    ∀ q, (inGroup size g' color p q ↔ inGroup size g color p q) := by
  have hpz : ∀ x, inGroup size g' color p x → x ≠ z := by
    intro x hx hxz
    exact hz (hxz ▸ hx)
  have hgz' : ∀ x, inGroup size g color p x → x ≠ z := by
    intro x hx hxz
    have := (inGroup_colored hx).2
    rw [hxz] at this
    exact hgz this
  intro q
  constructor
  · intro hq
    obtain ⟨⟨hsOn, hsCol⟩, hreach⟩ := hq
    have hpne : p ≠ z := hpz p ⟨⟨hsOn, hsCol⟩, Relation.ReflTransGen.refl⟩
    refine ⟨⟨hsOn, by rw [← hK2 p hsOn hpne]; exact hsCol⟩, ?_⟩
    have haux : ∀ x, Relation.ReflTransGen (colorStep size g' color) p x →
        Relation.ReflTransGen (colorStep size g color) p x := by
      intro x hx
      induction hx with
      | refl => exact Relation.ReflTransGen.refl
      | tail hab hbc ih =>
        rename_i bb cc
        have hbne : bb ≠ z := hpz bb ⟨⟨hsOn, hsCol⟩, hab⟩
        have hcne : cc ≠ z := hpz cc ⟨⟨hsOn, hsCol⟩, hab.tail hbc⟩
        exact ih.tail ((colorStep_clear_iff (K := fun x => x = z) hK2 hbne hcne).mp hbc)
    exact haux q hreach
  · intro hq
    obtain ⟨⟨hsOn, hsCol⟩, hreach⟩ := hq
    have hpne : p ≠ z := hgz' p ⟨⟨hsOn, hsCol⟩, Relation.ReflTransGen.refl⟩
    refine ⟨⟨hsOn, by rw [hK2 p hsOn hpne]; exact hsCol⟩, ?_⟩
    have haux : ∀ x, Relation.ReflTransGen (colorStep size g color) p x →
        Relation.ReflTransGen (colorStep size g' color) p x := by
      intro x hx
      induction hx with
      | refl => exact Relation.ReflTransGen.refl
      | tail hab hbc ih =>
        rename_i bb cc
        have hbne : bb ≠ z := hgz' bb ⟨⟨hsOn, hsCol⟩, hab⟩
        have hcne : cc ≠ z := hgz' cc ⟨⟨hsOn, hsCol⟩, hab.tail hbc⟩
        exact ih.tail ((colorStep_clear_iff (K := fun x => x = z) hK2 hbne hcne).mpr hbc)
    exact haux q hreach

/-- A stone that is neither empty nor a given non-empty colour is that
colour's opponent. -/
theorem Stone.eq_opponent_of_ne {s t : Stone} (hs : s ≠ Stone.EMPTY)
    (ht : t ≠ Stone.EMPTY) (hne : t ≠ s) : t = s.opponent := by
  cases s <;> cases t <;>
    first
    | rfl
    | exact absurd rfl hs
    | exact absurd rfl ht
    | exact absurd rfl hne

/-- After a successful `place_stone` on a board where every occupied
point's group had a liberty, the same holds on the new board: the placed
stone's group keeps a liberty (the suicide check passed, or a capture
opened one next to it); a friendly group not joined to the new stone and
an enemy group that survived the capture loop keep a pre-move liberty. -/
theorem place_preserves_nodead {b b' : Board} {r c : Int}
    (hwf : WFGrid b.size b.grid) (hturn : b.current_turn ≠ Stone.EMPTY)
    (hnd : ∀ p : Point, isOnBoard b.size p.1 p.2 = true →
      gridAt b.grid p.1 p.2 ≠ Stone.EMPTY →
      ∃ l, isLib b.size b.grid (gridAt b.grid p.1 p.2) p l)
    (h : b.place_stone r c = (b', none)) :
    ∀ p : Point, isOnBoard b'.size p.1 p.2 = true →
      gridAt b'.grid p.1 p.2 ≠ Stone.EMPTY →
      ∃ l, isLib b'.size b'.grid (gridAt b'.grid p.1 p.2) p l := by
  obtain ⟨h1, h2, h3, h4, hb'⟩ := place_stone_success_cases h
  have henemy : b.current_turn.opponent ≠ Stone.EMPTY := Stone.opponent_ne_empty hturn
  have hcl := @capLoop_inv b.size (setCell b.grid r c b.current_turn)
    b.current_turn.opponent r c henemy NEIGHBORS (fun d hd => hd)
    (CapSt.mk (setCell b.grid r c b.current_turn) ∅ [] false) (capInv_init b r c hwf)
  have hps : placeSt b r c = capLoop b.size b.current_turn.opponent r c NEIGHBORS
      (CapSt.mk (setCell b.grid r c b.current_turn) ∅ [] false) := rfl
  rw [← hps] at hcl
  have inv := hcl.1
  have hcomp := hcl.2.2
  have hrcK : (r, c) ∉ capturedPts (placeSt b r c) := by
    intro hK
    have hcol := (inv.K_colored (r, c) hK).2
    have hself : gridAt (setCell b.grid r c b.current_turn) r c = b.current_turn :=
      gridAt_setCell_self hwf h1
    exact Stone.opponent_ne_self hturn (hself.symm.trans hcol).symm
  have hgrc : gridAt (placeSt b r c).grid r c = b.current_turn := by
    have := inv.gridN (r, c) h1 hrcK
    exact this.trans (gridAt_setCell_self hwf h1)
  have hpat1 : ∀ x : Point, isOnBoard b.size x.1 x.2 = true →
      (gridAt (placeSt b r c).grid x.1 x.2 = b.current_turn ↔
        gridAt (setCell b.grid r c b.current_turn) x.1 x.2 = b.current_turn) := by
    intro x hx
    by_cases hxK : x ∈ capturedPts (placeSt b r c)
    · rw [inv.gridK x hxK, (inv.K_colored x hxK).2]
      constructor
      · intro hcontra
        exact absurd hcontra.symm hturn
      · intro hcontra
        exact absurd hcontra (Stone.opponent_ne_self hturn)
    · rw [inv.gridN x hx hxK]
  have hgr1 := inGroup_pattern_iff hpat1
  have hK2a : ∀ x : Point, isOnBoard b.size x.1 x.2 = true → x ≠ (r, c) →
      gridAt (setCell b.grid r c b.current_turn) x.1 x.2 = gridAt b.grid x.1 x.2 := by
    intro x hx hxe
    have hcoords := isOnBoard_iff.mp hx
    have hcr := isOnBoard_iff.mp h1
    exact gridAt_setCell_ne hcr.1 hcr.2.2.1 hcoords.1 hcoords.2.2.1
      (by rw [Prod.mk.eta]; exact hxe)
  have hpat2 : ∀ x : Point, isOnBoard b.size x.1 x.2 = true →
      (gridAt (setCell b.grid r c b.current_turn) x.1 x.2 = b.current_turn.opponent ↔
        gridAt b.grid x.1 x.2 = b.current_turn.opponent) := by
    intro x hx
    by_cases hxe : x = (r, c)
    · have e1 : x.1 = r := by rw [hxe]
      have e2 : x.2 = c := by rw [hxe]
      rw [e1, e2, gridAt_setCell_self hwf h1, h2]
      constructor
      · intro hco
        exact absurd hco.symm (Stone.opponent_ne_self hturn)
      · intro hco
        exact absurd hco.symm henemy
    · rw [hK2a x hx hxe]
  have hgr2 := inGroup_pattern_iff hpat2
  have hOwn : ∃ l, isLib b.size (placeSt b r c).grid b.current_turn (r, c) l := by
    by_cases hany : (placeSt b r c).captured_any = false
    · have hlibs : (gflAt b.size (placeSt b r c).grid r c).2 ≠ [] := by
        intro hnil
        exact h4 ⟨hnil, hany⟩
      obtain ⟨l, hl⟩ := List.exists_mem_of_ne_nil _ hlibs
      have hne : gridAt (placeSt b r c).grid r c ≠ Stone.EMPTY := by
        rw [hgrc]
        exact hturn
      have hchar := gflAt_char h1 hne
      have hmem := (hchar.2.1 l).mp hl
      rw [hgrc] at hmem
      exact ⟨l, hmem⟩
    · rw [Bool.not_eq_false] at hany
      rw [hps] at hany
      have hne0 := capLoop_any_captured_ne henemy NEIGHBORS
        (CapSt.mk (setCell b.grid r c b.current_turn) ∅ [] false) rfl hany
      rw [← hps] at hne0
      obtain ⟨t, ht⟩ := List.exists_mem_of_ne_nil _ hne0
      have hK0 : ((t.1, t.2.1) : Point) ∈ capturedPts (placeSt b r c) :=
        List.mem_map_of_mem _ ht
      obtain ⟨n, hn, hnin⟩ := inv.adj _ hK0
      have hnK : n ∈ capturedPts (placeSt b r c) :=
        inv.K_reach_closed _ n hK0 (inGroup_symm hnin)
      have hnOn : isOnBoard b.size n.1 n.2 = true := (inv.K_colored n hnK).1
      have hnE : gridAt (placeSt b r c).grid n.1 n.2 = Stone.EMPTY := inv.gridK n hnK
      exact ⟨n, hnOn, hnE, (r, c), inGroup_refl h1 hgrc, hn⟩
  intro p hpOn hpne
  have hsize' : b'.size = b.size := by rw [hb']
  have hgrid' : b'.grid = (placeSt b r c).grid := by rw [hb']
  rw [hsize'] at hpOn
  rw [hgrid'] at hpne
  rw [hsize', hgrid']
  have hpK : p ∉ capturedPts (placeSt b r c) := fun hK => hpne (inv.gridK p hK)
  have hp1 : gridAt (setCell b.grid r c b.current_turn) p.1 p.2
      = gridAt (placeSt b r c).grid p.1 p.2 := (inv.gridN p hpOn hpK).symm
  by_cases hcp : gridAt (placeSt b r c).grid p.1 p.2 = b.current_turn
  · rw [hcp]
    by_cases hconn : inGroup b.size (placeSt b r c).grid b.current_turn p (r, c)
    · obtain ⟨l, hl⟩ := hOwn
      exact ⟨l, (isLib_seed_eq hconn).mpr hl⟩
    · have hconn1 : ¬ inGroup b.size (setCell b.grid r c b.current_turn)
          b.current_turn p (r, c) :=
        fun hcontra => hconn ((hgr1 p (r, c)).mpr hcontra)
      have hprc : p ≠ (r, c) := by
        intro he
        refine hconn1 ?_
        rw [he]
        exact inGroup_refl h1 (gridAt_setCell_self hwf h1)
      have havoid := inGroup_avoid_iff hK2a
        (by
          show gridAt b.grid r c ≠ b.current_turn
          rw [h2]
          exact fun hco => hturn hco.symm)
        hconn1
      have hp0 : gridAt b.grid p.1 p.2 = b.current_turn := by
        rw [← hK2a p hpOn hprc, hp1]
        exact hcp
      obtain ⟨l0, hl0⟩ := hnd p hpOn (by rw [hp0]; exact hturn)
      rw [hp0] at hl0
      obtain ⟨hl0On, hl0E, q0, hq0, hq0nb⟩ := hl0
      have hq0g1 : inGroup b.size (setCell b.grid r c b.current_turn)
          b.current_turn p q0 := (havoid q0).mpr hq0
      have hl0ne : l0 ≠ (r, c) := by
        intro he
        refine hconn1 ?_
        have hq0on := (inGroup_colored hq0g1).1
        have hq0col := (inGroup_colored hq0g1).2
        have hstep : colorStep b.size (setCell b.grid r c b.current_turn)
            b.current_turn q0 (r, c) :=
          ⟨hq0on, h1, hq0col, gridAt_setCell_self hwf h1, by rw [← he]; exact hq0nb⟩
        exact ⟨hq0g1.1, hq0g1.2.tail hstep⟩
      have hl0E1 : gridAt (setCell b.grid r c b.current_turn) l0.1 l0.2
          = Stone.EMPTY := by
        rw [hK2a l0 hl0On hl0ne]
        exact hl0E
      have hl0K : l0 ∉ capturedPts (placeSt b r c) := by
        intro hK
        have hcol := (inv.K_colored l0 hK).2
        rw [hl0E1] at hcol
        exact henemy hcol.symm
      have hl0EF : gridAt (placeSt b r c).grid l0.1 l0.2 = Stone.EMPTY := by
        rw [inv.gridN l0 hl0On hl0K]
        exact hl0E1
      exact ⟨l0, hl0On, hl0EF, q0, (hgr1 p q0).mpr hq0g1, hq0nb⟩
  · have hcpe : gridAt (placeSt b r c).grid p.1 p.2 = b.current_turn.opponent :=
      Stone.eq_opponent_of_ne hturn hpne hcp
    rw [hcpe]
    have hp1e : gridAt (setCell b.grid r c b.current_turn) p.1 p.2
        = b.current_turn.opponent := by
      rw [hp1]
      exact hcpe
    have hlb3 := isLib_clear_iff (K := fun x : Point => x ∈ capturedPts (placeSt b r c))
      henemy inv.K_colored inv.gridK inv.gridN inv.closed hpK
    by_cases hlib1 : ∃ l, isLib b.size (setCell b.grid r c b.current_turn)
        b.current_turn.opponent p l
    · obtain ⟨l, hl⟩ := hlib1
      exact ⟨l, (hlb3 l).mpr hl⟩
    · exfalso
      have hprce : p ≠ (r, c) := by
        intro he
        have h6 : b.current_turn = b.current_turn.opponent := by
          rw [he] at hp1e
          exact (gridAt_setCell_self hwf h1).symm.trans hp1e
        exact Stone.opponent_ne_self hturn h6.symm
      have hp0e : gridAt b.grid p.1 p.2 = b.current_turn.opponent := by
        rw [← hK2a p hpOn hprce]
        exact hp1e
      obtain ⟨l0, hl0⟩ := hnd p hpOn (by rw [hp0e]; exact henemy)
      rw [hp0e] at hl0
      obtain ⟨hl0On, hl0E, q0, hq0, hq0nb⟩ := hl0
      have hq0g1 : inGroup b.size (setCell b.grid r c b.current_turn)
          b.current_turn.opponent p q0 := (hgr2 p q0).mpr hq0
      have hl0eq : l0 = (r, c) := by
        by_contra hl0ne
        refine hlib1 ⟨l0, hl0On, ?_, q0, hq0g1, hq0nb⟩
        rw [hK2a l0 hl0On hl0ne]
        exact hl0E
      subst hl0eq
      have hq0nbrc : q0 ∈ nbrsOf ((r, c) : Point) := nbrsOf_symm.mp hq0nb
      obtain ⟨d, hd, hq0d⟩ := nbrs_exists_offset hq0nbrc
      have hq0On := (inGroup_colored hq0g1).1
      have hq0Col := (inGroup_colored hq0g1).2
      have hq0dead : ∀ l, ¬ isLib b.size (setCell b.grid r c b.current_turn)
          b.current_turn.opponent q0 l := by
        intro l hl
        exact hlib1 ⟨l, (isLib_seed_eq hq0g1).mpr hl⟩
      rw [hq0d] at hq0On hq0Col hq0dead hq0g1
      refine hpK (hcomp d hd hq0On hq0Col hq0dead p ?_)
      exact inGroup_symm hq0g1

/-! ## Replayable boards and the core-field equivalence

`undo` restores the board exactly except for the pass counter (see the C2
analysis), so a board reached with `undo`s agrees with some board reached
without them on every field except `consecutive_passes` and the entries of
`consecutive_passes_history`.  The no-dead-group invariant only depends on
the grid, so it transfers across this equivalence. -/

/-- Board states reachable without ever calling `undo`. -/
inductive Replayable : Board → Prop where
  | new (size : Nat) : Replayable (Board.new size)
  | place {b b' : Board} {r c : Int} : Replayable b →
      b.place_stone r c = (b', none) → Replayable b'
  | pass {b : Board} : Replayable b → Replayable b.pass_move

/-- Agreement on every field the operations branch on: everything except
the pass counter and the entries of its history (whose length agrees).
The restored counter after `undo` is the only divergence. -/
structure EqCore (b b0 : Board) : Prop where
  size : b.size = b0.size
  grid : b.grid = b0.grid
  turn : b.current_turn = b0.current_turn
  mh : b.move_history = b0.move_history
  ch : b.captured_history = b0.captured_history
  ko : b.ko_point = b0.ko_point
  kh : b.ko_history = b0.ko_history
  ph : b.consecutive_passes_history.length = b0.consecutive_passes_history.length

theorem eqCore_refl (b : Board) : EqCore b b :=
  EqCore.mk rfl rfl rfl rfl rfl rfl rfl rfl

theorem eqCore_trans {a b c : Board} (h1 : EqCore a b) (h2 : EqCore b c) : EqCore a c :=
  EqCore.mk (h1.size.trans h2.size) (h1.grid.trans h2.grid) (h1.turn.trans h2.turn)
    (h1.mh.trans h2.mh) (h1.ch.trans h2.ch) (h1.ko.trans h2.ko) (h1.kh.trans h2.kh)
    (h1.ph.trans h2.ph)

/-- Structural invariant of boards reachable without `undo`: well-formed
grid, a proper colour to move, all four histories of equal length, the Ko
point cached at the head of the Ko history, and no liberty-less group. -/
structure RepInv (b : Board) : Prop where
  wf : WFGrid b.size b.grid
  turn : b.current_turn ≠ Stone.EMPTY
  sync_ch : b.captured_history.length = b.move_history.length
  sync_kh : b.ko_history.length = b.move_history.length
  sync_ph : b.consecutive_passes_history.length = b.move_history.length
  koh : b.ko_point = b.ko_history.headD none
  nodead : ∀ p : Point, isOnBoard b.size p.1 p.2 = true →
    gridAt b.grid p.1 p.2 ≠ Stone.EMPTY →
    ∃ l, isLib b.size b.grid (gridAt b.grid p.1 p.2) p l

theorem repInv_new (size : Nat) : RepInv (Board.new size) := by
  refine RepInv.mk WFGrid_new (fun hco => Stone.noConfusion hco) rfl rfl rfl rfl ?_
  intro p h1 h2
  exact absurd gridAt_new h2

theorem repInv_pass {b : Board} (h : RepInv b) : RepInv b.pass_move := by
  refine RepInv.mk h.wf (Stone.opponent_ne_empty h.turn) ?_ ?_ ?_ rfl h.nodead
  · show (([] : List (Int × Int × Stone)) :: b.captured_history).length
      = (none :: b.move_history).length
    rw [List.length_cons, List.length_cons, h.sync_ch]
  · show ((none : Option Point) :: b.ko_history).length = (none :: b.move_history).length
    rw [List.length_cons, List.length_cons, h.sync_kh]
  · show (b.consecutive_passes :: b.consecutive_passes_history).length
      = (none :: b.move_history).length
    rw [List.length_cons, List.length_cons, h.sync_ph]

theorem repInv_place {b b' : Board} {r c : Int} (hinv : RepInv b)
    (h : b.place_stone r c = (b', none)) : RepInv b' := by
  obtain ⟨h1, h2, h3, h4, hb'⟩ := place_stone_success_cases h
  have henemy : b.current_turn.opponent ≠ Stone.EMPTY := Stone.opponent_ne_empty hinv.turn
  have hcl := @capLoop_inv b.size (setCell b.grid r c b.current_turn)
    b.current_turn.opponent r c henemy NEIGHBORS (fun d hd => hd)
    (CapSt.mk (setCell b.grid r c b.current_turn) ∅ [] false) (capInv_init b r c hinv.wf)
  have hps : placeSt b r c = capLoop b.size b.current_turn.opponent r c NEIGHBORS
      (CapSt.mk (setCell b.grid r c b.current_turn) ∅ [] false) := rfl
  rw [← hps] at hcl
  subst hb'
  refine RepInv.mk hcl.1.wf (Stone.opponent_ne_empty hinv.turn) ?_ ?_ ?_ rfl
    (place_preserves_nodead hinv.wf hinv.turn hinv.nodead h)
  · show ((placeSt b r c).captured :: b.captured_history).length
      = (some (r, c) :: b.move_history).length
    rw [List.length_cons, List.length_cons, hinv.sync_ch]
  · show (placeKo b r c :: b.ko_history).length = (some (r, c) :: b.move_history).length
    rw [List.length_cons, List.length_cons, hinv.sync_kh]
  · show (b.consecutive_passes :: b.consecutive_passes_history).length
      = (some (r, c) :: b.move_history).length
    rw [List.length_cons, List.length_cons, hinv.sync_ph]

theorem replayable_repInv {b : Board} (h : Replayable b) : RepInv b := by
  induction h with
  | new size => exact repInv_new size
  | place hb hp ih => exact repInv_place ih hp
  | pass hb ih => exact repInv_pass ih
theorem board_eq_of_fields {x y : Board} (h1 : x.size = y.size) (h2 : x.grid = y.grid)
    (h3 : x.current_turn = y.current_turn) (h4 : x.move_history = y.move_history)
    (h5 : x.captured_history = y.captured_history) (h6 : x.ko_point = y.ko_point)
    (h7 : x.ko_history = y.ko_history) (h8 : x.consecutive_passes = y.consecutive_passes)
    (h9 : x.consecutive_passes_history = y.consecutive_passes_history) : x = y := by
  cases x
  cases y
  simp only [Board.mk.injEq]
  exact ⟨h1, h2, h3, h4, h5, h6, h7, h8, h9⟩

theorem undo_nil {b : Board} (h1 : b.move_history = []) :
    b.undo = (b, some GoError.EmptyHistory) := by
  unfold Board.undo
  rw [h1]

theorem undo_cons_place {b : Board} {q : Point} {mh : List (Option Point)}
    {caps : List (Int × Int × Stone)} {ch : List (List (Int × Int × Stone))}
    {k0 : Option Point} {kh : List (Option Point)} {p0 : Nat} {ph : List Nat}
    (h1 : b.move_history = some q :: mh) (h2 : b.captured_history = caps :: ch)
    (h3 : b.ko_history = k0 :: kh) (h4 : b.consecutive_passes_history = p0 :: ph) :
    b.undo =
      ({ b with
          grid := caps.foldl (fun g t => setCell g t.1 t.2.1 t.2.2)
            (setCell b.grid q.1 q.2 Stone.EMPTY),
          move_history := mh,
          captured_history := ch,
          ko_history := kh,
          consecutive_passes_history := ph,
          ko_point := kh.headD none,
          consecutive_passes := ph.headD 0,
          current_turn := b.current_turn.opponent }, none) := by
  obtain ⟨bs, bg, bt, bmh, bch, bk, bkh, bcp, bph⟩ := b
  replace h1 : bmh = some q :: mh := h1
  replace h2 : bch = caps :: ch := h2
  replace h3 : bkh = k0 :: kh := h3
  replace h4 : bph = p0 :: ph := h4
  subst h1 h2 h3 h4
  rfl

theorem undo_cons_pass {b : Board} {mh : List (Option Point)}
    {caps : List (Int × Int × Stone)} {ch : List (List (Int × Int × Stone))}
    {k0 : Option Point} {kh : List (Option Point)} {p0 : Nat} {ph : List Nat}
    (h1 : b.move_history = none :: mh) (h2 : b.captured_history = caps :: ch)
    (h3 : b.ko_history = k0 :: kh) (h4 : b.consecutive_passes_history = p0 :: ph) :
    b.undo =
      ({ b with
          grid := caps.foldl (fun g t => setCell g t.1 t.2.1 t.2.2) b.grid,
          move_history := mh,
          captured_history := ch,
          ko_history := kh,
          consecutive_passes_history := ph,
          ko_point := kh.headD none,
          consecutive_passes := ph.headD 0,
          current_turn := b.current_turn.opponent }, none) := by
  obtain ⟨bs, bg, bt, bmh, bch, bk, bkh, bcp, bph⟩ := b
  replace h1 : bmh = none :: mh := h1
  replace h2 : bch = caps :: ch := h2
  replace h3 : bkh = k0 :: kh := h3
  replace h4 : bph = p0 :: ph := h4
  subst h1 h2 h3 h4
  rfl

/-- `undo` after a successful `place_stone` restores every field except
the pass counter exactly (the counter is restored from the head of the
remaining history — the C2 divergence). -/
theorem undo_place_exact {b b' : Board} {r c : Int} (hinv : RepInv b)
    (h : b.place_stone r c = (b', none)) :
    b'.undo = ({ b with
      consecutive_passes := b.consecutive_passes_history.headD 0 }, none) := by
  obtain ⟨h1, h2, h3, h4, hb'⟩ := place_stone_success_cases h
  have henemy : b.current_turn.opponent ≠ Stone.EMPTY := Stone.opponent_ne_empty hinv.turn
  have hcl := @capLoop_inv b.size (setCell b.grid r c b.current_turn)
    b.current_turn.opponent r c henemy NEIGHBORS (fun d hd => hd)
    (CapSt.mk (setCell b.grid r c b.current_turn) ∅ [] false) (capInv_init b r c hinv.wf)
  have hps : placeSt b r c = capLoop b.size b.current_turn.opponent r c NEIGHBORS
      (CapSt.mk (setCell b.grid r c b.current_turn) ∅ [] false) := rfl
  rw [← hps] at hcl
  have inv := hcl.1
  have hrcK : ((r, c) : Point) ∉ capturedPts (placeSt b r c) := by
    intro hK
    have hcol := (inv.K_colored (r, c) hK).2
    have hself : gridAt (setCell b.grid r c b.current_turn) r c = b.current_turn :=
      gridAt_setCell_self hinv.wf h1
    exact Stone.opponent_ne_self hinv.turn (hself.symm.trans hcol).symm
  have e1 : b'.move_history = some (r, c) :: b.move_history := by rw [hb']
  have e2 : b'.captured_history = (placeSt b r c).captured :: b.captured_history := by
    rw [hb']
  have e3 : b'.ko_history = placeKo b r c :: b.ko_history := by rw [hb']
  have e4 : b'.consecutive_passes_history
      = b.consecutive_passes :: b.consecutive_passes_history := by rw [hb']
  have e5 : b'.current_turn = b.current_turn.opponent := by rw [hb']
  have e6 : b'.grid = (placeSt b r c).grid := by rw [hb']
  have e7 : b'.size = b.size := by rw [hb']
  rw [undo_cons_place e1 e2 e3 e4]
  refine congrArg (fun x => (x, (none : Option GoError)))
    (board_eq_of_fields ?_ ?_ ?_ rfl rfl ?_ rfl rfl rfl)
  · exact e7
  · show (placeSt b r c).captured.foldl (fun g t => setCell g t.1 t.2.1 t.2.2)
      (setCell b'.grid r c Stone.EMPTY) = b.grid
    rw [e6]
    refine restore_fold (WFGrid_setCell inv.wf) hinv.wf inv.nd
      (fun t ht => (inv.caps t ht).2.1) ?_ ?_
    · intro t ht
      have hc := inv.caps t ht
      have htne : ((t.1, t.2.1) : Point) ≠ ((r, c) : Point) := by
        intro he
        have ha : t.1 = r := (Prod.ext_iff.mp he).1
        have hb2 : t.2.1 = c := (Prod.ext_iff.mp he).2
        have h5 := hc.2.2
        rw [ha, hb2] at h5
        exact Stone.opponent_ne_self hinv.turn
          ((gridAt_setCell_self hinv.wf h1).symm.trans h5).symm
      have hco := isOnBoard_iff.mp hc.2.1
      have hcr := isOnBoard_iff.mp h1
      rw [← gridAt_setCell_ne hcr.1 hcr.2.2.1 hco.1 hco.2.2.1 htne]
      exact hc.2.2.trans hc.1.symm
    · intro r' c' hb2
      by_cases he : ((r', c') : Point) = ((r, c) : Point)
      · have ha : r' = r := (Prod.ext_iff.mp he).1
        have hb3 : c' = c := (Prod.ext_iff.mp he).2
        have hrcKm : ((r, c) : Point)
            ∉ (placeSt b r c).captured.map (fun t => (t.1, t.2.1)) := hrcK
        rw [ha, hb3, gridAt_setCell_self inv.wf h1, if_neg hrcKm]
        exact h2.symm
      · have hco := isOnBoard_iff.mp hb2
        have hcr := isOnBoard_iff.mp h1
        rw [gridAt_setCell_ne hcr.1 hcr.2.2.1 hco.1 hco.2.2.1 he]
        by_cases hK : ((r', c') : Point)
            ∈ (placeSt b r c).captured.map (fun t => (t.1, t.2.1))
        · rw [if_pos hK]
          exact inv.gridK (r', c') hK
        · rw [if_neg hK]
          have hN := inv.gridN (r', c') hb2 hK
          exact hN.trans (gridAt_setCell_ne hcr.1 hcr.2.2.1 hco.1 hco.2.2.1 he)
  · show b'.current_turn.opponent = b.current_turn
    rw [e5]
    exact Stone.opponent_opponent _
  · show b.ko_history.headD none = b.ko_point
    exact hinv.koh.symm

/-- `undo` after `pass_move` restores every field except the pass counter
exactly. -/
theorem undo_pass_exact {b : Board} (hko : b.ko_point = b.ko_history.headD none) :
    b.pass_move.undo = ({ b with
      consecutive_passes := b.consecutive_passes_history.headD 0 }, none) := by
  have e1 : b.pass_move.move_history = none :: b.move_history := rfl
  have e2 : b.pass_move.captured_history = [] :: b.captured_history := rfl
  have e3 : b.pass_move.ko_history = none :: b.ko_history := rfl
  have e4 : b.pass_move.consecutive_passes_history
      = b.consecutive_passes :: b.consecutive_passes_history := rfl
  rw [undo_cons_pass e1 e2 e3 e4]
  refine congrArg (fun x => (x, (none : Option GoError)))
    (board_eq_of_fields rfl rfl ?_ rfl rfl ?_ rfl rfl rfl)
  · show b.pass_move.current_turn.opponent = b.current_turn
    exact Stone.opponent_opponent _
  · show b.ko_history.headD none = b.ko_point
    exact hko.symm

/-- Undoing a replayable board with at least one move succeeds and gives,
up to the pass counter, the replayable board one move earlier. -/
theorem replayable_undo_core {b0 : Board} (hrep : Replayable b0)
    (hne : b0.move_history ≠ []) :
    ∃ b00, Replayable b00 ∧ (b0.undo).2 = none ∧ EqCore (b0.undo).1 b00 := by
  cases hrep with
  | new size => exact absurd rfl hne
  | place hb hp =>
    rename_i b1 r c
    have hinv := replayable_repInv hb
    have hu := undo_place_exact hinv hp
    refine ⟨b1, hb, ?_, ?_⟩
    · rw [hu]
    · rw [hu]
      exact EqCore.mk rfl rfl rfl rfl rfl rfl rfl rfl
  | pass hb =>
    rename_i b1
    have hinv := replayable_repInv hb
    have hu := undo_pass_exact hinv.koh
    refine ⟨b1, hb, ?_, ?_⟩
    · rw [hu]
    · rw [hu]
      exact EqCore.mk rfl rfl rfl rfl rfl rfl rfl rfl

theorem placeSt_congr {b b0 : Board} (e : EqCore b b0) (r c : Int) :
    placeSt b r c = placeSt b0 r c := by
  unfold placeSt
  rw [e.size, e.grid, e.turn]

theorem placeKo_congr {b b0 : Board} (e : EqCore b b0) (r c : Int) :
    placeKo b r c = placeKo b0 r c := by
  unfold placeKo
  rw [placeSt_congr e r c, e.size]

/-- `place_stone` reads only core fields, so core-equivalent boards give
the same error and core-equivalent results. -/
theorem place_stone_congr {b b0 : Board} (e : EqCore b b0) (r c : Int) :
    (b.place_stone r c).2 = (b0.place_stone r c).2 ∧
    EqCore (b.place_stone r c).1 (b0.place_stone r c).1 := by
  by_cases h1 : isOnBoard b0.size r c = true
  · by_cases h2 : gridAt b0.grid r c = Stone.EMPTY
    · by_cases h3 : b0.ko_point = some (r, c)
      · rw [place_stone_ko (by rw [e.size]; exact h1) (by rw [e.grid]; exact h2)
          (by rw [e.ko]; exact h3), place_stone_ko h1 h2 h3]
        exact ⟨rfl, e⟩
      · rw [place_stone_checked (by rw [e.size]; exact h1) (by rw [e.grid]; exact h2)
          (by rw [e.ko]; exact h3), place_stone_checked h1 h2 h3]
        by_cases h4 : (gflAt b0.size (placeSt b0 r c).grid r c).2 = [] ∧
            (placeSt b0 r c).captured_any = false
        · have h4b : (gflAt b.size (placeSt b r c).grid r c).2 = [] ∧
              (placeSt b r c).captured_any = false := by
            rw [e.size, placeSt_congr e r c]
            exact h4
          rw [placeCore_suicide h4b, placeCore_suicide h4]
          refine ⟨rfl, EqCore.mk e.size ?_ e.turn e.mh e.ch e.ko e.kh e.ph⟩
          show setCell (placeSt b r c).grid r c (gridAt b.grid r c)
              = setCell (placeSt b0 r c).grid r c (gridAt b0.grid r c)
          rw [placeSt_congr e r c, e.grid]
        · have h4b : ¬ ((gflAt b.size (placeSt b r c).grid r c).2 = [] ∧
              (placeSt b r c).captured_any = false) := by
            rw [e.size, placeSt_congr e r c]
            exact h4
          rw [placeCore_success h4b, placeCore_success h4]
          refine ⟨rfl, EqCore.mk e.size ?_ ?_ ?_ ?_ ?_ ?_ ?_⟩
          · show (placeSt b r c).grid = (placeSt b0 r c).grid
            rw [placeSt_congr e r c]
          · show b.current_turn.opponent = b0.current_turn.opponent
            rw [e.turn]
          · show some (r, c) :: b.move_history = some (r, c) :: b0.move_history
            rw [e.mh]
          · show (placeSt b r c).captured :: b.captured_history
              = (placeSt b0 r c).captured :: b0.captured_history
            rw [placeSt_congr e r c, e.ch]
          · show placeKo b r c = placeKo b0 r c
            exact placeKo_congr e r c
          · show placeKo b r c :: b.ko_history = placeKo b0 r c :: b0.ko_history
            rw [placeKo_congr e r c, e.kh]
          · show (b.consecutive_passes :: b.consecutive_passes_history).length
              = (b0.consecutive_passes :: b0.consecutive_passes_history).length
            rw [List.length_cons, List.length_cons, e.ph]
    · rw [place_stone_occupied (by rw [e.size]; exact h1) (by rw [e.grid]; exact h2),
        place_stone_occupied h1 h2]
      exact ⟨rfl, e⟩
  · rw [place_stone_oob (by rw [e.size]; exact h1), place_stone_oob h1]
    exact ⟨rfl, e⟩

theorem pass_move_congr {b b0 : Board} (e : EqCore b b0) :
    EqCore b.pass_move b0.pass_move := by
  refine EqCore.mk e.size e.grid ?_ ?_ ?_ rfl ?_ ?_
  · show b.current_turn.opponent = b0.current_turn.opponent
    rw [e.turn]
  · show none :: b.move_history = none :: b0.move_history
    rw [e.mh]
  · show ([] : List (Int × Int × Stone)) :: b.captured_history
      = [] :: b0.captured_history
    rw [e.ch]
  · show (none : Option Point) :: b.ko_history = none :: b0.ko_history
    rw [e.kh]
  · show (b.consecutive_passes :: b.consecutive_passes_history).length
      = (b0.consecutive_passes :: b0.consecutive_passes_history).length
    rw [List.length_cons, List.length_cons, e.ph]

/-- `undo` reads only core fields (it uses the pass-counter history only
through its nonemptiness), so core-equivalent boards give the same error
and core-equivalent results. -/
theorem undo_congr {b b0 : Board} (e : EqCore b b0)
    (hsck : b0.captured_history.length = b0.move_history.length)
    (hskk : b0.ko_history.length = b0.move_history.length)
    (hskp : b0.consecutive_passes_history.length = b0.move_history.length) :
    (b.undo).2 = (b0.undo).2 ∧ EqCore (b.undo).1 (b0.undo).1 := by
  cases hmh : b0.move_history with
  | nil =>
    have hmhb : b.move_history = [] := by rw [e.mh, hmh]
    rw [undo_nil hmhb, undo_nil hmh]
    exact ⟨rfl, e⟩
  | cons last mh0 =>
    rw [hmh] at hsck hskk hskp
    cases hch : b0.captured_history with
    | nil => rw [hch] at hsck; exact absurd hsck (by simp)
    | cons caps ch0 =>
    cases hkh : b0.ko_history with
    | nil => rw [hkh] at hskk; exact absurd hskk (by simp)
    | cons k0 kh0 =>
    cases hph : b0.consecutive_passes_history with
    | nil => rw [hph] at hskp; exact absurd hskp (by simp)
    | cons p0 ph0 =>
    cases hphb : b.consecutive_passes_history with
    | nil =>
      exfalso
      have hlen := e.ph
      rw [hphb, hph] at hlen
      exact absurd hlen (by simp)
    | cons p0b ph0b =>
    have hmhb : b.move_history = last :: mh0 := by rw [e.mh, hmh]
    have hchb : b.captured_history = caps :: ch0 := by rw [e.ch, hch]
    have hkhb : b.ko_history = k0 :: kh0 := by rw [e.kh, hkh]
    have hlen : ph0b.length = ph0.length := by
      have hl := e.ph
      rw [hphb, hph, List.length_cons, List.length_cons] at hl
      omega
    cases last with
    | some q =>
      rw [undo_cons_place hmhb hchb hkhb hphb, undo_cons_place hmh hch hkh hph]
      refine ⟨rfl, EqCore.mk e.size ?_ ?_ rfl rfl rfl rfl ?_⟩
      · show caps.foldl (fun g t => setCell g t.1 t.2.1 t.2.2)
            (setCell b.grid q.1 q.2 Stone.EMPTY)
          = caps.foldl (fun g t => setCell g t.1 t.2.1 t.2.2)
            (setCell b0.grid q.1 q.2 Stone.EMPTY)
        rw [e.grid]
      · show b.current_turn.opponent = b0.current_turn.opponent
        rw [e.turn]
      · exact hlen
    | none =>
      rw [undo_cons_pass hmhb hchb hkhb hphb, undo_cons_pass hmh hch hkh hph]
      refine ⟨rfl, EqCore.mk e.size ?_ ?_ rfl rfl rfl rfl ?_⟩
      · show caps.foldl (fun g t => setCell g t.1 t.2.1 t.2.2) b.grid
          = caps.foldl (fun g t => setCell g t.1 t.2.1 t.2.2) b0.grid
        rw [e.grid]
      · show b.current_turn.opponent = b0.current_turn.opponent
        rw [e.turn]
      · exact hlen

/-- Every reachable board agrees, on every field except the pass counter
and the entries of its history, with a board reachable without `undo`. -/
theorem reachable_core {b : Board} (h : Reachable b) :
    ∃ b0, Replayable b0 ∧ EqCore b b0 := by
  induction h with
  | new size => exact ⟨Board.new size, Replayable.new size, eqCore_refl _⟩
  | place hb hp ih =>
    rename_i b1 b2 r c
    obtain ⟨b0, hrep, e⟩ := ih
    have hc := place_stone_congr e r c
    have h2 : (b0.place_stone r c).2 = none := by
      rw [← hc.1, hp]
    refine ⟨(b0.place_stone r c).1,
      @Replayable.place b0 (b0.place_stone r c).1 r c hrep (Prod.ext_iff.mpr ⟨rfl, h2⟩), ?_⟩
    have e2 := hc.2
    rw [hp] at e2
    exact e2
  | pass hb ih =>
    obtain ⟨b0, hrep, e⟩ := ih
    exact ⟨b0.pass_move, Replayable.pass hrep, pass_move_congr e⟩
  | undo hb hu ih =>
    rename_i b1 b2
    obtain ⟨b0, hrep, e⟩ := ih
    have hinv := replayable_repInv hrep
    have hcong := undo_congr e hinv.sync_ch hinv.sync_kh hinv.sync_ph
    have hne : b0.move_history ≠ [] := by
      intro hnil
      have hnb : b1.move_history = [] := by rw [e.mh, hnil]
      rw [undo_nil hnb] at hu
      exact Option.noConfusion (congrArg Prod.snd hu)
    obtain ⟨b00, hrep00, hnone0, e00⟩ := replayable_undo_core hrep hne
    have e1 : EqCore (b1.undo).1 (b0.undo).1 := hcong.2
    rw [hu] at e1
    exact ⟨b00, hrep00, eqCore_trans e1 e00⟩

/-- C5 — No-dead-group invariant: in every board state reachable from a
fresh board by any sequence of successful `place_stone`, `pass_move` and
`undo` operations, every occupied point's group has at least one liberty
once the operation has returned: a liberty exists in the specification
sense (`isLib`), and `get_group_and_liberties` at the point succeeds with
a nonempty liberty list. -/
theorem no_dead_groups (b : Board) (h : Reachable b) :
    ∀ r c : Int, isOnBoard b.size r c = true → gridAt b.grid r c ≠ Stone.EMPTY →
      (∃ l, isLib b.size b.grid (gridAt b.grid r c) (r, c) l) ∧
      ∃ G L, b.get_group_and_liberties r c = some (G, L) ∧ L ≠ [] := by
  obtain ⟨b0, hrep, e⟩ := reachable_core h
  have hinv := replayable_repInv hrep
  have hwf : WFGrid b.size b.grid := by
    rw [e.size, e.grid]
    exact hinv.wf
  intro r c hon hne
  have hlib : ∃ l, isLib b.size b.grid (gridAt b.grid r c) (r, c) l := by
    have hon0 : isOnBoard b0.size r c = true := by rw [← e.size]; exact hon
    have hne0 : gridAt b0.grid r c ≠ Stone.EMPTY := by rw [← e.grid]; exact hne
    have hnd := hinv.nodead (r, c) hon0 hne0
    rw [← e.size, ← e.grid] at hnd
    exact hnd
  refine ⟨hlib, (gflAt b.size b.grid r c).1, (gflAt b.size b.grid r c).2,
    get_group_eq_gflAt hwf hon, ?_⟩
  obtain ⟨l, hl⟩ := hlib
  have hchar := gflAt_char hon hne
  intro hnil
  have hmem := (hchar.2.1 l).mpr hl
  rw [hnil] at hmem
  exact List.not_mem_nil l hmem

theorem no_dead_groups_witness :
    Reachable ((Board.new 2).place_stone 0 0).1 ∧
    isOnBoard ((Board.new 2).place_stone 0 0).1.size 0 0 = true ∧
    gridAt ((Board.new 2).place_stone 0 0).1.grid 0 0 ≠ Stone.EMPTY ∧
    ∃ G L, ((Board.new 2).place_stone 0 0).1.get_group_and_liberties 0 0
      = some (G, L) ∧ L ≠ [] := by
  have hr : Reachable ((Board.new 2).place_stone 0 0).1 :=
    @Reachable.place (Board.new 2) ((Board.new 2).place_stone 0 0).1 0 0
      (Reachable.new 2) (Prod.ext_iff.mpr ⟨rfl, by decide⟩)
  exact ⟨hr, by decide, by decide,
    (no_dead_groups ((Board.new 2).place_stone 0 0).1 hr 0 0 (by decide) (by decide)).2⟩

/-! ## Characterisation of the territory search (C7)

`_find_empty_region_reach` is a BFS over the contiguous empty region of
its start point; its `region` is exactly the empty group of the start and
its `reaches` exactly the bordering colours (`regionBorders`). -/

theorem ferNbs_cons {size : Nat} {g : List (List Stone)} {p : Point} {d : Int × Int}
    {rest : List (Int × Int)} {v : Finset Point} {a : List Point} {cs : Finset Stone} :
    ferNbs size g p (d :: rest) v a cs =
      if isOnBoard size (p.1 + d.1) (p.2 + d.2) then
        if gridAt g (p.1 + d.1) (p.2 + d.2) = Stone.EMPTY then
          if ((p.1 + d.1, p.2 + d.2) : Point) ∈ v then ferNbs size g p rest v a cs
          else ferNbs size g p rest (insert (p.1 + d.1, p.2 + d.2) v)
            (a ++ [(p.1 + d.1, p.2 + d.2)]) cs
        else ferNbs size g p rest v a
          (insert (gridAt g (p.1 + d.1) (p.2 + d.2)) cs)
      else ferNbs size g p rest v a cs := rfl

theorem ferNbs_v_mono {size : Nat} {g : List (List Stone)} {p : Point} :
    ∀ (ds : List (Int × Int)) (v : Finset Point) (a : List Point) (cs : Finset Stone),
    ∀ q ∈ v, q ∈ (ferNbs size g p ds v a cs).1 := by
  intro ds
  induction ds with
  | nil => intro v a cs q hq; exact hq
  | cons d rest ih =>
    intro v a cs q hq
    rw [ferNbs_cons]
    by_cases h1 : isOnBoard size (p.1 + d.1) (p.2 + d.2) = true
    · rw [if_pos h1]
      by_cases h2 : gridAt g (p.1 + d.1) (p.2 + d.2) = Stone.EMPTY
      · rw [if_pos h2]
        by_cases h3 : ((p.1 + d.1, p.2 + d.2) : Point) ∈ v
        · rw [if_pos h3]; exact ih v a cs q hq
        · rw [if_neg h3]
          exact ih _ _ cs q (Finset.mem_insert_of_mem hq)
      · rw [if_neg h2]; exact ih v a _ q hq
    · rw [if_neg h1]; exact ih v a cs q hq

theorem ferNbs_c_mono {size : Nat} {g : List (List Stone)} {p : Point} :
    ∀ (ds : List (Int × Int)) (v : Finset Point) (a : List Point) (cs : Finset Stone),
    ∀ st ∈ cs, st ∈ (ferNbs size g p ds v a cs).2.2 := by
  intro ds
  induction ds with
  | nil => intro v a cs st hst; exact hst
  | cons d rest ih =>
    intro v a cs st hst
    rw [ferNbs_cons]
    by_cases h1 : isOnBoard size (p.1 + d.1) (p.2 + d.2) = true
    · rw [if_pos h1]
      by_cases h2 : gridAt g (p.1 + d.1) (p.2 + d.2) = Stone.EMPTY
      · rw [if_pos h2]
        by_cases h3 : ((p.1 + d.1, p.2 + d.2) : Point) ∈ v
        · rw [if_pos h3]; exact ih v a cs st hst
        · rw [if_neg h3]; exact ih _ _ cs st hst
      · rw [if_neg h2]
        exact ih v a _ st (Finset.mem_insert_of_mem hst)
    · rw [if_neg h1]; exact ih v a cs st hst

theorem ferNbs_news {size : Nat} {g : List (List Stone)} {p : Point} :
    ∀ (ds : List (Int × Int)) (v : Finset Point) (a : List Point) (cs : Finset Stone),
    (∀ d ∈ ds, d ∈ NEIGHBORS) →
    ∃ news : List Point,
      (ferNbs size g p ds v a cs).2.1 = a ++ news ∧
      news.Nodup ∧
      (∀ q ∈ news, q ∉ v) ∧
      (∀ q ∈ news, q ∈ (ferNbs size g p ds v a cs).1) ∧
      (∀ q ∈ news, isOnBoard size q.1 q.2 = true ∧ gridAt g q.1 q.2 = Stone.EMPTY ∧
        q ∈ nbrsOf p) ∧
      (∀ q ∈ (ferNbs size g p ds v a cs).1, q ∈ v ∨ q ∈ news) := by
  intro ds
  induction ds with
  | nil =>
    intro v a cs hds
    exact ⟨[], (List.append_nil a).symm, List.nodup_nil,
      fun q hq => absurd hq (List.not_mem_nil q),
      fun q hq => absurd hq (List.not_mem_nil q),
      fun q hq => absurd hq (List.not_mem_nil q),
      fun q hq => Or.inl hq⟩
  | cons d rest ih =>
    intro v a cs hds
    have hdsr : ∀ e ∈ rest, e ∈ NEIGHBORS := fun e he => hds e (List.mem_cons_of_mem d he)
    rw [ferNbs_cons]
    by_cases h1 : isOnBoard size (p.1 + d.1) (p.2 + d.2) = true
    · rw [if_pos h1]
      by_cases h2 : gridAt g (p.1 + d.1) (p.2 + d.2) = Stone.EMPTY
      · rw [if_pos h2]
        by_cases h3 : ((p.1 + d.1, p.2 + d.2) : Point) ∈ v
        · rw [if_pos h3]
          exact ih v a cs hdsr
        · rw [if_neg h3]
          obtain ⟨news, he, hnd, hout, hin, hprops, hpart⟩ :=
            ih (insert (p.1 + d.1, p.2 + d.2) v) (a ++ [(p.1 + d.1, p.2 + d.2)]) cs hdsr
          refine ⟨(p.1 + d.1, p.2 + d.2) :: news, ?_, ?_, ?_, ?_, ?_, ?_⟩
          · rw [he, List.append_assoc]
            rfl
          · rw [List.nodup_cons]
            refine ⟨fun hmem => ?_, hnd⟩
            exact hout _ hmem (Finset.mem_insert_self _ _)
          · intro q hq
            rcases List.mem_cons.mp hq with hq | hq
            · rw [hq]
              exact h3
            · intro hqv
              exact hout q hq (Finset.mem_insert_of_mem hqv)
          · intro q hq
            rcases List.mem_cons.mp hq with hq | hq
            · rw [hq]
              exact ferNbs_v_mono rest _ _ cs _ (Finset.mem_insert_self _ _)
            · exact hin q hq
          · intro q hq
            rcases List.mem_cons.mp hq with hq | hq
            · subst hq
              exact ⟨h1, h2, nbrs_offset_mem (hds d (List.mem_cons_self d rest))⟩
            · exact hprops q hq
          · intro q hq
            rcases hpart q hq with hq2 | hq2
            · rcases Finset.mem_insert.mp hq2 with hq3 | hq3
              · exact Or.inr (by rw [hq3]; exact List.mem_cons_self _ _)
              · exact Or.inl hq3
            · exact Or.inr (List.mem_cons_of_mem _ hq2)
      · rw [if_neg h2]
        exact ih v a _ hdsr
    · rw [if_neg h1]
      exact ih v a cs hdsr

theorem ferNbs_c_sound {size : Nat} {g : List (List Stone)} {p : Point} :
    ∀ (ds : List (Int × Int)) (v : Finset Point) (a : List Point) (cs : Finset Stone),
    (∀ d ∈ ds, d ∈ NEIGHBORS) →
    ∀ st ∈ (ferNbs size g p ds v a cs).2.2, st ∈ cs ∨
      ∃ z ∈ nbrsOf p, isOnBoard size z.1 z.2 = true ∧ gridAt g z.1 z.2 = st ∧
        st ≠ Stone.EMPTY := by
  intro ds
  induction ds with
  | nil =>
    intro v a cs hds st hst
    exact Or.inl hst
  | cons d rest ih =>
    intro v a cs hds st hst
    have hdsr : ∀ e ∈ rest, e ∈ NEIGHBORS := fun e he => hds e (List.mem_cons_of_mem d he)
    rw [ferNbs_cons] at hst
    by_cases h1 : isOnBoard size (p.1 + d.1) (p.2 + d.2) = true
    · rw [if_pos h1] at hst
      by_cases h2 : gridAt g (p.1 + d.1) (p.2 + d.2) = Stone.EMPTY
      · rw [if_pos h2] at hst
        by_cases h3 : ((p.1 + d.1, p.2 + d.2) : Point) ∈ v
        · rw [if_pos h3] at hst
          exact ih v a cs hdsr st hst
        · rw [if_neg h3] at hst
          exact ih _ _ cs hdsr st hst
      · rw [if_neg h2] at hst
        rcases ih v a _ hdsr st hst with hst2 | hst2
        · rcases Finset.mem_insert.mp hst2 with hst3 | hst3
          · refine Or.inr ⟨(p.1 + d.1, p.2 + d.2),
              nbrs_offset_mem (hds d (List.mem_cons_self d rest)), h1, hst3.symm, ?_⟩
            rw [hst3]
            exact h2
          · exact Or.inl hst3
        · exact Or.inr hst2
    · rw [if_neg h1] at hst
      exact ih v a cs hdsr st hst

theorem ferNbs_comp {size : Nat} {g : List (List Stone)} {p : Point} :
    ∀ (ds : List (Int × Int)) (v : Finset Point) (a : List Point) (cs : Finset Stone),
    ∀ d ∈ ds, isOnBoard size (p.1 + d.1) (p.2 + d.2) = true →
    (gridAt g (p.1 + d.1) (p.2 + d.2) = Stone.EMPTY →
      ((p.1 + d.1, p.2 + d.2) : Point) ∈ (ferNbs size g p ds v a cs).1) ∧
    (gridAt g (p.1 + d.1) (p.2 + d.2) ≠ Stone.EMPTY →
      gridAt g (p.1 + d.1) (p.2 + d.2) ∈ (ferNbs size g p ds v a cs).2.2) := by
  intro ds
  induction ds with
  | nil =>
    intro v a cs d hd
    exact absurd hd (List.not_mem_nil d)
  | cons e rest ih =>
    intro v a cs d hd hon
    rw [ferNbs_cons]
    rcases List.mem_cons.mp hd with hde | hde
    · subst hde
      rw [if_pos hon]
      by_cases h2 : gridAt g (p.1 + d.1) (p.2 + d.2) = Stone.EMPTY
      · rw [if_pos h2]
        constructor
        · intro _
          by_cases h3 : ((p.1 + d.1, p.2 + d.2) : Point) ∈ v
          · rw [if_pos h3]
            exact ferNbs_v_mono rest v a cs _ h3
          · rw [if_neg h3]
            exact ferNbs_v_mono rest _ _ cs _ (Finset.mem_insert_self _ _)
        · intro hco
          exact absurd h2 hco
      · rw [if_neg h2]
        constructor
        · intro hco
          exact absurd hco h2
        · intro _
          exact ferNbs_c_mono rest v a _ _ (Finset.mem_insert_self _ _)
    · by_cases h1 : isOnBoard size (p.1 + e.1) (p.2 + e.2) = true
      · rw [if_pos h1]
        by_cases h2 : gridAt g (p.1 + e.1) (p.2 + e.2) = Stone.EMPTY
        · rw [if_pos h2]
          by_cases h3 : ((p.1 + e.1, p.2 + e.2) : Point) ∈ v
          · rw [if_pos h3]
            exact ih v a cs d hde hon
          · rw [if_neg h3]
            exact ih _ _ cs d hde hon
        · rw [if_neg h2]
          exact ih v a _ d hde hon
      · rw [if_neg h1]
        exact ih v a cs d hde hon

theorem ferNbs_measure {size : Nat} {g : List (List Stone)} {p : Point} :
    ∀ (ds : List (Int × Int)) (v : Finset Point) (a : List Point) (cs : Finset Stone),
    5 * ((boardPoints size) \ (ferNbs size g p ds v a cs).1).card
        + (ferNbs size g p ds v a cs).2.1.length
      ≤ 5 * ((boardPoints size) \ v).card + a.length := by
  intro ds
  induction ds with
  | nil =>
    intro v a cs
    exact Nat.le_refl _
  | cons d rest ih =>
    intro v a cs
    rw [ferNbs_cons]
    by_cases h1 : isOnBoard size (p.1 + d.1) (p.2 + d.2) = true
    · rw [if_pos h1]
      by_cases h2 : gridAt g (p.1 + d.1) (p.2 + d.2) = Stone.EMPTY
      · rw [if_pos h2]
        by_cases h3 : ((p.1 + d.1, p.2 + d.2) : Point) ∈ v
        · rw [if_pos h3]
          exact ih v a cs
        · rw [if_neg h3]
          have hs := sdiff_card_insert h1 h3
          have hih := ih (insert (p.1 + d.1, p.2 + d.2) v) (a ++ [(p.1 + d.1, p.2 + d.2)]) cs
          rw [List.length_append, List.length_singleton] at hih
          omega
      · rw [if_neg h2]
        exact ih v a _
    · rw [if_neg h1]
      exact ih v a cs

/-- Invariant of the BFS of `_find_empty_region_reach` from seed `s`:
`visited` is the set of points ever enqueued (all in the empty group of
`s`, including `s`), partitioned into the dequeued `region` and the
pending `queue`; every neighbour of a dequeued point has been seen, and
`colors` is sound and complete for the dequeued points. -/
structure FInv (size : Nat) (g : List (List Stone)) (s : Point) (queue : List Point)
    (visited : Finset Point) (region : List Point) (colors : Finset Stone) : Prop where
  vIn : ∀ p ∈ visited, inGroup size g Stone.EMPTY s p
  sv : s ∈ visited
  qv : ∀ p ∈ queue, p ∈ visited
  rv : ∀ p ∈ region, p ∈ visited
  vrq : ∀ p ∈ visited, p ∈ region ∨ p ∈ queue
  rN : region.Nodup
  qN : queue.Nodup
  disj : ∀ p ∈ region, p ∉ queue
  rClosed : ∀ p ∈ region, ∀ q : Point, colorStep size g Stone.EMPTY p q → q ∈ visited
  cSound : ∀ st ∈ colors, st ∈ regionBorders size g s
  cComp : ∀ p ∈ region, ∀ z ∈ nbrsOf p, isOnBoard size z.1 z.2 = true →
    gridAt g z.1 z.2 ≠ Stone.EMPTY → gridAt g z.1 z.2 ∈ colors

/-- When the queue is empty the region is exactly the empty group of the
seed and the colours are exactly the bordering colours. -/
theorem fer_final {size : Nat} {g : List (List Stone)} {s : Point}
    {visited : Finset Point} {region : List Point} {colors : Finset Stone}
    (inv : FInv size g s [] visited region colors) :
    (∀ p, p ∈ region ↔ inGroup size g Stone.EMPTY s p) ∧ region.Nodup ∧
    (∀ st, st ∈ colors ↔ st ∈ regionBorders size g s) := by
  have hvr : ∀ p ∈ visited, p ∈ region := by
    intro p hp
    rcases inv.vrq p hp with h | h
    · exact h
    · exact absurd h (List.not_mem_nil p)
  have hclass : ∀ p, inGroup size g Stone.EMPTY s p → p ∈ region := by
    intro p hp
    obtain ⟨hs, hreach⟩ := hp
    have haux : ∀ q, Relation.ReflTransGen (colorStep size g Stone.EMPTY) s q →
        q ∈ region := by
      intro q hq
      induction hq with
      | refl => exact hvr s inv.sv
      | tail hab hbc ih =>
        exact hvr _ (inv.rClosed _ ih _ hbc)
    exact haux p hreach
  refine ⟨?_, inv.rN, ?_⟩
  · intro p
    exact ⟨fun hp => inv.vIn p (inv.rv p hp), fun hp => hclass p hp⟩
  · intro st
    refine ⟨fun hst => inv.cSound st hst, ?_⟩
    intro hst
    obtain ⟨hstE, q, z, hq, hznb, hzon, hzst⟩ := hst
    have hqr : q ∈ region := hclass q hq
    have := inv.cComp q hqr z hznb hzon (by rw [hzst]; exact hstE)
    rw [hzst] at this
    exact this


theorem ferLoop_cons {size : Nat} {g : List (List Stone)} {fuel : Nat} {p : Point}
    {rest : List Point} {visited : Finset Point} {region : List Point}
    {colors : Finset Stone} :
    ferLoop size g (fuel + 1) (p :: rest) visited region colors =
      ferLoop size g fuel (rest ++ (ferNbs size g p NEIGHBORS visited [] colors).2.1)
        (ferNbs size g p NEIGHBORS visited [] colors).1 (p :: region)
        (ferNbs size g p NEIGHBORS visited [] colors).2.2 := rfl

/-- The BFS loop preserves `FInv`; with enough fuel for the measure it
drains the queue, and the final region and colours are the group of the
seed and its borders. -/
theorem ferLoop_char {size : Nat} {g : List (List Stone)} {s : Point} :
    ∀ (fuel : Nat) (queue : List Point) (visited : Finset Point)
      (region : List Point) (colors : Finset Stone),
      5 * ((boardPoints size) \ visited).card + queue.length ≤ fuel →
      FInv size g s queue visited region colors →
      (∀ p, p ∈ (ferLoop size g fuel queue visited region colors).1 ↔
        inGroup size g Stone.EMPTY s p) ∧
      (ferLoop size g fuel queue visited region colors).1.Nodup ∧
      (∀ st, st ∈ (ferLoop size g fuel queue visited region colors).2 ↔
        st ∈ regionBorders size g s) := by
  intro fuel
  induction fuel with
  | zero =>
    intro queue visited region colors hm inv
    cases queue with
    | nil => exact fer_final inv
    | cons p rest =>
      rw [List.length_cons] at hm
      omega
  | succ fuel ih =>
    intro queue visited region colors hm inv
    cases queue with
    | nil => exact fer_final inv
    | cons p rest =>
      rw [ferLoop_cons]
      obtain ⟨news, hEq, hNd, hOut, hIn, hProps, hPart⟩ :=
        @ferNbs_news size g p NEIGHBORS visited [] colors (fun d hd => hd)
      rw [List.nil_append] at hEq
      have hCsound := @ferNbs_c_sound size g p NEIGHBORS visited [] colors (fun d hd => hd)
      have hCmono := @ferNbs_c_mono size g p NEIGHBORS visited [] colors
      have hVmono := @ferNbs_v_mono size g p NEIGHBORS visited [] colors
      have hComp := @ferNbs_comp size g p NEIGHBORS visited [] colors
      have hMeas := @ferNbs_measure size g p NEIGHBORS visited [] colors
      have hpv : p ∈ visited := inv.qv p (List.mem_cons_self p rest)
      have hpg : inGroup size g Stone.EMPTY s p := inv.vIn p hpv
      have hpreg : p ∉ region := fun hc => inv.disj p hc (List.mem_cons_self p rest)
      rw [hEq]
      refine ih (rest ++ news) _ (p :: region) _ ?_ ?_
      · rw [hEq] at hMeas
        rw [List.length_append]
        rw [List.length_cons] at hm
        simp only [List.length_nil] at hMeas
        omega
      · refine FInv.mk ?_ (hVmono s inv.sv) ?_ ?_ ?_ ?_ ?_ ?_ ?_ ?_ ?_
        · intro q hq
          rcases hPart q hq with hq2 | hq2
          · exact inv.vIn q hq2
          · obtain ⟨hq1, hq3, hq4⟩ := hProps q hq2
            exact inGroup_step hpg hq1 hq3 hq4
        · intro q hq
          rcases List.mem_append.mp hq with hq2 | hq2
          · exact hVmono q (inv.qv q (List.mem_cons_of_mem p hq2))
          · exact hIn q hq2
        · intro q hq
          rcases List.mem_cons.mp hq with hq2 | hq2
          · rw [hq2]
            exact hVmono p hpv
          · exact hVmono q (inv.rv q hq2)
        · intro q hq
          rcases hPart q hq with hq2 | hq2
          · rcases inv.vrq q hq2 with hq3 | hq3
            · exact Or.inl (List.mem_cons_of_mem p hq3)
            · rcases List.mem_cons.mp hq3 with hq4 | hq4
              · exact Or.inl (by rw [hq4]; exact List.mem_cons_self p region)
              · exact Or.inr (List.mem_append.mpr (Or.inl hq4))
          · exact Or.inr (List.mem_append.mpr (Or.inr hq2))
        · exact List.nodup_cons.mpr ⟨hpreg, inv.rN⟩
        · refine List.Nodup.append (List.nodup_cons.mp inv.qN).2 hNd ?_
          intro q hq1 hq2
          exact hOut q hq2 (inv.qv q (List.mem_cons_of_mem p hq1))
        · intro q hq
          rcases List.mem_cons.mp hq with hq2 | hq2
          · rw [hq2]
            intro hmem
            rcases List.mem_append.mp hmem with hq3 | hq3
            · exact (List.nodup_cons.mp inv.qN).1 hq3
            · exact hOut p hq3 hpv
          · intro hmem
            rcases List.mem_append.mp hmem with hq3 | hq3
            · exact inv.disj q hq2 (List.mem_cons_of_mem p hq3)
            · exact hOut q hq3 (inv.rv q hq2)
        · intro x hx q hstep
          rcases List.mem_cons.mp hx with hx2 | hx2
          · subst hx2
            obtain ⟨d, hd, hqd⟩ := nbrs_exists_offset hstep.2.2.2.2
            have hqon := hstep.2.1
            have hqemp := hstep.2.2.2.1
            rw [hqd] at hqon hqemp
            rw [hqd]
            exact (hComp d hd hqon).1 hqemp
          · exact hVmono q (inv.rClosed x hx2 q hstep)
        · intro st hst
          rcases hCsound st hst with hst2 | hst2
          · exact inv.cSound st hst2
          · obtain ⟨z, hz1, hz2, hz3, hz4⟩ := hst2
            exact ⟨hz4, p, z, hpg, hz1, hz2, hz3⟩
        · intro x hx z hz hzon hzne
          rcases List.mem_cons.mp hx with hx2 | hx2
          · subst hx2
            obtain ⟨d, hd, hzd⟩ := nbrs_exists_offset hz
            rw [hzd] at hzon hzne ⊢
            exact (hComp d hd hzon).2 hzne
          · exact hCmono _ (inv.cComp x hx2 z hz hzon hzne)

/-- `_find_empty_region_reach` from an on-board empty start returns
exactly the contiguous empty region of the start (without duplicates) and
exactly the set of colours bordering it. -/
theorem find_empty_region_reach_spec {b : Board} {sr sc : Int}
    (hon : isOnBoard b.size sr sc = true) (hemp : gridAt b.grid sr sc = Stone.EMPTY) :
    (∀ p, p ∈ (b.find_empty_region_reach sr sc).1 ↔
      inGroup b.size b.grid Stone.EMPTY (sr, sc) p) ∧
    (b.find_empty_region_reach sr sc).1.Nodup ∧
    (∀ st, st ∈ (b.find_empty_region_reach sr sc).2 ↔
      st ∈ regionBorders b.size b.grid (sr, sc)) := by
  unfold Board.find_empty_region_reach
  rw [if_neg (show ¬ gridAt b.grid sr sc ≠ Stone.EMPTY from fun hco => hco hemp)]
  refine ferLoop_char (gflFuel b.size) [(sr, sc)] {(sr, sc)} [] ∅ ?_ ?_
  · have h1 : ((boardPoints b.size) \ {((sr, sc) : Point)}).card
        ≤ (boardPoints b.size).card := Finset.card_le_card Finset.sdiff_subset
    rw [boardPoints_card] at h1
    show 5 * ((boardPoints b.size) \ {((sr, sc) : Point)}).card + 1 ≤ 5 * b.size * b.size + 1
    have h2 : 5 * b.size * b.size = 5 * (b.size * b.size) := by ring
    omega
  · refine FInv.mk ?_ (Finset.mem_singleton_self _) ?_ ?_ ?_ List.nodup_nil
      (List.nodup_cons.mpr ⟨List.not_mem_nil _, List.nodup_nil⟩) ?_ ?_ ?_ ?_
    · intro q hq
      rw [Finset.mem_singleton] at hq
      rw [hq]
      exact inGroup_refl hon hemp
    · intro q hq
      rcases List.mem_cons.mp hq with hq2 | hq2
      · rw [hq2]
        exact Finset.mem_singleton_self _
      · exact absurd hq2 (List.not_mem_nil q)
    · intro q hq
      exact absurd hq (List.not_mem_nil q)
    · intro q hq
      exact Or.inr (by rw [Finset.mem_singleton] at hq; rw [hq]; exact List.mem_cons_self _ _)
    · intro q hq
      exact absurd hq (List.not_mem_nil q)
    · intro q hq
      exact absurd hq (List.not_mem_nil q)
    · intro st hst
      exact absurd hst (Finset.not_mem_empty st)
    · intro q hq
      exact absurd hq (List.not_mem_nil q)

/-- Two seeds of the same empty region have the same bordering colours. -/
theorem regionBorders_seed_eq {size : Nat} {g : List (List Stone)} {p q : Point}
    (h : inGroup size g Stone.EMPTY p q) :
    regionBorders size g p = regionBorders size g q := by
  ext st
  constructor
  · intro ⟨hne, x, z, hx, hz1, hz2, hz3⟩
    exact ⟨hne, x, z, inGroup_trans (inGroup_symm h) hx, hz1, hz2, hz3⟩
  · intro ⟨hne, x, z, hx, hz1, hz2, hz3⟩
    exact ⟨hne, x, z, inGroup_trans h hx, hz1, hz2, hz3⟩

theorem regionBorders_sub {size : Nat} {g : List (List Stone)} {p : Point} :
    ∀ st ∈ regionBorders size g p, st = Stone.BLACK ∨ st = Stone.WHITE := by
  intro st hst
  obtain ⟨hne, -⟩ := hst
  cases st with
  | EMPTY => exact absurd rfl hne
  | BLACK => exact Or.inl rfl
  | WHITE => exact Or.inr rfl

/-- The empty points whose region is bordered by `s` alone: the points
the specification assigns to `s` as territory. -/
def territory (b : Board) (s : Stone) : Set Point :=
  {p : Point | isOnBoard b.size p.1 p.2 = true ∧ gridAt b.grid p.1 p.2 = Stone.EMPTY ∧
    regionBorders b.size b.grid p = {s}}

theorem onboard_set_finite {size : Nat} {S : Set Point}
    (h : ∀ p ∈ S, isOnBoard size p.1 p.2 = true) : S.Finite := by
  refine Set.Finite.subset (boardPoints size).finite_toSet ?_
  intro p hp
  rw [Finset.mem_coe, mem_boardPoints_iff]
  exact h p hp

theorem scoreFold_cons {b : Board} {p : Point} {rest : List Point}
    {visited : Finset Point} {bt wt : Nat} :
    scoreFold b (p :: rest) visited bt wt =
      if gridAt b.grid p.1 p.2 = Stone.EMPTY ∧ p ∉ visited then
        (if Stone.BLACK ∈ (b.find_empty_region_reach p.1 p.2).2 ∧
            Stone.WHITE ∉ (b.find_empty_region_reach p.1 p.2).2 then
          scoreFold b rest (visited ∪ (b.find_empty_region_reach p.1 p.2).1.toFinset)
            (bt + (b.find_empty_region_reach p.1 p.2).1.length) wt
        else if Stone.WHITE ∈ (b.find_empty_region_reach p.1 p.2).2 ∧
            Stone.BLACK ∉ (b.find_empty_region_reach p.1 p.2).2 then
          scoreFold b rest (visited ∪ (b.find_empty_region_reach p.1 p.2).1.toFinset)
            bt (wt + (b.find_empty_region_reach p.1 p.2).1.length)
        else scoreFold b rest (visited ∪ (b.find_empty_region_reach p.1 p.2).1.toFinset)
          bt wt)
      else scoreFold b rest visited bt wt := rfl

/-- Removing a scored region (a nodup list of unvisited points of `T`)
from the unvisited part of `T` splits its cardinality. -/
theorem ncard_split {size : Nat} {T : Set Point} {visited : Finset Point} {R : List Point}
    (hT : ∀ p ∈ T, isOnBoard size p.1 p.2 = true)
    (hnd : R.Nodup)
    (hsub : ∀ q ∈ R, q ∈ T ∧ q ∉ visited) :
    ({p : Point | p ∈ T ∧ p ∉ visited}).ncard
      = R.length + ({p : Point | p ∈ T ∧ p ∉ visited ∪ R.toFinset}).ncard := by
  have hunion : {p : Point | p ∈ T ∧ p ∉ visited}
      = {p : Point | p ∈ R} ∪ {p : Point | p ∈ T ∧ p ∉ visited ∪ R.toFinset} := by
    ext q
    simp only [Set.mem_setOf_eq, Set.mem_union, Finset.mem_union, List.mem_toFinset]
    constructor
    · intro ⟨h1, h2⟩
      by_cases hq : q ∈ R
      · exact Or.inl hq
      · refine Or.inr ⟨h1, fun hco => ?_⟩
        rcases hco with hv | hr
        · exact h2 hv
        · exact hq hr
    · intro h
      rcases h with h | ⟨h1, h2⟩
      · exact hsub q h
      · exact ⟨h1, fun hco => h2 (Or.inl hco)⟩
  have hRset : {p : Point | p ∈ R} = (R.toFinset : Set Point) := by
    ext q
    simp only [Set.mem_setOf_eq, Finset.coe_sort_coe, Finset.mem_coe, List.mem_toFinset]
  have hdis : Disjoint {p : Point | p ∈ R}
      {p : Point | p ∈ T ∧ p ∉ visited ∪ R.toFinset} := by
    rw [Set.disjoint_left]
    intro q hq hq2
    exact hq2.2 (Finset.mem_union_right _ (List.mem_toFinset.mpr hq))
  have hf1 : ({p : Point | p ∈ R}).Finite := by
    rw [hRset]
    exact R.toFinset.finite_toSet
  have hf2 : ({p : Point | p ∈ T ∧ p ∉ visited ∪ R.toFinset}).Finite :=
    onboard_set_finite (fun q hq => hT q hq.1)
  rw [hunion, Set.ncard_union_eq hdis hf1 hf2, hRset, Set.ncard_coe_Finset,
    List.toFinset_card_of_nodup hnd]

/-- Marking points outside `T` as visited does not change the unvisited
part of `T`. -/
theorem ncard_untouched {T : Set Point} {visited : Finset Point} {R : List Point}
    (hdisj : ∀ q ∈ R, q ∉ T) :
    {p : Point | p ∈ T ∧ p ∉ visited ∪ R.toFinset}
      = {p : Point | p ∈ T ∧ p ∉ visited} := by
  ext q
  simp only [Set.mem_setOf_eq, Finset.mem_union, List.mem_toFinset]
  constructor
  · intro ⟨h1, h2⟩
    exact ⟨h1, fun hv => h2 (Or.inl hv)⟩
  · intro ⟨h1, h2⟩
    refine ⟨h1, fun hco => ?_⟩
    rcases hco with hv | hr
    · exact h2 hv
    · exact hdisj q hr h1

/-- The scoring loop: starting from any correctly accumulated state, it
adds to each colour's total exactly the number of not-yet-visited points
of that colour's territory. -/
theorem scoreFold_spec (b : Board) :
    ∀ (rest : List Point) (visited : Finset Point) (bt wt : Nat),
    (∀ p ∈ rest, isOnBoard b.size p.1 p.2 = true) →
    (∀ p : Point, p ∈ visited → isOnBoard b.size p.1 p.2 = true ∧
      gridAt b.grid p.1 p.2 = Stone.EMPTY) →
    (∀ p q : Point, p ∈ visited → inGroup b.size b.grid Stone.EMPTY p q → q ∈ visited) →
    (∀ p : Point, isOnBoard b.size p.1 p.2 = true → gridAt b.grid p.1 p.2 = Stone.EMPTY →
      p ∉ visited → p ∈ rest) →
    scoreFold b rest visited bt wt =
      (bt + ({p : Point | p ∈ territory b Stone.BLACK ∧ p ∉ visited}).ncard,
       wt + ({p : Point | p ∈ territory b Stone.WHITE ∧ p ∉ visited}).ncard) := by
  intro rest
  induction rest with
  | nil =>
    intro visited bt wt hon hva hvc hcover
    have hB : {p : Point | p ∈ territory b Stone.BLACK ∧ p ∉ visited} = ∅ := by
      ext q
      simp only [Set.mem_setOf_eq, Set.mem_empty_iff_false, iff_false]
      intro hq
      exact absurd (hcover q hq.1.1 hq.1.2.1 hq.2) (List.not_mem_nil q)
    have hW : {p : Point | p ∈ territory b Stone.WHITE ∧ p ∉ visited} = ∅ := by
      ext q
      simp only [Set.mem_setOf_eq, Set.mem_empty_iff_false, iff_false]
      intro hq
      exact absurd (hcover q hq.1.1 hq.1.2.1 hq.2) (List.not_mem_nil q)
    rw [hB, hW, Set.ncard_empty]
    show (bt, wt) = (bt + 0, wt + 0)
    rw [Nat.add_zero, Nat.add_zero]
  | cons p rest ih =>
    intro visited bt wt hon hva hvc hcover
    have honr : ∀ q ∈ rest, isOnBoard b.size q.1 q.2 = true :=
      fun q hq => hon q (List.mem_cons_of_mem p hq)
    by_cases hc : gridAt b.grid p.1 p.2 = Stone.EMPTY ∧ p ∉ visited
    · obtain ⟨hemp, hnv⟩ := hc
      have hpon := hon p (List.mem_cons_self p rest)
      have hspec := find_empty_region_reach_spec hpon hemp
      have hRmem := hspec.1
      have hRnd := hspec.2.1
      have hCmem := hspec.2.2
      have hpR : p ∈ (b.find_empty_region_reach p.1 p.2).1 :=
        (hRmem p).mpr (inGroup_refl hpon hemp)
      have hRclass : ∀ q ∈ (b.find_empty_region_reach p.1 p.2).1,
          inGroup b.size b.grid Stone.EMPTY (p.1, p.2) q :=
        fun q hq => (hRmem q).mp hq
      have hRon : ∀ q ∈ (b.find_empty_region_reach p.1 p.2).1,
          isOnBoard b.size q.1 q.2 = true ∧ gridAt b.grid q.1 q.2 = Stone.EMPTY :=
        fun q hq => inGroup_colored (hRclass q hq)
      have hRnv : ∀ q ∈ (b.find_empty_region_reach p.1 p.2).1, q ∉ visited := by
        intro q hq hqv
        exact hnv (hvc q (p.1, p.2) hqv (inGroup_symm (hRclass q hq)))
      have hva' : ∀ q : Point,
          q ∈ visited ∪ (b.find_empty_region_reach p.1 p.2).1.toFinset →
          isOnBoard b.size q.1 q.2 = true ∧ gridAt b.grid q.1 q.2 = Stone.EMPTY := by
        intro q hq
        rcases Finset.mem_union.mp hq with hq2 | hq2
        · exact hva q hq2
        · exact hRon q (List.mem_toFinset.mp hq2)
      have hvc' : ∀ q x : Point,
          q ∈ visited ∪ (b.find_empty_region_reach p.1 p.2).1.toFinset →
          inGroup b.size b.grid Stone.EMPTY q x →
          x ∈ visited ∪ (b.find_empty_region_reach p.1 p.2).1.toFinset := by
        intro q x hq hgx
        rcases Finset.mem_union.mp hq with hq2 | hq2
        · exact Finset.mem_union_left _ (hvc q x hq2 hgx)
        · refine Finset.mem_union_right _ (List.mem_toFinset.mpr ?_)
          exact (hRmem x).mpr (inGroup_trans (hRclass q (List.mem_toFinset.mp hq2)) hgx)
      have hcover' : ∀ q : Point, isOnBoard b.size q.1 q.2 = true →
          gridAt b.grid q.1 q.2 = Stone.EMPTY →
          q ∉ visited ∪ (b.find_empty_region_reach p.1 p.2).1.toFinset → q ∈ rest := by
        intro q h1 h2 h3
        have h4 : q ∉ visited := fun hv => h3 (Finset.mem_union_left _ hv)
        rcases List.mem_cons.mp (hcover q h1 h2 h4) with h5 | h5
        · exfalso
          refine h3 (Finset.mem_union_right _ (List.mem_toFinset.mpr ?_))
          rw [h5]
          exact hpR
        · exact h5
      by_cases hb1 : Stone.BLACK ∈ (b.find_empty_region_reach p.1 p.2).2 ∧
          Stone.WHITE ∉ (b.find_empty_region_reach p.1 p.2).2
      · have hbord : regionBorders b.size b.grid (p.1, p.2) = {Stone.BLACK} := by
          ext st
          simp only [Set.mem_singleton_iff]
          constructor
          · intro hst
            rcases regionBorders_sub st hst with h | h
            · exact h
            · exfalso
              rw [h] at hst
              exact hb1.2 ((hCmem Stone.WHITE).mpr hst)
          · intro hst
            rw [hst]
            exact (hCmem Stone.BLACK).mp hb1.1
        have hsub : ∀ q ∈ (b.find_empty_region_reach p.1 p.2).1,
            q ∈ territory b Stone.BLACK ∧ q ∉ visited := by
          intro q hq
          refine ⟨⟨(hRon q hq).1, (hRon q hq).2, ?_⟩, hRnv q hq⟩
          exact ((regionBorders_seed_eq (hRclass q hq)).symm).trans hbord
        have hnotW : ∀ q ∈ (b.find_empty_region_reach p.1 p.2).1,
            q ∉ territory b Stone.WHITE := by
          intro q hq hqT
          have hbs : regionBorders b.size b.grid (p.1, p.2) = {Stone.WHITE} :=
            (regionBorders_seed_eq (hRclass q hq)).trans hqT.2.2
          exact hb1.2 ((hCmem Stone.WHITE).mpr
            (by rw [hbs]; exact Set.mem_singleton_iff.mpr rfl))
        rw [scoreFold_cons, if_pos ⟨hemp, hnv⟩, if_pos hb1,
          ih _ _ _ honr hva' hvc' hcover']
        have hsplit := @ncard_split b.size (territory b Stone.BLACK) visited
          (b.find_empty_region_reach p.1 p.2).1 (fun q hq => hq.1) hRnd hsub
        have huntouched := @ncard_untouched (territory b Stone.WHITE) visited
          (b.find_empty_region_reach p.1 p.2).1 hnotW
        rw [hsplit, huntouched]
        refine Prod.ext_iff.mpr ⟨?_, rfl⟩
        omega
      · by_cases hb2 : Stone.WHITE ∈ (b.find_empty_region_reach p.1 p.2).2 ∧
            Stone.BLACK ∉ (b.find_empty_region_reach p.1 p.2).2
        · have hbord : regionBorders b.size b.grid (p.1, p.2) = {Stone.WHITE} := by
            ext st
            simp only [Set.mem_singleton_iff]
            constructor
            · intro hst
              rcases regionBorders_sub st hst with h | h
              · exfalso
                rw [h] at hst
                exact hb2.2 ((hCmem Stone.BLACK).mpr hst)
              · exact h
            · intro hst
              rw [hst]
              exact (hCmem Stone.WHITE).mp hb2.1
          have hsub : ∀ q ∈ (b.find_empty_region_reach p.1 p.2).1,
              q ∈ territory b Stone.WHITE ∧ q ∉ visited := by
            intro q hq
            refine ⟨⟨(hRon q hq).1, (hRon q hq).2, ?_⟩, hRnv q hq⟩
            exact ((regionBorders_seed_eq (hRclass q hq)).symm).trans hbord
          have hnotB : ∀ q ∈ (b.find_empty_region_reach p.1 p.2).1,
              q ∉ territory b Stone.BLACK := by
            intro q hq hqT
            have hbs : regionBorders b.size b.grid (p.1, p.2) = {Stone.BLACK} :=
              (regionBorders_seed_eq (hRclass q hq)).trans hqT.2.2
            exact hb2.2 ((hCmem Stone.BLACK).mpr
              (by rw [hbs]; exact Set.mem_singleton_iff.mpr rfl))
          rw [scoreFold_cons, if_pos ⟨hemp, hnv⟩, if_neg hb1, if_pos hb2,
            ih _ _ _ honr hva' hvc' hcover']
          have hsplit := @ncard_split b.size (territory b Stone.WHITE) visited
            (b.find_empty_region_reach p.1 p.2).1 (fun q hq => hq.1) hRnd hsub
          have huntouched := @ncard_untouched (territory b Stone.BLACK) visited
            (b.find_empty_region_reach p.1 p.2).1 hnotB
          rw [hsplit, huntouched]
          refine Prod.ext_iff.mpr ⟨rfl, ?_⟩
          omega
        · have hnotB : ∀ q ∈ (b.find_empty_region_reach p.1 p.2).1,
              q ∉ territory b Stone.BLACK := by
            intro q hq hqT
            have hbs : regionBorders b.size b.grid (p.1, p.2) = {Stone.BLACK} :=
              (regionBorders_seed_eq (hRclass q hq)).trans hqT.2.2
            refine hb1 ⟨(hCmem Stone.BLACK).mpr
              (by rw [hbs]; exact Set.mem_singleton_iff.mpr rfl), ?_⟩
            intro hW
            have hWb := (hCmem Stone.WHITE).mp hW
            rw [hbs] at hWb
            exact Stone.noConfusion (Set.mem_singleton_iff.mp hWb)
          have hnotW : ∀ q ∈ (b.find_empty_region_reach p.1 p.2).1,
              q ∉ territory b Stone.WHITE := by
            intro q hq hqT
            have hbs : regionBorders b.size b.grid (p.1, p.2) = {Stone.WHITE} :=
              (regionBorders_seed_eq (hRclass q hq)).trans hqT.2.2
            refine hb2 ⟨(hCmem Stone.WHITE).mpr
              (by rw [hbs]; exact Set.mem_singleton_iff.mpr rfl), ?_⟩
            intro hB
            have hBb := (hCmem Stone.BLACK).mp hB
            rw [hbs] at hBb
            exact Stone.noConfusion (Set.mem_singleton_iff.mp hBb)
          rw [scoreFold_cons, if_pos ⟨hemp, hnv⟩, if_neg hb1, if_neg hb2,
            ih _ _ _ honr hva' hvc' hcover',
            @ncard_untouched (territory b Stone.BLACK) visited
              (b.find_empty_region_reach p.1 p.2).1 hnotB,
            @ncard_untouched (territory b Stone.WHITE) visited
              (b.find_empty_region_reach p.1 p.2).1 hnotW]
    · have hcover2 : ∀ q : Point, isOnBoard b.size q.1 q.2 = true →
          gridAt b.grid q.1 q.2 = Stone.EMPTY → q ∉ visited → q ∈ rest := by
        intro q h1 h2 h3
        rcases List.mem_cons.mp (hcover q h1 h2 h3) with h5 | h5
        · exfalso
          rw [h5] at h2 h3
          exact hc ⟨h2, h3⟩
        · exact h5
      rw [scoreFold_cons, if_neg hc]
      exact ih _ _ _ honr hva hvc hcover2

/-- C7 — Territory classification: `calculate_scores` returns, for each
colour, exactly the number of empty on-board points whose maximal
orthogonally-contiguous empty region is bordered by that colour alone
(`regionBorders = {colour}`).  A point of a region bordered by both
colours or by neither (fully empty board) is counted for neither total,
and every empty point is counted at most once, since the totals are
cardinalities of two disjoint sets of points. -/
theorem calculate_scores_spec (b : Board) :
    b.calculate_scores =
      ((territory b Stone.BLACK).ncard, (territory b Stone.WHITE).ncard) := by
  unfold Board.calculate_scores
  rw [scoreFold_spec b (scanPoints b.size) ∅ 0 0
    (fun p hp => scanPoints_mem.mp hp)
    (fun p hp => absurd hp (Finset.not_mem_empty p))
    (fun p q hp _ => absurd hp (Finset.not_mem_empty p))
    (fun p h1 _ _ => scanPoints_mem.mpr h1)]
  have hB : {p : Point | p ∈ territory b Stone.BLACK ∧ p ∉ (∅ : Finset Point)}
      = territory b Stone.BLACK := by
    ext q
    simp only [Set.mem_setOf_eq, Finset.not_mem_empty, not_false_iff, and_true]
  have hW : {p : Point | p ∈ territory b Stone.WHITE ∧ p ∉ (∅ : Finset Point)}
      = territory b Stone.WHITE := by
    ext q
    simp only [Set.mem_setOf_eq, Finset.not_mem_empty, not_false_iff, and_true]
  rw [hB, hW]
  show ((0 : Nat) + _, (0 : Nat) + _) = _
  rw [Nat.zero_add, Nat.zero_add]
